import Mathlib

/-!
Verification of the link-graph and Kanban subsystems of the obsidian-mcp
repository: a shallow embedding of src/tools/links.py, src/tools/kanban.py,
src/models/obsidian.py and src/utils/patterns.py, with theorems settling the
specification claims C1 through C10.

Modelling conventions.
* Strings are lists of characters (abbrev Str below).
* The compiled regular expressions of src/utils/patterns.py are modelled as
  explicit character-list matchers.  Each matcher's comment argues why the
  deterministic function agrees with the backtracking semantics of the
  Python pattern.
* Python dictionaries are insertion-ordered association lists; dict.get is
  lookup of the unique (first) entry for a key.
* Python's list(set(..)) has arbitrary iteration order; it is modelled by a
  deterministic deduplication.  No theorem below depends on the order of a
  deduplicated list.
* File I/O is modelled by passing the vault as an explicit ordered list of
  (relative path, content) pairs; an unreadable file (open/decode error)
  carries none as its content.  The traversal order of Path.rglob is the
  order of that list.
* Floating point health metrics (averages, density score) are outside the
  model; no claim mentions them.
-/

set_option maxRecDepth 4000

abbrev Str := List Char

/-- Convert a Lean string literal to the character-list representation. -/
def strOf (s : String) : Str := s.data

/-- Opening curly brace character (written numerically throughout). -/
def braceL : Char := Char.ofNat 123

/-- Closing curly brace character. -/
def braceR : Char := Char.ofNat 125

/-- Whitespace for Python's str.strip() / regex \s on str (the ASCII
whitespace characters plus the common Unicode whitespace code points). -/
def pyIsSpace (c : Char) : Bool :=
  c = ' ' || c = '\t' || c = '\n' || c.toNat = 13 || c.toNat = 11 || c.toNat = 12 ||
  (28 ≤ c.toNat && c.toNat ≤ 31) || c.toNat = 133 || c.toNat = 160 ||
  c.toNat = 0x1680 || (0x2000 ≤ c.toNat && c.toNat ≤ 0x200a) ||
  c.toNat = 0x2028 || c.toNat = 0x2029 || c.toNat = 0x202f ||
  c.toNat = 0x205f || c.toNat = 0x3000

/-- Python str.strip(): drop whitespace from both ends. -/
def pyStrip (s : Str) : Str :=
  ((s.dropWhile pyIsSpace).reverse.dropWhile pyIsSpace).reverse

/-- Line boundary characters of Python str.splitlines(). -/
def isLineBoundary (c : Char) : Bool :=
  c = '\n' || c.toNat = 13 || c.toNat = 11 || c.toNat = 12 ||
  c.toNat = 28 || c.toNat = 29 || c.toNat = 30 || c.toNat = 133 ||
  c.toNat = 0x2028 || c.toNat = 0x2029

/-- Python str.splitlines(): split at line boundaries, treating CR LF as a
single boundary and producing no trailing empty line. -/
def splitLinesAux : Str → Str → List Str
  | [], acc => if acc = [] then [] else [acc.reverse]
  | '\r' :: '\n' :: rest, acc => acc.reverse :: splitLinesAux rest []
  | c :: rest, acc =>
      if isLineBoundary c then acc.reverse :: splitLinesAux rest []
      else splitLinesAux rest (c :: acc)

/-- Python str.splitlines() on a whole string. -/
def splitLines (s : Str) : List Str := splitLinesAux s []

/-- Python "\n".join(lines). -/
def joinNL (lines : List Str) : Str := (lines.intersperse (strOf ("\n"))).flatten

/-- Python s.startswith(p). -/
def strStarts (s p : Str) : Bool := p.isPrefixOf s

/-- Python s.endswith(p). -/
def strEnds (s p : Str) : Bool := p.isSuffixOf s

/-- Python s.replace(".md", "") — remove every occurrence of ".md",
scanning left to right without overlap. -/
def replaceMdAux : Nat → Str → Str
  | 0, s => s
  | _, [] => []
  | fuel+1, c :: rest =>
      if strStarts (c :: rest) (strOf (".md")) then replaceMdAux fuel (rest.drop 2)
      else c :: replaceMdAux fuel rest

/-- Python s.replace(".md", "") on a whole string. -/
def replaceMd (s : Str) : Str := replaceMdAux s.length s

/-- Split a path into components at '/' (PurePath.parts for a relative
POSIX path). -/
def splitSlash : Str → List Str
  | [] => [[]]
  | c :: rest =>
      match splitSlash rest with
      | [] => [[c]]
      | h :: t => if c = '/' then [] :: h :: t else (c :: h) :: t

/-- Last path component (the file name). -/
def pathName (p : Str) : Str := ((splitSlash p).getLast?).getD []

/-- pathlib Path.stem of a file name ending in ".md": the name with the
".md" suffix removed (a bare ".md" is its own stem, as in pathlib). -/
def stemOf (p : Str) : Str :=
  let name := pathName p
  if strEnds name (strOf (".md")) && decide (3 < name.length) then
    name.take (name.length - 3)
  else name

/-- Substring containment test (Python's in operator on str). -/
def strContainsSub (s pat : Str) : Bool :=
  (List.range (s.length + 1)).any (fun i => strStarts (s.drop i) pat)

/-- Keep the part of the string before the first occurrence of a
character (Python s.split(sep)[0], also correct when sep is absent). -/
def takeBefore (sep : Char) (s : Str) : Str := s.takeWhile (fun c => ¬ (c = sep))

/-- Characters allowed in a tag by TAG_PATTERN: ASCII letters, digits,
underscore, slash and hyphen. -/
def isTagChar (c : Char) : Bool :=
  c.isAlpha || c.isDigit || c = '_' || c = '/' || c = '-'

/-- Matcher for WIKILINK_PATTERN at the start of the string:
the regex is two open brackets, then group 1 = a nonempty run of
characters other than close-bracket and pipe (greedy; maximal, and no
shorter choice can succeed because the next pattern element only accepts
pipe or close-bracket), then an optional pipe plus nonempty alias run,
then two close brackets.  Returns (group 1, rest after the match). -/
def matchWikilinkAt : Str → Option (Str × Str)
  | '[' :: '[' :: rest =>
      let t := rest.takeWhile (fun c => ¬ (c = ']') && ¬ (c = '|'))
      let r := rest.drop t.length
      if t = [] then none
      else
        match r with
        | ']' :: ']' :: r2 => some (t, r2)
        | '|' :: r1 =>
            let a := r1.takeWhile (fun c => ¬ (c = ']'))
            let r2 := r1.drop a.length
            if a = [] then none
            else
              match r2 with
              | ']' :: ']' :: r3 => some (t, r3)
              | _ => none
        | _ => none
  | _ => none

/-- Matcher for EMBED_PATTERN / LINK_EMBED at the start of the string: an
exclamation mark followed by the wikilink shape (the alias group is not
captured, which makes no difference to the returned target). -/
def matchEmbedAt : Str → Option (Str × Str)
  | '!' :: rest =>
      match rest with
      | '[' :: _ => matchWikilinkAt rest
      | _ => none
  | _ => none

/-- Matcher for MARKDOWN_LINK at the start of the string: open bracket,
group 1 = nonempty run of non-close-bracket characters, close bracket,
open paren, group 2 = nonempty run of non-close-paren characters, close
paren.  Returns ((group 1, group 2), rest). -/
def matchMarkdownLinkAt : Str → Option ((Str × Str) × Str)
  | '[' :: rest =>
      let t := rest.takeWhile (fun c => ¬ (c = ']'))
      let r := rest.drop t.length
      if t = [] then none
      else
        match r with
        | ']' :: '(' :: r1 =>
            let u := r1.takeWhile (fun c => ¬ (c = ')'))
            let r2 := r1.drop u.length
            if u = [] then none
            else
              match r2 with
              | ')' :: r3 => some ((t, u), r3)
              | _ => none
        | _ => none
  | _ => none

/-- Matcher for TAG_PATTERN at the start of the string: a hash followed by
a nonempty maximal run of tag characters. -/
def matchTagAt : Str → Option (Str × Str)
  | '#' :: rest =>
      let t := rest.takeWhile isTagChar
      if t = [] then none else some (t, rest.drop t.length)
  | _ => none

/-- re.finditer: scan left to right, trying the matcher at every position;
on a match, continue after it (matches never overlap).  The fuel argument
starts at the string length; every successful match consumes at least one
character, so the fuel never runs out before the string does. -/
def scanAux {α : Type} (matchAt : Str → Option (α × Str)) : Nat → Str → List α
  | 0, _ => []
  | _, [] => []
  | fuel+1, c :: rest =>
      match matchAt (c :: rest) with
      | some (a, r) => a :: scanAux matchAt fuel r
      | none => scanAux matchAt fuel rest

/-- All matches of a matcher in a string, in order (re.finditer). -/
def regexFindAll {α : Type} (matchAt : Str → Option (α × Str)) (s : Str) : List α :=
  scanAux matchAt s.length s

/-! Link extraction (src/tools/links.py, extract_all_links). -/

/-- Result record of extract_all_links. -/
structure ExtractedLinks where
  wikilinks : List Str
  markdown_links : List Str
  embeds : List Str
  all_links : List Str
deriving DecidableEq

/-- Post-processing of a wikilink or embed target: strip an anchor
(everything from the first hash), strip an alias (everything from the
first pipe — dead code, since group 1 cannot contain a pipe), strip
whitespace and drop the target if empty. -/
def cleanWikiTarget (t : Str) : Option Str :=
  let t1 := takeBefore '#' t
  let t2 := takeBefore '|' t1
  let t3 := pyStrip t2
  if t3 = [] then none else some t3

/-- Post-processing of a markdown link url: skip external http(s) links,
remove a trailing ".md", strip an anchor, strip whitespace, drop if
empty. -/
def cleanMarkdownTarget (u : Str) : Option Str :=
  if strStarts u (strOf ("http://")) || strStarts u (strOf ("https://")) then none
  else
    let u1 := if strEnds u (strOf (".md")) then u.take (u.length - 3) else u
    let u2 := takeBefore '#' u1
    let u3 := pyStrip u2
    if u3 = [] then none else some u3

/-- extract_all_links: the three categorized target lists plus their
deduplicated union.  Python builds all_links as list(set(..)) whose order
is arbitrary; it is modelled by List.dedup, and no theorem depends on
the order. -/
def extract_all_links (content : Str) (_source_file : Str) : ExtractedLinks :=
  let wikilinks := (regexFindAll matchWikilinkAt content).filterMap cleanWikiTarget
  let markdown_links :=
    (regexFindAll matchMarkdownLinkAt content).filterMap
      (fun g => cleanMarkdownTarget g.2)
  let embeds := (regexFindAll matchEmbedAt content).filterMap cleanWikiTarget
  { wikilinks := wikilinks
    markdown_links := markdown_links
    embeds := embeds
    all_links := (wikilinks ++ markdown_links ++ embeds).dedup }

/-! The vault filesystem model and note resolution. -/

/-- A vault: an ordered list of (relative path, content) pairs; the order
is the Path.rglob traversal order, and none marks an unreadable file. -/
abbrev Vault := List (Str × Option Str)

/-- A path is visited by the vault walks when its name matches *.md and
no component equals .obsidian. -/
def walkedFile (p : Str) : Bool :=
  strEnds p (strOf (".md")) && ¬ ((splitSlash p).contains (strOf (".obsidian")))

/-- find_note_by_name: candidate strings for a loose reference. -/
def noteCandidates (note_name : Str) : List Str :=
  [ if strEnds note_name (strOf (".md")) then note_name else note_name ++ strOf (".md"),
    if strEnds note_name (strOf (".md")) then note_name.take (note_name.length - 3)
    else note_name ]

/-- find_note_by_name's per-file test: the file name stem or the relative
path matches one of the candidates, each side also compared with every
".md" occurrence removed. -/
def noteFileMatches (note_name : Str) (relative_path : Str) : Bool :=
  (noteCandidates note_name).any fun candidate =>
    let file_name := stemOf relative_path
    file_name = candidate || file_name = replaceMd candidate ||
    relative_path = candidate || replaceMd relative_path = replaceMd candidate

/-- find_note_by_name: first markdown file (in walk order, skipping the
.obsidian directory) matching the candidate set, or none. -/
def find_note_by_name (vault : Vault) (note_name : Str) : Option Str :=
  vault.findSome? fun f =>
    if walkedFile f.1 && noteFileMatches note_name f.1 then some f.1 else none

/-! The link graph (build_link_graph). -/

/-- Per-node link type counters. -/
structure LinkTypes where
  wikilinks : Nat
  markdown_links : Nat
  embeds : Nat
deriving DecidableEq

/-- A node of the link graph. -/
structure GraphNode where
  outlinks : List Str
  inlinks : List Str
  link_types : LinkTypes
deriving DecidableEq

/-- The defaultdict's fresh node value. -/
def emptyNode : GraphNode :=
  { outlinks := [], inlinks := [], link_types := ⟨0, 0, 0⟩ }

/-- The graph: an insertion-ordered association list keyed by relative
path (Python dict preserves insertion order). -/
abbrev Graph := List (Str × GraphNode)

/-- Dictionary lookup (keys are unique by construction). -/
def gFind (g : Graph) (k : Str) : Option GraphNode :=
  (g.find? (fun e => e.1 = k)).map (·.2)

/-- defaultdict access: append a fresh node at the end if the key is
absent. -/
def gTouch (g : Graph) (k : Str) : Graph :=
  if (g.find? (fun e => e.1 = k)).isSome then g else g ++ [(k, emptyNode)]

/-- Update the node of an existing key in place. -/
def gModify (g : Graph) (k : Str) (f : GraphNode → GraphNode) : Graph :=
  g.map fun e => if e.1 = k then (e.1, f e.2) else e

/-- graph[src]["link_types"] assignment for all three counters (touching
the entry first, as the defaultdict access does). -/
def gSetLinkTypes (g : Graph) (k : Str) (t : LinkTypes) : Graph :=
  gModify (gTouch g k) k fun n => { n with link_types := t }

/-- Append target to src's outlinks if not already present. -/
def gAddOutlink (g : Graph) (src target : Str) : Graph :=
  gModify (gTouch g src) src fun n =>
    if n.outlinks.contains target then n
    else { n with outlinks := n.outlinks ++ [target] }

/-- Append src to target's inlinks if not already present. -/
def gAddInlink (g : Graph) (target src : Str) : Graph :=
  gModify (gTouch g target) target fun n =>
    if n.inlinks.contains src then n
    else { n with inlinks := n.inlinks ++ [src] }

/-- The first pass index: dict from stem and from relative path to
relative path; a later file with the same stem overwrites an earlier one
(Python dict assignment). -/
abbrev NoteIndex := List (Str × Str)

/-- Dict assignment: replace the value of an existing key, else append. -/
def dictSet (d : NoteIndex) (k v : Str) : NoteIndex :=
  if (d.find? (fun e => e.1 = k)).isSome then
    d.map fun e => if e.1 = k then (k, v) else e
  else d ++ [(k, v)]

/-- Dict lookup (dict.get). -/
def dictGet (d : NoteIndex) (k : Str) : Option Str :=
  (d.find? (fun e => e.1 = k)).map (·.2)

/-- First pass of build_link_graph: all_notes[stem] = rel and
all_notes[rel] = rel for every walked file. -/
def buildAllNotes (vault : Vault) : NoteIndex :=
  vault.foldl
    (fun d f =>
      if walkedFile f.1 then dictSet (dictSet d (stemOf f.1) f.1) f.1 f.1
      else d)
    []

/-- Resolution of one extracted link against the index:
all_notes.get(link) or all_notes.get(link.replace(".md", "")).  (Index
values are nonempty paths, so Python's or is an option-orelse.) -/
def resolveLink (all_notes : NoteIndex) (link : Str) : Option Str :=
  match dictGet all_notes link with
  | some p => some p
  | none => dictGet all_notes (replaceMd link)

/-- Second pass, one file: record the link type counts, then register
every resolved all_links target as an outlink of the source and an inlink
of the target. -/
def graphAddFile (all_notes : NoteIndex) (g : Graph) (rel : Str) (content : Str) : Graph :=
  let links := extract_all_links content rel
  let g1 := gSetLinkTypes g rel
    ⟨links.wikilinks.length, links.markdown_links.length, links.embeds.length⟩
  links.all_links.foldl
    (fun g link =>
      match resolveLink all_notes link with
      | some target => gAddInlink (gAddOutlink g rel target) target rel
      | none => g)
    g1

/-- build_link_graph: two passes over the vault; unreadable files are
skipped in the second pass (try/except around open). -/
def build_link_graph (vault : Vault) : Graph :=
  let all_notes := buildAllNotes vault
  vault.foldl
    (fun g f =>
      match f with
      | (rel, some content) =>
          if walkedFile rel then graphAddFile all_notes g rel content else g
      | (_, none) => g)
    []

/-! Graph analytics (find_orphaned_notes, analyze_link_health,
get_note_connections). -/

/-- One record of find_orphaned_notes' result. -/
structure OrphanRecord where
  file_path : Str
  inlink_count : Nat
  outlink_count : Nat
deriving DecidableEq

/-- find_orphaned_notes: nodes with no inlinks and no outlinks, in graph
iteration order. -/
def find_orphaned_notes (vault : Vault) : List OrphanRecord :=
  (build_link_graph vault).filterMap fun e =>
    if e.2.inlinks.length = 0 ∧ e.2.outlinks.length = 0 then
      some { file_path := e.1, inlink_count := 0, outlink_count := 0 }
    else none

/-- One broken link record of analyze_link_health. -/
structure BrokenLink where
  source_file : Str
  target : Str
deriving DecidableEq

/-- Health metrics record (integer fields; the floating point averages
and density score of the source are outside the model and no claim
mentions them). -/
structure LinkHealth where
  total_notes : Nat
  total_links : Nat
  orphaned_notes : Nat
  notes_with_no_inlinks : Nat
  notes_with_no_outlinks : Nat
  broken_links : List BrokenLink
  broken_links_count : Nat
deriving DecidableEq

/-- The broken-link re-scan of analyze_link_health: for every readable
walked file and every all_links target, record the link when
find_note_by_name fails or resolves to a path that is not a graph key. -/
def brokenLinksScan (vault : Vault) (graphKeys : List Str) : List BrokenLink :=
  vault.foldl
    (fun acc f =>
      match f with
      | (rel, some content) =>
          if walkedFile rel then
            acc ++ (extract_all_links content rel).all_links.filterMap
              (fun link =>
                match find_note_by_name vault link with
                | none => some { source_file := rel, target := link }
                | some target_path =>
                    if graphKeys.contains target_path then none
                    else some { source_file := rel, target := link })
          else acc
      | (_, none) => acc)
    []

/-- analyze_link_health: aggregate metrics over the graph plus the
independent broken-link re-scan. -/
def analyze_link_health (vault : Vault) : LinkHealth :=
  let graph := build_link_graph vault
  let broken := brokenLinksScan vault (graph.map (·.1))
  { total_notes := graph.length
    total_links := (graph.map (fun e => e.2.outlinks.length)).sum
    orphaned_notes :=
      (graph.filter (fun e => e.2.inlinks.length = 0 ∧ e.2.outlinks.length = 0)).length
    notes_with_no_inlinks := (graph.filter (fun e => e.2.inlinks.length = 0)).length
    notes_with_no_outlinks := (graph.filter (fun e => e.2.outlinks.length = 0)).length
    broken_links := broken
    broken_links_count := broken.length }

/-- One entry of the connections map of get_note_connections: the node's
path with the depth at which it was first discovered and copies of its
edge lists. -/
structure ConnEntry where
  path : Str
  depth : Nat
  inlinks : List Str
  outlinks : List Str
deriving DecidableEq

/-- Result record of get_note_connections. -/
structure Connections where
  note : Str
  direct_inlinks : List Str
  direct_outlinks : List Str
  connection_depth : Nat
  connections : List ConnEntry
deriving DecidableEq

/-- The recursive explore_connections closure.  The source recurses with
current_depth + 1 and returns as soon as current_depth > depth, so the
recursion is driven by the gas depth + 1 - current_depth; the state is
(visited, connections). -/
def exploreConnections (graph : Graph) (depthBound : Nat) :
    Nat → List Str × List ConnEntry → Str → List Str × List ConnEntry
  | 0, st, _ => st
  | gas+1, (visited, conns), current =>
      if visited.contains current then (visited, conns)
      else
        let visited := current :: visited
        match gFind graph current with
        | none => (visited, conns)
        | some node =>
            let current_depth := depthBound + 1 - (gas + 1)
            let conns := conns ++
              [{ path := current, depth := current_depth,
                 inlinks := node.inlinks, outlinks := node.outlinks }]
            node.outlinks.foldl
              (fun st out => exploreConnections graph depthBound gas st out)
              (visited, conns)

/-- get_note_connections: resolve the note (ValueError, modelled as none,
when it cannot be found), then explore along outlinks from the note's
direct outlinks at depth 1. -/
def get_note_connections (vault : Vault) (note_name : Str) (depth : Nat) :
    Option Connections :=
  let graph := build_link_graph vault
  match find_note_by_name vault note_name with
  | none => none
  | some note_path =>
      match gFind graph note_path with
      | none =>
          some { note := note_path, direct_inlinks := [], direct_outlinks := [],
                 connection_depth := depth, connections := [] }
      | some node =>
          let st := node.outlinks.foldl
            (fun st out => exploreConnections graph depth depth st out)
            ([], [])
          some { note := note_path
                 direct_inlinks := node.inlinks
                 direct_outlinks := node.outlinks
                 connection_depth := depth
                 connections := st.2 }

/-! Kanban dates (datetime.date via strptime / strftime). -/

/-- A calendar date as produced by datetime.strptime(.., "%Y-%m-%d"). -/
structure PyDate where
  year : Nat
  month : Nat
  day : Nat
deriving DecidableEq

/-- Gregorian leap year rule used by datetime. -/
def isLeapYear (y : Nat) : Bool := (y % 4 = 0 && ¬ (y % 100 = 0)) || y % 400 = 0

/-- Days in a month. -/
def daysInMonth (y m : Nat) : Nat :=
  if m = 2 then (if isLeapYear y then 29 else 28)
  else if m = 4 || m = 6 || m = 9 || m = 11 then 30 else 31

/-- datetime.strptime(s, "%Y-%m-%d").date() on already-split numeric
components: datetime.date accepts years 1..9999 and valid calendar dates;
anything else raises ValueError (modelled as none). -/
def strptimeDate (y m d : Nat) : Option PyDate :=
  if 1 ≤ y ∧ y ≤ 9999 ∧ 1 ≤ m ∧ m ≤ 12 ∧ 1 ≤ d ∧ d ≤ daysInMonth y m then
    some ⟨y, m, d⟩
  else none

/-- ASCII digit test (regex \d, restricted to ASCII digits). -/
def isDigitCh (c : Char) : Bool := 48 ≤ c.toNat && c.toNat ≤ 57

/-- Numeric value of an ASCII digit character. -/
def digitVal (c : Char) : Nat := c.toNat - 48

/-- ASCII digit character of a value below ten. -/
def digitCh (n : Nat) : Char := Char.ofNat (48 + n)

/-- Matcher for KANBAN_DATE at the start of the string: at-sign, open
brace, four digits, hyphen, two digits, hyphen, two digits, close brace
(thirteen characters in all).  Returns the numeric (year, month, day)
and the rest after the match. -/
def matchDateTokenAt : Str → Option ((Nat × Nat × Nat) × Str)
  | '@' :: b :: c1 :: c2 :: c3 :: c4 :: '-' :: c5 :: c6 :: '-' :: c7 :: c8 :: b2 :: rest =>
      if b = braceL && b2 = braceR &&
         ([c1, c2, c3, c4, c5, c6, c7, c8].all isDigitCh) then
        some ((digitVal c1 * 1000 + digitVal c2 * 100 + digitVal c3 * 10 + digitVal c4,
               digitVal c5 * 10 + digitVal c6,
               digitVal c7 * 10 + digitVal c8), rest)
      else none
  | _ => none

/-- KANBAN_DATE.search: the leftmost match. -/
def kanbanDateSearch : Str → Option (Nat × Nat × Nat)
  | [] => none
  | c :: rest =>
      match matchDateTokenAt (c :: rest) with
      | some (v, _) => some v
      | none => kanbanDateSearch rest

/-- KANBAN_DATE.sub("", s): remove all non-overlapping matches, scanning
left to right.  Fuel starts at the string length; a match consumes
thirteen characters, so the fuel suffices. -/
def kanbanDateSubAux : Nat → Str → Str
  | 0, s => s
  | _, [] => []
  | fuel+1, c :: rest =>
      match matchDateTokenAt (c :: rest) with
      | some (_, r) => kanbanDateSubAux fuel r
      | none => c :: kanbanDateSubAux fuel rest

/-- KANBAN_DATE.sub("", s) on a whole string. -/
def kanbanDateSub (s : Str) : Str := kanbanDateSubAux s.length s

/-! Kanban line matchers. -/

/-- Matcher for KANBAN_COLUMN on a whole (boundary-free) line:
two or three hashes (a longer hash run cannot match, since the element
after the hashes requires whitespace), then at least one whitespace
character and at least one further character.  Returns the hash count and
group(2).strip(); the greedy whitespace run backtracks at most one
character, so group(2).strip() equals the stripped remainder after the
hashes. -/
def kanbanColumnMatch (line : Str) : Option (Nat × Str) :=
  let hashes := line.takeWhile (fun c => c = '#')
  let r := line.drop hashes.length
  if hashes.length = 2 ∨ hashes.length = 3 then
    match r with
    | c :: _ :: _ => if pyIsSpace c then some (hashes.length, pyStrip r) else none
    | _ => none
  else none

/-- Matcher for KANBAN_CARD on a whole (boundary-free) line: leading
whitespace (group 1), a hyphen, optional whitespace, an open bracket, a
status character (space, x or X), a close bracket, then at least one
whitespace character and at least one further character (group 3).
Returns (len(group 1), status character, group(3).strip()). -/
def kanbanCardMatch (line : Str) : Option (Nat × Char × Str) :=
  let ind := line.takeWhile pyIsSpace
  let r1 := line.drop ind.length
  match r1 with
  | '-' :: r2 =>
      let sp2 := r2.takeWhile pyIsSpace
      let r3 := r2.drop sp2.length
      match r3 with
      | '[' :: st :: ']' :: r4 =>
          if st = ' ' ∨ st = 'x' ∨ st = 'X' then
            match r4 with
            | c :: _ :: _ =>
                if pyIsSpace c then some (ind.length, st, pyStrip r4) else none
            | _ => none
          else none
      | _ => none
  | _ => none

/-! The Kanban data model (src/models/obsidian.py).  Cards are a nested
tree; the mutual pair KCard / KForest keeps every function on them
structurally recursive and computable. -/

mutual
inductive KCard : Type where
  | mk (text : Str) (status : Str) (due_date : Option PyDate)
       (tags : List Str) (wikilinks : List Str) (subtasks : KForest)
       (indent_level : Nat) (line_number : Nat)
inductive KForest : Type where
  | nil
  | cons (c : KCard) (rest : KForest)
end

deriving instance DecidableEq for KCard
deriving instance DecidableEq for KForest

def KCard.text : KCard → Str
  | .mk t _ _ _ _ _ _ _ => t

def KCard.status : KCard → Str
  | .mk _ s _ _ _ _ _ _ => s

def KCard.due_date : KCard → Option PyDate
  | .mk _ _ d _ _ _ _ _ => d

def KCard.tags : KCard → List Str
  | .mk _ _ _ tg _ _ _ _ => tg

def KCard.wikilinks : KCard → List Str
  | .mk _ _ _ _ w _ _ _ => w

def KCard.subtasks : KCard → KForest
  | .mk _ _ _ _ _ subs _ _ => subs

def KCard.indent_level : KCard → Nat
  | .mk _ _ _ _ _ _ i _ => i

def KCard.line_number : KCard → Nat
  | .mk _ _ _ _ _ _ _ l => l

/-- Number of root entries of a forest (Python len on the cards list). -/
def KForest.rootCount : KForest → Nat
  | .nil => 0
  | .cons _ rest => rest.rootCount + 1

/-- Python list.append on a forest. -/
def KForest.push : KForest → KCard → KForest
  | .nil, c => .cons c .nil
  | .cons h rest, c => .cons h (rest.push c)

/-- View a forest as a list of its root cards. -/
def KForest.toList : KForest → List KCard
  | .nil => []
  | .cons c rest => c :: rest.toList

mutual
/-- count_cards of get_kanban_statistics_fs_tool (single card): recursive
(total, completed) count over all nesting levels. -/
def count_cards_card : KCard → Nat × Nat
  | .mk _ s _ _ _ subs _ _ =>
      let sub := count_cards subs
      (1 + sub.1, (if s = strOf ("completed") then 1 else 0) + sub.2)
/-- count_cards of get_kanban_statistics_fs_tool: recursive
(total, completed) count over a forest. -/
def count_cards : KForest → Nat × Nat
  | .nil => (0, 0)
  | .cons c rest =>
      let a := count_cards_card c
      let b := count_cards rest
      (a.1 + b.1, a.2 + b.2)
end

/-- A Kanban column.  card_count and heading_level are stored fields:
pydantic computes card_count once, at construction time, from the cards
list the constructor receives, and never again when that list is mutated
afterwards. -/
structure KanbanColumn where
  name : Str
  cards : KForest
  card_count : Nat
  heading_level : Nat
  line_number : Nat
deriving DecidableEq

/-- A Kanban board.  total_cards is likewise computed once, at
construction time, from the columns' stored card_count fields. -/
structure KanbanBoard where
  file_path : Str
  columns : List KanbanColumn
  settings : List (Str × Str)
  total_cards : Nat
deriving DecidableEq

/-- KanbanCard model construction: the text validator strips the text and
rejects an empty result (ValidationError, modelled as none). -/
def mkKanbanCard (text status : Str) (due : Option PyDate)
    (tags wikilinks : List Str) (subtasks : KForest)
    (indent line : Nat) : Option KCard :=
  if pyStrip text = [] then none
  else some (.mk (pyStrip text) status due tags wikilinks subtasks indent line)

/-- KanbanColumn model construction: the name validator strips the name
and rejects an empty result; card_count is computed here, once, as the
length of the cards list passed in. -/
def mkKanbanColumn (name : Str) (cards : KForest) (line : Nat) :
    Option KanbanColumn :=
  if pyStrip name = [] then none
  else some { name := pyStrip name, cards := cards,
              card_count := cards.rootCount, heading_level := 2,
              line_number := line }

/-- KanbanBoard model construction: total_cards is computed here, once,
as the sum of the columns' stored card_count fields. -/
def mkKanbanBoard (fp : Str) (columns : List KanbanColumn)
    (settings : List (Str × Str)) : KanbanBoard :=
  { file_path := fp, columns := columns, settings := settings,
    total_cards := (columns.map (·.card_count)).sum }

/-! parse_card_metadata. -/

/-- Metadata extracted from a card's text. -/
structure CardMetadata where
  due_date : Option PyDate
  tags : List Str
  wikilinks : List Str
deriving DecidableEq

/-- parse_card_metadata: the first due-date token (dropped when strptime
rejects it), all tags, and all raw wikilink targets. -/
def parse_card_metadata (card_text : Str) : CardMetadata :=
  { due_date :=
      match kanbanDateSearch card_text with
      | some (y, m, d) => strptimeDate y m d
      | none => none
    tags := regexFindAll matchTagAt card_text
    wikilinks := regexFindAll matchWikilinkAt card_text }

/-! The parse_kanban_structure state machine.

Python builds the card tree by mutation: a card is appended to its
parent's subtasks list the moment it is pushed onto the nesting stack,
and keeps receiving its own subtasks afterwards through the shared
reference.  The stack is always a path (each stacked card is the last
subtask so far of the card below it, and all appends go through the top),
so the same tree is obtained purely by keeping, for every stacked card, a
frame with its accumulated children, and installing the children when the
frame is popped. -/

/-- A stack frame: the card (subtasks field unused until closing) and its
children accumulated so far. -/
abbrev PFrame := KCard × KForest

/-- Close a frame: install the accumulated children as the subtasks. -/
def closeFrame : PFrame → KCard
  | (.mk t s d tg w _ i l, children) => .mk t s d tg w children i l

/-- Append a closed card as the last child of a frame. -/
def attachChild (f : PFrame) (c : KCard) : PFrame := (f.1, f.2.push c)

/-- Pop frames while the top's indent level is at least lvl, carrying a
just-closed card downward: the carry becomes the last child of the frame
below it (that attachment happened at push time in Python), and a carry
with no frame below it is a finished root. -/
def popCarry (lvl : Nat) (carry : KCard) :
    List PFrame → KForest → List PFrame × KForest
  | [], fin => ([], fin.push carry)
  | g :: rest, fin =>
      let g2 := attachChild g carry
      if lvl ≤ g2.1.indent_level then popCarry lvl (closeFrame g2) rest fin
      else (g2 :: rest, fin)

/-- The while loop: pop while the stack top's indent level is ≥ lvl. -/
def popGE (lvl : Nat) : List PFrame → KForest → List PFrame × KForest
  | [], fin => ([], fin)
  | f :: rest, fin =>
      if lvl ≤ f.1.indent_level then popCarry lvl (closeFrame f) rest fin
      else (f :: rest, fin)

/-- The column being built: the KanbanColumn record as constructed at its
heading line (cards empty, card_count zero), the finished root cards, and
the nesting stack. -/
structure PColState where
  col : KanbanColumn
  fin : KForest
  stack : List PFrame
deriving DecidableEq

/-- Parser state: completed columns and the open column, if any. -/
structure PState where
  columns : List KanbanColumn
  cur : Option PColState
deriving DecidableEq

/-- Close the open column: flush the whole stack (every indent level is
≥ 0) and install the cards by mutating the record's cards list — the
card_count computed at construction is deliberately not recomputed. -/
def closeColumn (c : PColState) : KanbanColumn :=
  let r := popGE 0 c.stack c.fin
  { c.col with cards := r.2 }

/-- Handle one line that is not a level-2 column heading: a card line is
processed when a column is open (the nesting rule: pop while the stack
top's indent is ≥ the new card's indent; the card then becomes a subtask
of the remaining top, or a root card when the stack has emptied — and an
indent-0 card always empties the stack, matching both source branches);
any other line is skipped. -/
def cardLineStep (st : PState) (line_num : Nat) (line : Str) : Option PState :=
  match kanbanCardMatch line, st.cur with
  | some (indLen, stch, card_text), some c =>
      let indent_level := indLen / 2
      let status := if stch = 'x' ∨ stch = 'X' then strOf ("completed")
                    else strOf ("incomplete")
      let meta := parse_card_metadata card_text
      let clean_text := pyStrip (kanbanDateSub card_text)
      match mkKanbanCard clean_text status meta.due_date meta.tags
          meta.wikilinks KForest.nil indent_level line_num with
      | none => none
      | some card =>
          let r := popGE indent_level c.stack c.fin
          let c2 : PColState :=
            { col := c.col, fin := r.2, stack := (card, KForest.nil) :: r.1 }
          some { st with cur := some c2 }
  | _, _ => some st

/-- Handle one line of the board. -/
def parseLineStep (st : PState) (line_num : Nat) (line : Str) : Option PState :=
  match kanbanColumnMatch line with
  | some (hashes, name) =>
      if hashes = 2 then
        let columns :=
          match st.cur with
          | some c => st.columns ++ [closeColumn c]
          | none => st.columns
        match mkKanbanColumn name KForest.nil line_num with
        | none => none
        | some col =>
            some { columns := columns,
                   cur := some { col := col, fin := KForest.nil, stack := [] } }
      else
        cardLineStep st line_num line
  | none => cardLineStep st line_num line

/-- Fold the step over the lines with 1-based line numbers. -/
def parseLinesAux : PState → Nat → List Str → Option PState
  | st, _, [] => some st
  | st, n, l :: rest =>
      match parseLineStep st n l with
      | none => none
      | some st2 => parseLinesAux st2 (n + 1) rest

/-- The part of the string before the first occurrence of newline dash
dash dash, or none when there is no such occurrence. -/
def beforeNLDashes : Str → Option Str
  | [] => none
  | c :: rest =>
      if strStarts (c :: rest) (strOf ("\n---")) then some []
      else
        match beforeNLDashes rest with
        | some mid => some (c :: mid)
        | none => none

/-- Frontmatter detection: re.match of three dashes, a greedy whitespace
run, a newline, a lazy DOTALL group, then newline and three dashes.  The
greedy run settles on the last newline inside the maximal whitespace run
after the dashes, and the lazy group ends at the first later occurrence
of newline-dash-dash-dash.  If there is none the whole match fails:
deeper backtracking cannot succeed, because an occurrence of
newline-dash-dash-dash cannot begin strictly inside the all-whitespace
run.  Returns group(1). -/
def kanbanFrontmatterInner (content : Str) : Option Str :=
  match content with
  | '-' :: '-' :: '-' :: r =>
      let w := r.takeWhile pyIsSpace
      if w.contains '\n' then
        let afterLastNL := (w.reverse.takeWhile (fun c => ¬ (c = '\n'))).reverse
        beforeNLDashes (afterLastNL ++ r.drop w.length)
      else none
  | _ => none

/-- parse_kanban_structure: the line state machine, the final column
flush, the frontmatter settings scan, and board construction.  A pydantic
ValidationError (empty card text or column name) is modelled as none. -/
def parse_kanban_structure (content : Str) (file_path : Str) :
    Option KanbanBoard :=
  match parseLinesAux { columns := [], cur := none } 1 (splitLines content) with
  | none => none
  | some st =>
      let columns :=
        match st.cur with
        | some c => st.columns ++ [closeColumn c]
        | none => st.columns
      let settings : List (Str × Str) :=
        match kanbanFrontmatterInner content with
        | some mid =>
            if strContainsSub mid (strOf ("kanban-plugin:")) then
              [(strOf ("kanban-plugin"), strOf ("basic"))]
            else []
        | none => []
      some (mkKanbanBoard file_path columns settings)

/-! Serialization (format_kanban_card, write_kanban_board). -/

/-- date.strftime("%Y-%m-%d") (zero-padded fields, as documented). -/
def strftimeDate (d : PyDate) : Str :=
  [digitCh (d.year / 1000 % 10), digitCh (d.year / 100 % 10),
   digitCh (d.year / 10 % 10), digitCh (d.year % 10), '-',
   digitCh (d.month / 10 % 10), digitCh (d.month % 10), '-',
   digitCh (d.day / 10 % 10), digitCh (d.day % 10)]

/-- The re-appended due date: space, at-sign, open brace, the formatted
date, close brace. -/
def dueToken (d : PyDate) : Str :=
  ' ' :: '@' :: braceL :: (strftimeDate d ++ [braceR])

/-- format_kanban_card: two spaces per indent level, the checkbox from
the status, the text, and the due date token if present. -/
def format_kanban_card (card : KCard) (indent : Nat) : Str :=
  let checkbox := if card.status = strOf ("completed") then strOf ("[x]")
                  else strOf ("[ ]")
  let text := card.text ++ (match card.due_date with
                            | some d => dueToken d
                            | none => [])
  List.replicate (2 * indent) ' ' ++ strOf ("- ") ++ checkbox ++ ' ' :: text

mutual
/-- write_cards on a single card: its formatted line, then its subtasks
one level deeper. -/
def emitCard : KCard → Nat → List Str
  | .mk t s d tg w subs i l, indent =>
      format_kanban_card (.mk t s d tg w subs i l) indent :: emitForest subs (indent + 1)
/-- write_cards on a forest of sibling cards. -/
def emitForest : KForest → Nat → List Str
  | .nil, _ => []
  | .cons c rest, indent => emitCard c indent ++ emitForest rest indent
end

/-- The lines written by write_kanban_board: the frontmatter block when
settings are present, then, per column, the heading, a blank line, the
card lines, and a closing blank line. -/
def write_kanban_board_lines (board : KanbanBoard) : List Str :=
  let fm : List Str :=
    if board.settings.isEmpty then []
    else
      strOf ("---") ::
      ((match board.settings.find? (fun e => e.1 = strOf ("kanban-plugin")) with
        | some e => [strOf ("kanban-plugin: ") ++ e.2]
        | none => []) ++ [strOf ("---"), []])
  fm ++ board.columns.flatMap (fun col =>
    (strOf ("## ") ++ col.name) :: ([] : Str) :: (emitForest col.cards 0 ++ [([] : Str)]))

/-- The file content written by write_kanban_board ("\n".join(lines)).
The filesystem write and its boolean success flag are outside the
model. -/
def write_kanban_board_content (board : KanbanBoard) : Str :=
  joinNL (write_kanban_board_lines board)

/-! Card lookup and toggling (find_card_in_board,
toggle_kanban_card_fs_tool). -/

/-- search_cards of find_card_in_board: depth-first, the card itself
before its subtasks, with the parent card threaded through.  Returns
(card, parent). -/
def searchCards (t : Str) (parent : Option KCard) : KForest → Option (KCard × Option KCard)
  | .nil => none
  | .cons (.mk tx s d tg w subs i l) rest =>
      if tx = t then some (.mk tx s d tg w subs i l, parent)
      else
        match searchCards t (some (.mk tx s d tg w subs i l)) subs with
        | some r => some r
        | none => searchCards t parent rest

/-- find_card_in_board: first match over the columns (restricted to one
column when a name is given), returning (column, card, parent). -/
def find_card_in_board (board : KanbanBoard) (card_text : Str)
    (column_name : Option Str) : Option (KanbanColumn × KCard × Option KCard) :=
  let columns_to_search : List KanbanColumn :=
    match column_name with
    | some n => board.columns.filter (fun (c : KanbanColumn) => decide (c.name = n))
    | none => board.columns
  columns_to_search.findSome? fun (column : KanbanColumn) =>
    (searchCards card_text none column.cards).map
      (fun (r : KCard × Option KCard) => (column, r.1, r.2))

/-- The status flip of toggle_kanban_card_fs_tool: completed when the
status is the string incomplete, incomplete otherwise. -/
def flipCard : KCard → KCard
  | .mk tx s d tg w subs i l =>
      .mk tx (if s = strOf ("incomplete") then strOf ("completed")
              else strOf ("incomplete")) d tg w subs i l

/-- Flip the status of the first card with the given text in depth-first
order (the card itself before its subtasks, then the following
siblings), leaving everything else unchanged; the flag reports whether a
match was found. -/
def toggleInForest (t : Str) : KForest → KForest × Bool
  | .nil => (.nil, false)
  | .cons (.mk tx s d tg w subs i l) rest =>
      if tx = t then (.cons (flipCard (.mk tx s d tg w subs i l)) rest, true)
      else
        match toggleInForest t subs with
        | (subs2, true) => (.cons (.mk tx s d tg w subs2 i l) rest, true)
        | (_, false) =>
            let r := toggleInForest t rest
            (.cons (.mk tx s d tg w subs i l) r.1, r.2)

/-- Flip the first match across the columns, skipping columns excluded by
the optional column name; none when no card matches (the ValueError of
the tool). -/
def toggleCardInColumns (t : Str) (colName : Option Str) :
    List KanbanColumn → Option (List KanbanColumn)
  | [] => none
  | col :: rest =>
      let allowed : Bool := match colName with
                            | some n => decide (col.name = n)
                            | none => true
      if allowed then
        match toggleInForest t col.cards with
        | (cards2, true) => some ({ col with cards := cards2 } :: rest)
        | (_, false) => (toggleCardInColumns t colName rest).map (col :: ·)
      else (toggleCardInColumns t colName rest).map (col :: ·)

/-- Core of toggle_kanban_card_fs_tool: parse the file content, flip the
status of the first card found with the given text (find_card_in_board
order), and reserialize.  none models the ValueError when the content
fails to parse or the card is not found; the vault path handling, file
existence check and write-back success flag are outside the model. -/
def toggle_kanban_card (content : Str) (file_path : Str) (card_text : Str)
    (column_name : Option Str) : Option Str :=
  match parse_kanban_structure content file_path with
  | none => none
  | some board =>
      match toggleCardInColumns card_text column_name board.columns with
      | none => none
      | some cols2 =>
          some (write_kanban_board_content { board with columns := cols2 })

/-! Generic fold helpers. -/

/-- An invariant preserved by every step is preserved by a left fold. -/
theorem foldl_pres {α β : Type} {P : α → Prop} {f : α → β → α}
    (h : ∀ a b, P a → P (f a b)) : ∀ (l : List β) (a : α), P a → P (List.foldl f a l) := by
  intro l
  induction l with
  | nil => intro a ha; exact ha
  | cons x xs ih => intro a ha; exact ih (f a x) (h a x ha)

/-- A property established by some list member's step and preserved by all
later steps holds of a left fold over a list containing that member. -/
theorem foldl_mem {α β : Type} {P : α → Prop} {f : α → β → α}
    (hpres : ∀ a b, P a → P (f a b)) (x : β) (hx : ∀ a, P (f a x)) :
    ∀ (l : List β) (a : α), x ∈ l → P (List.foldl f a l) := by
  intro l
  induction l with
  | nil => intro a hm; cases hm
  | cons y ys ih =>
      intro a hm
      rcases List.mem_cons.mp hm with h | h
      · subst h; exact foldl_pres hpres ys (f a x) (hx a)
      · exact ih (f a y) h

/-! Lookup lemmas for the graph dictionary operations. -/

/-- The outlinks list of a node, empty when the node is absent. -/
def graphOutlinks (g : Graph) (p : Str) : List Str :=
  ((gFind g p).map GraphNode.outlinks).getD []

/-- The inlinks list of a node, empty when the node is absent. -/
def graphInlinks (g : Graph) (p : Str) : List Str :=
  ((gFind g p).map GraphNode.inlinks).getD []

/-- The node stored for a key, or the defaultdict default. -/
def nodeOrEmpty (g : Graph) (k : Str) : GraphNode := (gFind g k).getD emptyNode

theorem gFind_gModify (g : Graph) (k : Str) (f : GraphNode → GraphNode) (p : Str) :
    gFind (gModify g k f) p = if p = k then (gFind g p).map f else gFind g p := by
  induction g with
  | nil => by_cases hpk : p = k <;> simp [gFind, gModify, hpk]
  | cons e rest ih =>
      by_cases hek : e.1 = k <;> by_cases hep : e.1 = p
      · have hpk : p = k := hep.symm.trans hek
        subst hpk
        simp [gFind, gModify, List.find?_cons, hek, hep]
      · have hpk : ¬ (p = k) := fun h => hep ((h ▸ hek : e.1 = p))
        simp only [gFind, gModify, List.map_cons] at *
        rw [List.find?_cons_of_neg, List.find?_cons_of_neg]
        · simpa [gFind, gModify, hpk] using ih
        · simpa using hep
        · simpa [hek] using hep
      · have hpk : ¬ (p = k) := fun h => hek ((h ▸ hep : e.1 = k))
        simp only [gFind, gModify, List.map_cons] at *
        rw [List.find?_cons_of_pos, List.find?_cons_of_pos] <;> simp [hek, hep, hpk]
      · simp only [gFind, gModify, List.map_cons] at *
        rw [List.find?_cons_of_neg, List.find?_cons_of_neg]
        · simpa [gFind, gModify] using ih
        · simpa using hep
        · simpa [hek] using hep

theorem find?_append {α : Type} (l₁ l₂ : List α) (p : α → Bool) :
    (l₁ ++ l₂).find? p = match l₁.find? p with
                         | some a => some a
                         | none => l₂.find? p := by
  induction l₁ with
  | nil => simp
  | cons x xs ih =>
      by_cases hx : p x
      · simp [List.find?_cons_of_pos, hx]
      · simp only [List.cons_append]
        rw [List.find?_cons_of_neg _ (by simpa using hx),
            List.find?_cons_of_neg _ (by simpa using hx)]
        exact ih

theorem gFind_gTouch_self (g : Graph) (k : Str) :
    gFind (gTouch g k) k = some (nodeOrEmpty g k) := by
  unfold gTouch nodeOrEmpty
  cases h : (g.find? (fun e => e.1 = k)) with
  | some e =>
      have : gFind g k = some e.2 := by simp [gFind, h]
      simp [h, this]
  | none =>
      have hg : gFind g k = none := by simp [gFind, h]
      simp only [h, Option.isSome_none, Bool.false_eq_true, if_false]
      simp [gFind, find?_append, h, hg]

theorem gFind_gTouch_ne (g : Graph) (k p : Str) (hpk : ¬ (p = k)) :
    gFind (gTouch g k) p = gFind g p := by
  unfold gTouch
  cases h : (g.find? (fun e => e.1 = k)) with
  | some e => simp [h]
  | none =>
      simp only [h, Option.isSome_none, Bool.false_eq_true, if_false]
      have hkp : ¬ (k = p) := fun h2 => hpk h2.symm
      simp [gFind, find?_append, hkp]

/-- The node update applied by gAddOutlink. -/
def outUpd (t : Str) (n : GraphNode) : GraphNode :=
  if n.outlinks.contains t then n else { n with outlinks := n.outlinks ++ [t] }

/-- The node update applied by gAddInlink. -/
def inUpd (s : Str) (n : GraphNode) : GraphNode :=
  if n.inlinks.contains s then n else { n with inlinks := n.inlinks ++ [s] }

theorem gFind_gAddOutlink (g : Graph) (s t p : Str) :
    gFind (gAddOutlink g s t) p =
      if p = s then some (outUpd t (nodeOrEmpty g s)) else gFind g p := by
  show gFind (gModify (gTouch g s) s (outUpd t)) p = _
  rw [gFind_gModify]
  by_cases hps : p = s
  · subst hps; rw [gFind_gTouch_self]; simp
  · simp [hps, gFind_gTouch_ne g s p hps]

theorem gFind_gAddInlink (g : Graph) (t s p : Str) :
    gFind (gAddInlink g t s) p =
      if p = t then some (inUpd s (nodeOrEmpty g t)) else gFind g p := by
  show gFind (gModify (gTouch g t) t (inUpd s)) p = _
  rw [gFind_gModify]
  by_cases hpt : p = t
  · subst hpt; rw [gFind_gTouch_self]; simp
  · simp [hpt, gFind_gTouch_ne g t p hpt]

theorem gFind_gSetLinkTypes (g : Graph) (k : Str) (lt : LinkTypes) (p : Str) :
    gFind (gSetLinkTypes g k lt) p =
      if p = k then some { nodeOrEmpty g k with link_types := lt } else gFind g p := by
  show gFind (gModify (gTouch g k) k _) p = _
  rw [gFind_gModify]
  by_cases hpk : p = k
  · subst hpk; rw [gFind_gTouch_self]; simp
  · simp [hpk, gFind_gTouch_ne g k p hpk]

theorem graphOutlinks_eq (g : Graph) (p : Str) :
    graphOutlinks g p = (nodeOrEmpty g p).outlinks := by
  unfold graphOutlinks nodeOrEmpty
  cases gFind g p <;> simp [emptyNode]

theorem graphInlinks_eq (g : Graph) (p : Str) :
    graphInlinks g p = (nodeOrEmpty g p).inlinks := by
  unfold graphInlinks nodeOrEmpty
  cases gFind g p <;> simp [emptyNode]

theorem outUpd_inlinks (t : Str) (n : GraphNode) : (outUpd t n).inlinks = n.inlinks := by
  unfold outUpd; split <;> rfl

theorem inUpd_outlinks (s : Str) (n : GraphNode) : (inUpd s n).outlinks = n.outlinks := by
  unfold inUpd; split <;> rfl

theorem outUpd_mem (t : Str) (n : GraphNode) (b : Str) :
    b ∈ (outUpd t n).outlinks ↔ b ∈ n.outlinks ∨ b = t := by
  unfold outUpd
  split
  next hcont =>
    have ht : t ∈ n.outlinks := by simpa using hcont
    constructor
    · intro hb; exact Or.inl hb
    · rintro (hb | rfl)
      · exact hb
      · exact ht
  next hcont => simp

theorem inUpd_mem (s : Str) (n : GraphNode) (a : Str) :
    a ∈ (inUpd s n).inlinks ↔ a ∈ n.inlinks ∨ a = s := by
  unfold inUpd
  split
  next hcont =>
    have hs : s ∈ n.inlinks := by simpa using hcont
    constructor
    · intro ha; exact Or.inl ha
    · rintro (ha | rfl)
      · exact ha
      · exact hs
  next hcont => simp

/-- Graph symmetry: every outlink edge has its reverse inlink edge. -/
def SymGraph (g : Graph) : Prop :=
  ∀ a b : Str, b ∈ graphOutlinks g a → a ∈ graphInlinks g b

theorem graphOutlinks_gAddInlink (g : Graph) (t s p : Str) :
    graphOutlinks (gAddInlink g t s) p = graphOutlinks g p := by
  rw [graphOutlinks_eq, graphOutlinks_eq]
  unfold nodeOrEmpty
  rw [gFind_gAddInlink]
  by_cases hpt : p = t
  · subst hpt; simp [inUpd_outlinks, nodeOrEmpty]
  · simp [hpt]

theorem graphInlinks_gAddOutlink (g : Graph) (s t p : Str) :
    graphInlinks (gAddOutlink g s t) p = graphInlinks g p := by
  rw [graphInlinks_eq, graphInlinks_eq]
  unfold nodeOrEmpty
  rw [gFind_gAddOutlink]
  by_cases hps : p = s
  · subst hps; simp [outUpd_inlinks, nodeOrEmpty]
  · simp [hps]

theorem graphOutlinks_gAddOutlink_mem (g : Graph) (s t a b : Str) :
    b ∈ graphOutlinks (gAddOutlink g s t) a ↔
      b ∈ graphOutlinks g a ∨ (a = s ∧ b = t) := by
  rw [graphOutlinks_eq, graphOutlinks_eq]
  unfold nodeOrEmpty
  rw [gFind_gAddOutlink]
  by_cases has : a = s
  · subst has
    simp only [eq_self_iff_true, if_true, true_and, Option.getD_some]
    exact outUpd_mem t _ b
  · simp [has]

theorem graphInlinks_gAddInlink_mem (g : Graph) (t s a p : Str) :
    a ∈ graphInlinks (gAddInlink g t s) p ↔
      a ∈ graphInlinks g p ∨ (p = t ∧ a = s) := by
  rw [graphInlinks_eq, graphInlinks_eq]
  unfold nodeOrEmpty
  rw [gFind_gAddInlink]
  by_cases hpt : p = t
  · subst hpt
    simp only [eq_self_iff_true, if_true, true_and, Option.getD_some]
    exact inUpd_mem s _ a
  · simp [hpt]

theorem graphOutlinks_gSetLinkTypes (g : Graph) (k : Str) (lt : LinkTypes) (p : Str) :
    graphOutlinks (gSetLinkTypes g k lt) p = graphOutlinks g p := by
  rw [graphOutlinks_eq, graphOutlinks_eq]
  unfold nodeOrEmpty
  rw [gFind_gSetLinkTypes]
  by_cases hpk : p = k
  · subst hpk; simp [nodeOrEmpty]
  · simp [hpk]

theorem graphInlinks_gSetLinkTypes (g : Graph) (k : Str) (lt : LinkTypes) (p : Str) :
    graphInlinks (gSetLinkTypes g k lt) p = graphInlinks g p := by
  rw [graphInlinks_eq, graphInlinks_eq]
  unfold nodeOrEmpty
  rw [gFind_gSetLinkTypes]
  by_cases hpk : p = k
  · subst hpk; simp [nodeOrEmpty]
  · simp [hpk]

theorem sym_addEdge (g : Graph) (s t : Str) (h : SymGraph g) :
    SymGraph (gAddInlink (gAddOutlink g s t) t s) := by
  intro a b hb
  rw [graphOutlinks_gAddInlink] at hb
  rw [graphOutlinks_gAddOutlink_mem] at hb
  rw [graphInlinks_gAddInlink_mem, graphInlinks_gAddOutlink]
  rcases hb with hb | ⟨has, hbt⟩
  · exact Or.inl (h a b hb)
  · exact Or.inr ⟨hbt, has⟩

theorem sym_graphAddFile (all_notes : NoteIndex) (g : Graph) (rel content : Str)
    (h : SymGraph g) : SymGraph (graphAddFile all_notes g rel content) := by
  unfold graphAddFile
  apply foldl_pres
  · intro g2 link hg2
    cases hres : resolveLink all_notes link with
    | some target => simpa [hres] using sym_addEdge g2 rel target hg2
    | none => simpa [hres] using hg2
  · intro a b hb
    rw [graphOutlinks_gSetLinkTypes] at hb
    rw [graphInlinks_gSetLinkTypes]
    exact h a b hb

theorem sym_build_link_graph (vault : Vault) : SymGraph (build_link_graph vault) := by
  unfold build_link_graph
  apply foldl_pres
  · intro g f hg
    cases f with
    | mk rel content =>
        cases content with
        | some c =>
            by_cases hw : walkedFile rel
            · simpa [hw] using sym_graphAddFile (buildAllNotes vault) g rel c hg
            · simpa [hw] using hg
        | none => simpa using hg
  · intro a b hb
    simp [graphOutlinks, gFind] at hb

/-! Uniqueness of graph keys. -/

theorem keys_gModify (g : Graph) (k : Str) (f : GraphNode → GraphNode) :
    (gModify g k f).map Prod.fst = g.map Prod.fst := by
  unfold gModify
  rw [List.map_map]
  apply List.map_congr_left
  intro e _
  by_cases h : e.1 = k <;> simp [h]

theorem keys_gTouch (g : Graph) (k : Str) :
    ((gTouch g k).map Prod.fst).Nodup ↔ (g.map Prod.fst).Nodup := by
  unfold gTouch
  cases h : g.find? (fun e => e.1 = k) with
  | some e => simp [h]
  | none =>
      have hk : ∀ e ∈ g, ¬ (e.1 = k) := by
        intro e he
        have := List.find?_eq_none.mp h e he
        simpa using this
      simp only [h, Option.isSome_none, Bool.false_eq_true, if_false, List.map_append]
      rw [List.nodup_append]
      constructor
      · intro hn; exact hn.1
      · intro hn
        refine ⟨hn, List.nodup_singleton k, ?_⟩
        intro x hx hk2
        have : x = k := by simpa using hk2
        subst this
        rcases List.mem_map.mp hx with ⟨e, he, hek⟩
        exact hk e he hek

/-- Keys of the built graph are pairwise distinct. -/
theorem build_link_graph_keys_nodup (vault : Vault) :
    ((build_link_graph vault).map Prod.fst).Nodup := by
  show ((vault.foldl _ []).map Prod.fst).Nodup
  refine @foldl_pres Graph (Str × Option Str) (fun g => (g.map Prod.fst).Nodup) _ ?_ vault [] ?_
  · intro g f hg
    cases f with
    | mk rel content =>
        cases content with
        | some c =>
            by_cases hw : walkedFile rel
            · simp only [hw, if_true]
              unfold graphAddFile
              refine @foldl_pres Graph Str (fun g => (g.map Prod.fst).Nodup) _ ?_ _ _ ?_
              · intro g2 link hg2
                cases hres : resolveLink (buildAllNotes vault) link with
                | some target =>
                    simp only [hres]
                    unfold gAddInlink gAddOutlink
                    rw [keys_gModify, keys_gTouch, keys_gModify, keys_gTouch]
                    exact hg2
                | none => simpa [hres] using hg2
              · show (List.map Prod.fst (gModify (gTouch g rel) rel _)).Nodup
                rw [keys_gModify, keys_gTouch]
                exact hg
            · simpa [hw] using hg
        | none => simpa using hg
  · simp

theorem gFind_of_mem_nodup (g : Graph) (k : Str) (n : GraphNode)
    (hnodup : (g.map Prod.fst).Nodup) (hmem : (k, n) ∈ g) : gFind g k = some n := by
  induction g with
  | nil => cases hmem
  | cons e rest ih =>
      rw [List.map_cons, List.nodup_cons] at hnodup
      rcases List.mem_cons.mp hmem with h | h
      · subst h
        simp [gFind, List.find?_cons_of_pos]
      · by_cases hek : e.1 = k
        · exfalso
          have hkrest : k ∈ rest.map Prod.fst := List.mem_map.mpr ⟨(k, n), h, rfl⟩
          exact hnodup.1 (hek ▸ hkrest)
        · have h2 : gFind rest k = some n := ih hnodup.2 h
          unfold gFind
          rw [List.find?_cons_of_neg]
          · exact h2
          · simp [hek]

theorem mem_of_gFind (g : Graph) (k : Str) (n : GraphNode)
    (h : gFind g k = some n) : (k, n) ∈ g := by
  unfold gFind at h
  cases hf : g.find? (fun e => e.1 = k) with
  | none => rw [hf] at h; cases h
  | some e =>
      rw [hf] at h
      have he : e ∈ g := List.mem_of_find?_eq_some hf
      have hek : e.1 = k := by simpa using List.find?_some hf
      have hen : e.2 = n := by simpa using h
      have heq : (k, n) = e := by rw [← hek, ← hen]
      exact heq ▸ he

/-! C1: graph symmetry. -/

/-- The example vault of C1 and C5: A.md links to B, B.md is empty. -/
def vaultAB : Vault :=
  [(strOf ("A.md"), some (strOf ("[[B]]"))), (strOf ("B.md"), some (strOf ("")))]

/-- C1: for every vault and all nodes A, B of the graph returned by
build_link_graph, if B's path appears in A's outlinks then A's path
appears in B's inlinks (symmetric edge registration). -/
theorem C1_graph_symmetry (vault : Vault) (a b : Str)
    (h : b ∈ graphOutlinks (build_link_graph vault) a) :
    a ∈ graphInlinks (build_link_graph vault) b :=
  sym_build_link_graph vault a b h

/-- Witness for C1: on the concrete vault with A.md linking to B, the
edge A.md to B.md is registered symmetrically. -/
theorem C1_graph_symmetry_witness :
    (strOf ("B.md")) ∈ graphOutlinks (build_link_graph vaultAB) (strOf ("A.md")) ∧
    (strOf ("A.md")) ∈ graphInlinks (build_link_graph vaultAB) (strOf ("B.md")) :=
  ⟨by decide, C1_graph_symmetry vaultAB (strOf ("A.md")) (strOf ("B.md")) (by decide)⟩

/-! C5: orphan detection. -/

/-- C5: find_orphaned_notes returns exactly those graph nodes with zero
inlinks and zero outlinks (a node with only inlinks or only outlinks is
never in the result), and on the vault where A.md contains a link to B
and B.md is empty the orphan list is empty. -/
theorem C5_orphans_exact :
    (∀ (vault : Vault) (p : Str),
        p ∈ (find_orphaned_notes vault).map OrphanRecord.file_path ↔
        (∃ n : GraphNode, gFind (build_link_graph vault) p = some n ∧
          n.inlinks = [] ∧ n.outlinks = [])) ∧
    find_orphaned_notes vaultAB = [] := by
  constructor
  · intro vault p
    constructor
    · intro hp
      rcases List.mem_map.mp hp with ⟨r, hr, hrp⟩
      rcases List.mem_filterMap.mp hr with ⟨e, he, hfe⟩
      by_cases hcond : e.2.inlinks.length = 0 ∧ e.2.outlinks.length = 0
      · rw [if_pos hcond] at hfe
        have hre : r.file_path = e.1 := by
          cases Option.some.injEq _ _ ▸ hfe
          rfl
        refine ⟨e.2, ?_, List.length_eq_zero.mp hcond.1, List.length_eq_zero.mp hcond.2⟩
        have hmem : (e.1, e.2) ∈ build_link_graph vault := by simpa using he
        have hfind := gFind_of_mem_nodup _ _ _ (build_link_graph_keys_nodup vault) hmem
        rw [← hrp, hre]
        exact hfind
      · rw [if_neg hcond] at hfe
        cases hfe
    · rintro ⟨n, hfind, hin, hout⟩
      have hmem : (p, n) ∈ build_link_graph vault := mem_of_gFind _ _ _ hfind
      have hcond : n.inlinks.length = 0 ∧ n.outlinks.length = 0 := by
        rw [hin, hout]; exact ⟨rfl, rfl⟩
      apply List.mem_map.mpr
      refine ⟨{ file_path := p, inlink_count := 0, outlink_count := 0 }, ?_, rfl⟩
      apply List.mem_filterMap.mpr
      exact ⟨(p, n), hmem, by rw [if_pos hcond]⟩
  · rfl

/-- A vault with a genuinely orphaned note C.md. -/
def vaultOrphan : Vault :=
  [(strOf ("A.md"), some (strOf ("[[B]]"))), (strOf ("B.md"), some (strOf (""))),
   (strOf ("C.md"), some (strOf ("")))]

/-- Witness for C5: the isolated note C.md is reported as an orphan. -/
theorem C5_orphans_exact_witness :
    (strOf ("C.md")) ∈ (find_orphaned_notes vaultOrphan).map OrphanRecord.file_path :=
  (C5_orphans_exact.1 vaultOrphan (strOf ("C.md"))).mpr
    ⟨{ outlinks := [], inlinks := [], link_types := ⟨0, 0, 0⟩ }, by rfl, rfl, rfl⟩

/-! C3: unreadable files. -/

/-- A fold-step invariant only needs preservation for list members. -/
theorem foldl_pres_mem {α β : Type} {P : α → Prop} {f : α → β → α} :
    ∀ (l : List β), (∀ a b, b ∈ l → P a → P (f a b)) →
      ∀ a, P a → P (List.foldl f a l) := by
  intro l
  induction l with
  | nil => intro _ a ha; exact ha
  | cons x xs ih =>
      intro h a ha
      exact ih (fun a2 b hb => h a2 b (List.mem_cons_of_mem x hb)) (f a x)
        (h a x (List.mem_cons_self x xs) ha)

/-- The vault with A.md linking to B and B.md unreadable. -/
def vaultUnread : Vault :=
  [(strOf ("A.md"), some (strOf ("[[B]]"))), (strOf ("B.md"), none)]

/-- Counterexample to C3 as stated: the unreadable file B.md does appear
in the returned graph — both as a key and inside A.md's outlinks —
because the first-pass resolution index is built before any file is
read. -/
theorem C3_counterexample :
    (strOf ("B.md")) ∈ (build_link_graph vaultUnread).map Prod.fst ∧
    (strOf ("B.md")) ∈ graphOutlinks (build_link_graph vaultUnread) (strOf ("A.md")) ∧
    graphInlinks (build_link_graph vaultUnread) (strOf ("B.md")) = [strOf ("A.md")] := by
  refine ⟨by decide, by decide, by rfl⟩

theorem gFind_isSome_addOut (g : Graph) (s t p : Str)
    (h : (gFind g p).isSome = true) : (gFind (gAddOutlink g s t) p).isSome = true := by
  rw [gFind_gAddOutlink]
  by_cases hps : p = s <;> simp [hps, h]

theorem gFind_isSome_addIn (g : Graph) (t s p : Str)
    (h : (gFind g p).isSome = true) : (gFind (gAddInlink g t s) p).isSome = true := by
  rw [gFind_gAddInlink]
  by_cases hpt : p = t <;> simp [hpt, h]

theorem gFind_isSome_graphAddFile (an : NoteIndex) (g : Graph) (rel content p : Str)
    (h : (gFind g p).isSome = true) :
    (gFind (graphAddFile an g rel content) p).isSome = true := by
  unfold graphAddFile
  refine @foldl_pres Graph Str (fun g => (gFind g p).isSome = true) _ ?_ _ _ ?_
  · intro g2 link hg2
    cases hres : resolveLink an link with
    | some target =>
        simp only [hres]
        exact gFind_isSome_addIn _ _ _ _ (gFind_isSome_addOut _ _ _ _ hg2)
    | none => simpa [hres] using hg2
  · show (gFind (gSetLinkTypes g rel _) p).isSome = true
    rw [gFind_gSetLinkTypes]
    by_cases hpr : p = rel <;> simp [hpr, h]

theorem gFind_graphAddFile_self_isSome (an : NoteIndex) (g : Graph) (rel content : Str) :
    (gFind (graphAddFile an g rel content) rel).isSome = true := by
  unfold graphAddFile
  refine @foldl_pres Graph Str (fun g => (gFind g rel).isSome = true) _ ?_ _ _ ?_
  · intro g2 link hg2
    cases hres : resolveLink an link with
    | some target =>
        simp only [hres]
        exact gFind_isSome_addIn _ _ _ _ (gFind_isSome_addOut _ _ _ _ hg2)
    | none => simpa [hres] using hg2
  · show (gFind (gSetLinkTypes g rel _) rel).isSome = true
    rw [gFind_gSetLinkTypes]
    simp

theorem nodup_keys_unique {α β : Type} [DecidableEq α] {l : List (α × β)}
    (h : (l.map Prod.fst).Nodup) {k : α} {b1 b2 : β}
    (h1 : (k, b1) ∈ l) (h2 : (k, b2) ∈ l) : b1 = b2 := by
  induction l with
  | nil => cases h1
  | cons e rest ih =>
      rw [List.map_cons, List.nodup_cons] at h
      rcases List.mem_cons.mp h1 with e1 | e1 <;> rcases List.mem_cons.mp h2 with e2 | e2
      · have he : (k, b1) = (k, b2) := e1.trans e2.symm
        injection he with hh1 hh2
      · exfalso
        apply h.1
        rw [← e1]
        exact List.mem_map.mpr ⟨(k, b2), e2, rfl⟩
      · exfalso
        apply h.1
        rw [← e2]
        exact List.mem_map.mpr ⟨(k, b1), e1, rfl⟩
      · exact ih h.2 e1 e2

theorem inUpd_link_types (s : Str) (n : GraphNode) :
    (inUpd s n).link_types = n.link_types := by
  unfold inUpd; split <;> rfl

/-- The invariant of C3: a node stored at the unreadable path has no
outlinks and zero counters. -/
def UnreadInv (u : Str) (g : Graph) : Prop :=
  ∀ n : GraphNode, gFind g u = some n → n.outlinks = [] ∧ n.link_types = ⟨0, 0, 0⟩

theorem unreadInv_graphAddFile (an : NoteIndex) (g : Graph) (rel content u : Str)
    (hru : ¬ (rel = u)) (h : UnreadInv u g) :
    UnreadInv u (graphAddFile an g rel content) := by
  unfold graphAddFile
  refine @foldl_pres Graph Str (UnreadInv u) _ ?_ _ _ ?_
  · intro g2 link hg2
    cases hres : resolveLink an link with
    | none => simpa [hres] using hg2
    | some target =>
        simp only [hres]
        intro n hn
        rw [gFind_gAddInlink] at hn
        by_cases hut : u = target
        · rw [if_pos hut] at hn
          have hn2 : n = inUpd rel (nodeOrEmpty (gAddOutlink g2 rel target) target) :=
            (Option.some.inj hn).symm
          rw [hn2, inUpd_outlinks, inUpd_link_types]
          have hnt : ¬ (target = rel) := fun h2 => hru (hut.trans h2).symm
          have hne : nodeOrEmpty (gAddOutlink g2 rel target) target = nodeOrEmpty g2 target := by
            unfold nodeOrEmpty
            rw [gFind_gAddOutlink, if_neg hnt]
          rw [hne]
          cases hf : gFind g2 target with
          | some n2 =>
              have hfu : gFind g2 u = some n2 := by rw [hut]; exact hf
              have hp := hg2 n2 hfu
              unfold nodeOrEmpty
              rw [hf]
              exact hp
          | none =>
              unfold nodeOrEmpty
              rw [hf]
              exact ⟨rfl, rfl⟩
        · rw [if_neg hut] at hn
          rw [gFind_gAddOutlink, if_neg (fun h2 : u = rel => hru h2.symm)] at hn
          exact hg2 n hn
  · intro n hn
    rw [gFind_gSetLinkTypes, if_neg (fun h2 : u = rel => hru h2.symm)] at hn
    exact h n hn

/-- Amended C3: an unreadable file is skipped as a link source — its
node, if any, has no outlinks and zero link-type counters — and the walk
continues: every readable walked file still gets its node.  But the
unreadable file stays in the first-pass resolution index, so it can still
appear as a graph key, with inlinks, and inside other nodes' outlinks
(see the counterexample). -/
theorem C3_amended (vault : Vault) (u : Str)
    (hnodup : (vault.map Prod.fst).Nodup) (hu : (u, none) ∈ vault) :
    (∀ n : GraphNode, gFind (build_link_graph vault) u = some n →
        n.outlinks = [] ∧ n.link_types = ⟨0, 0, 0⟩) ∧
    (∀ rel content, (rel, some content) ∈ vault → walkedFile rel = true →
        (gFind (build_link_graph vault) rel).isSome = true) := by
  constructor
  · show UnreadInv u (build_link_graph vault)
    unfold build_link_graph
    show UnreadInv u (vault.foldl _ [])
    refine @foldl_pres_mem Graph (Str × Option Str) (UnreadInv u) _ vault ?_ [] ?_
    · intro g f hf hg
      cases f with
      | mk rel content =>
          cases content with
          | none => simpa using hg
          | some c =>
              by_cases hw : walkedFile rel
              · have hru : ¬ (rel = u) := by
                  intro h2
                  subst h2
                  have : (some c : Option Str) = none := nodup_keys_unique hnodup hf hu
                  cases this
                simpa [hw] using unreadInv_graphAddFile (buildAllNotes vault) g rel c u hru hg
              · simpa [hw] using hg
    · intro n hn
      simp [gFind] at hn
  · intro rel content hmem hw
    unfold build_link_graph
    show (gFind (vault.foldl _ []) rel).isSome = true
    refine @foldl_mem Graph (Str × Option Str)
      (fun g => (gFind g rel).isSome = true) _ ?_ (rel, some content) ?_ vault [] hmem
    · intro g f hg
      cases f with
      | mk r c =>
          cases c with
          | none => simpa using hg
          | some c2 =>
              by_cases hw2 : walkedFile r
              · simpa [hw2] using gFind_isSome_graphAddFile (buildAllNotes vault) g r c2 rel hg
              · simpa [hw2] using hg
    · intro g
      simpa [hw] using gFind_graphAddFile_self_isSome (buildAllNotes vault) g rel content

/-- Witness for the amended C3 on the concrete unreadable-file vault. -/
theorem C3_amended_witness :
    (∀ n : GraphNode, gFind (build_link_graph vaultUnread) (strOf ("B.md")) = some n →
        n.outlinks = [] ∧ n.link_types = ⟨0, 0, 0⟩) ∧
    (gFind (build_link_graph vaultUnread) (strOf ("A.md"))).isSome = true := by
  have h := C3_amended vaultUnread (strOf ("B.md")) (by decide) (by decide)
  exact ⟨h.1, h.2 (strOf ("A.md")) (strOf ("[[B]]")) (by decide) (by decide)⟩

/-! C9: broken link detection. -/

/-- C9: one broken-link record is produced for every raw all_links target
(of every readable walked file) that find_note_by_name cannot resolve,
and broken_links_count is the length of that record list — the re-scan is
what determines it, not the graph's edge set. -/
theorem C9_broken_links (vault : Vault) (rel content t : Str)
    (hf : (rel, some content) ∈ vault) (hw : walkedFile rel = true)
    (ht : t ∈ (extract_all_links content rel).all_links)
    (hres : find_note_by_name vault t = none) :
    { source_file := rel, target := t } ∈ (analyze_link_health vault).broken_links ∧
    (analyze_link_health vault).broken_links_count =
      (analyze_link_health vault).broken_links.length := by
  refine ⟨?_, rfl⟩
  show { source_file := rel, target := t } ∈
    brokenLinksScan vault ((build_link_graph vault).map (·.1))
  unfold brokenLinksScan
  refine @foldl_mem (List BrokenLink) (Str × Option Str)
    (fun acc => { source_file := rel, target := t } ∈ acc) _ ?_ (rel, some content)
    ?_ vault [] hf
  · intro acc f hacc
    cases f with
    | mk r c =>
        cases c with
        | none => exact hacc
        | some content2 =>
            dsimp only
            split
            · exact List.mem_append_left _ hacc
            · exact hacc
  · intro acc
    simp only [hw, if_true]
    apply List.mem_append_right
    apply List.mem_filterMap.mpr
    exact ⟨t, ht, by rw [hres]⟩

/-- The vault used in the C9 witness: a single note linking to a note
that does not exist. -/
def vaultBroken : Vault := [(strOf ("A.md"), some (strOf ("[[Missing]]")))]

/-- Witness for C9 at a concrete vault: the dangling link to Missing is
recorded even though the graph has no corresponding edge. -/
theorem C9_broken_links_witness :
    { source_file := strOf ("A.md"), target := strOf ("Missing") } ∈
      (analyze_link_health vaultBroken).broken_links ∧
    graphOutlinks (build_link_graph vaultBroken) (strOf ("A.md")) = [] :=
  ⟨(C9_broken_links vaultBroken (strOf ("A.md")) (strOf ("[[Missing]]"))
      (strOf ("Missing")) (by decide) (by decide) (by decide) (by rfl)).1,
   by rfl⟩

/-! C6: bounded-depth neighborhood exploration. -/

/-- There is a directed path of exactly n outlink hops from a to b in the
graph. -/
def outlinkPath (g : Graph) : Nat → Str → Str → Prop
  | 0, a, b => a = b
  | n+1, a, b => ∃ c, c ∈ graphOutlinks g a ∧ outlinkPath g n c b

theorem outlinkPath_snoc (g : Graph) (n : Nat) (a b c : Str)
    (hab : outlinkPath g n a b) (hc : c ∈ graphOutlinks g b) :
    outlinkPath g (n + 1) a c := by
  induction n generalizing a with
  | zero => exact ⟨c, hab ▸ hc, rfl⟩
  | succ n ih =>
      obtain ⟨d, hd, hp⟩ := hab
      exact ⟨d, hd, ih d hp⟩

/-- The state invariant of explore_connections: recorded paths are
distinct and marked visited, and every recorded entry carries a depth
between 1 and the bound that equals the length of some outlink path from
the start to it. -/
def ExploreInv (g : Graph) (bound : Nat) (start : Str)
    (st : List Str × List ConnEntry) : Prop :=
  ((st.2.map ConnEntry.path).Nodup ∧ ∀ e ∈ st.2, e.path ∈ st.1) ∧
  ∀ e ∈ st.2, 1 ≤ e.depth ∧ e.depth ≤ bound ∧ outlinkPath g e.depth start e.path

theorem explore_inv (g : Graph) (bound : Nat) (start : Str) :
    ∀ gas, gas ≤ bound →
      ∀ st cur, ExploreInv g bound start st →
        outlinkPath g (bound + 1 - gas) start cur →
        ExploreInv g bound start (exploreConnections g bound gas st cur) := by
  intro gas
  induction gas with
  | zero =>
      intro _ st cur hst _
      simpa [exploreConnections] using hst
  | succ gas ih =>
      intro hle st cur hst hreach
      obtain ⟨visited, conns⟩ := st
      unfold exploreConnections
      by_cases hvm : cur ∈ visited
      · rw [if_pos (show visited.contains cur = true by simpa using hvm)]
        exact hst
      · rw [if_neg (show ¬ (visited.contains cur = true) by simpa using hvm)]
        cases hg : gFind g cur with
        | none =>
            show ExploreInv g bound start (cur :: visited, conns)
            refine ⟨⟨hst.1.1, ?_⟩, hst.2⟩
            intro e he
            exact List.mem_cons_of_mem _ (hst.1.2 e he)
        | some node =>
            dsimp only
            have hout : graphOutlinks g cur = node.outlinks := by
              unfold graphOutlinks
              rw [hg]
              rfl
            have hinv1 : ExploreInv g bound start
                (cur :: visited,
                 conns ++ [{ path := cur, depth := bound + 1 - (gas + 1),
                             inlinks := node.inlinks, outlinks := node.outlinks }]) := by
              refine ⟨⟨?_, ?_⟩, ?_⟩
              · rw [List.map_append]
                rw [List.nodup_append]
                refine ⟨hst.1.1, List.nodup_singleton _, ?_⟩
                intro x hx hx2
                have hxc : x = cur := by simpa using hx2
                subst hxc
                rcases List.mem_map.mp hx with ⟨e, he, hep⟩
                exact hvm (hep ▸ hst.1.2 e he)
              · intro e he
                rcases List.mem_append.mp he with he | he
                · exact List.mem_cons_of_mem _ (hst.1.2 e he)
                · have : e.path = cur := by
                    rcases List.mem_singleton.mp he with rfl
                    rfl
                  rw [this]
                  exact List.mem_cons_self _ _
              · intro e he
                rcases List.mem_append.mp he with he | he
                · exact hst.2 e he
                · rcases List.mem_singleton.mp he with rfl
                  refine ⟨?_, ?_, ?_⟩
                  · show 1 ≤ bound + 1 - (gas + 1)
                    omega
                  · show bound + 1 - (gas + 1) ≤ bound
                    omega
                  · show outlinkPath g (bound + 1 - (gas + 1)) start cur
                    exact hreach
            refine foldl_pres_mem node.outlinks ?_ _ hinv1
            intro st2 out hom hst2
            refine ih (by omega) st2 out hst2 ?_
            have h2 : bound + 1 - gas = (bound + 1 - (gas + 1)) + 1 := by omega
            rw [h2]
            exact outlinkPath_snoc g _ start cur out hreach (hout ▸ hom)

/-- C6: every entry of the connections map returned by
get_note_connections records a node first reached by between 1 and depth
outlink hops from the resolved start note, annotated with that hop count,
and no node is recorded twice (the visited set prevents revisits). -/
theorem C6_connections (vault : Vault) (note_name : Str) (depth : Nat)
    (res : Connections) (h : get_note_connections vault note_name depth = some res) :
    (∀ e ∈ res.connections,
        1 ≤ e.depth ∧ e.depth ≤ depth ∧
        outlinkPath (build_link_graph vault) e.depth res.note e.path) ∧
    (res.connections.map ConnEntry.path).Nodup := by
  unfold get_note_connections at h
  cases hfn : find_note_by_name vault note_name with
  | none => simp [hfn] at h
  | some note_path =>
      simp only [hfn] at h
      cases hg : gFind (build_link_graph vault) note_path with
      | none =>
          simp only [hg] at h
          have h2 := (Option.some.inj h).symm
          subst h2
          exact ⟨(fun e he => nomatch he), List.nodup_nil⟩
      | some node =>
          simp only [hg] at h
          have h2 := (Option.some.inj h).symm
          subst h2
          have hout : graphOutlinks (build_link_graph vault) note_path = node.outlinks := by
            unfold graphOutlinks
            rw [hg]
            rfl
          have hinv : ExploreInv (build_link_graph vault) depth note_path
              (node.outlinks.foldl
                (fun st out =>
                  exploreConnections (build_link_graph vault) depth depth st out)
                ([], [])) := by
            refine foldl_pres_mem node.outlinks ?_ ([], []) ?_
            · intro st out hom hst
              refine explore_inv (build_link_graph vault) depth note_path depth
                (Nat.le_refl depth) st out hst ?_
              have h1 : depth + 1 - depth = 1 := by omega
              rw [h1]
              exact ⟨out, hout ▸ hom, rfl⟩
            · exact ⟨⟨List.nodup_nil, (fun e he => nomatch he)⟩, (fun e he => nomatch he)⟩
          exact ⟨fun e he => hinv.2 e he, hinv.1.1⟩

/-- The chain vault A to B to C to D. -/
def vaultChain : Vault :=
  [(strOf ("A.md"), some (strOf ("[[B]]"))), (strOf ("B.md"), some (strOf ("[[C]]"))),
   (strOf ("C.md"), some (strOf ("[[D]]"))), (strOf ("D.md"), some (strOf ("")))]

/-- Witness for C6: on the chain vault with depth 2 the connections map
holds exactly B.md at depth 1 and C.md at depth 2 (D.md is absent), and
C.md is indeed two outlink hops from A.md. -/
theorem C6_connections_witness :
    (get_note_connections vaultChain (strOf ("A")) 2).map
        (fun r => r.connections.map (fun e => (e.path, e.depth))) =
      some [(strOf ("B.md"), 1), (strOf ("C.md"), 2)] ∧
    outlinkPath (build_link_graph vaultChain) 2 (strOf ("A.md")) (strOf ("C.md")) := by
  constructor
  · rfl
  · exact ((C6_connections vaultChain (strOf ("A")) 2 _ rfl).1
      { path := strOf ("C.md"), depth := 2, inlinks := [strOf ("B.md")],
        outlinks := [strOf ("D.md")] } (by decide)).2.2

/-! C2: total_cards and card_count. -/

/-- The two-column example board of the spec's Kanban round-trip
property. -/
def exampleBoardText : Str :=
  strOf ("## To Do\n\n- [ ] Task 1\n- [ ] Task 2\n\n## Done\n\n- [x] Completed\n")

/-- C2 (code bug): parsing the example board yields total_cards = 0 and
card_count = 0 for both columns — not 3 and [2, 1] as the claim and the
repository's own tests assert — because the pydantic validators compute
card_count and total_cards once, at construction time, when each column's
cards list is still empty; the cards appended afterwards never update
them.  The actually parsed forests hold 2 and 1 root cards (3 in all,
with the recursive count equal because the example has no nesting). -/
theorem C2_total_cards_code_bug :
    (parse_kanban_structure exampleBoardText (strOf ("board.md"))).map
        (fun b => (b.total_cards, b.columns.map KanbanColumn.card_count,
                   b.columns.map (fun c => c.cards.rootCount),
                   b.columns.map (fun c => (count_cards c.cards).1))) =
      some (0, [0, 0], [2, 1], [2, 1]) := by rfl

/-! C7: column heading levels. -/

/-- A line opens a new column exactly when KANBAN_COLUMN matches it and
the captured hash run is exactly two hashes (the parser's group(1) ==
"##" check). -/
def startsColumn (line : Str) : Bool :=
  match kanbanColumnMatch line with
  | some (hashes, _) => hashes = 2
  | none => false

/-- Counterexample to C7 as stated: a level-3 heading matches
KANBAN_COLUMN (hash count 3) yet does not start a column — parsing a
board whose only heading is level-3 yields no column at all, and the card
below it is dropped. -/
theorem C7_counterexample :
    kanbanColumnMatch (strOf ("### A")) = some (3, strOf ("A")) ∧
    (parse_kanban_structure (strOf ("### A\n\n- [ ] x\n")) (strOf ("b.md"))).map
        (fun b => b.columns.length) = some 0 := ⟨rfl, rfl⟩

theorem cardLineStep_shape (st : PState) (n : Nat) (l : Str) (st2 : PState)
    (h : cardLineStep st n l = some st2) :
    st2.columns = st.columns ∧ st2.cur.isSome = st.cur.isSome := by
  unfold cardLineStep at h
  cases hm : kanbanCardMatch l with
  | none =>
      rw [hm] at h
      cases hcur : st.cur <;> rw [hcur] at h <;>
        exact ⟨congrArg PState.columns (Option.some.inj h).symm ▸ rfl,
               by rw [← Option.some.inj h, hcur]⟩
  | some g =>
      rw [hm] at h
      cases hcur : st.cur with
      | none =>
          rw [hcur] at h
          exact ⟨congrArg PState.columns (Option.some.inj h).symm ▸ rfl,
                 by rw [← Option.some.inj h, hcur]⟩
      | some c =>
          rw [hcur] at h
          obtain ⟨i, sc, t⟩ := g
          dsimp only at h
          cases hmk : mkKanbanCard (pyStrip (kanbanDateSub t))
              (if sc = 'x' ∨ sc = 'X' then strOf ("completed") else strOf ("incomplete"))
              (parse_card_metadata t).due_date (parse_card_metadata t).tags
              (parse_card_metadata t).wikilinks KForest.nil (i / 2) n with
          | none => rw [hmk] at h; cases h
          | some card =>
              rw [hmk] at h
              dsimp only at h
              have h2 := (Option.some.inj h).symm
              subst h2
              exact ⟨rfl, rfl⟩

theorem parseLineStep_count (st : PState) (n : Nat) (l : Str) (st2 : PState)
    (h : parseLineStep st n l = some st2) :
    st2.columns.length + (if st2.cur.isSome then 1 else 0) =
      st.columns.length + (if st.cur.isSome then 1 else 0) +
        (if startsColumn l then 1 else 0) := by
  unfold parseLineStep at h
  cases hm : kanbanColumnMatch l with
  | none =>
      rw [hm] at h
      have hs := cardLineStep_shape st n l st2 h
      unfold startsColumn
      rw [hm]
      simp [hs.1, hs.2]
  | some g =>
      obtain ⟨hashes, name⟩ := g
      rw [hm] at h
      dsimp only at h
      by_cases h2 : hashes = 2
      · subst h2
        rw [if_pos rfl] at h
        unfold startsColumn
        rw [hm]
        simp only [if_pos rfl]
        cases hcol : mkKanbanColumn name KForest.nil n with
        | none =>
            rw [hcol] at h
            dsimp only at h
            cases h
        | some col =>
            rw [hcol] at h
            dsimp only at h
            cases hcur : st.cur with
            | none =>
                rw [hcur] at h
                have hb := (Option.some.inj h).symm
                subst hb
                simp [hcur]
            | some c =>
                rw [hcur] at h
                have hb := (Option.some.inj h).symm
                subst hb
                simp [hcur]
      · rw [if_neg h2] at h
        have hs := cardLineStep_shape st n l st2 h
        unfold startsColumn
        rw [hm]
        simp [hs.1, hs.2, h2]

theorem parseLinesAux_count : ∀ (lines : List Str) (st : PState) (n : Nat) (st2 : PState),
    parseLinesAux st n lines = some st2 →
    st2.columns.length + (if st2.cur.isSome then 1 else 0) =
      st.columns.length + (if st.cur.isSome then 1 else 0) +
        (lines.filter startsColumn).length := by
  intro lines
  induction lines with
  | nil =>
      intro st n st2 h
      have hb := (Option.some.inj h).symm
      subst hb
      simp [List.filter_nil]
  | cons l rest ih =>
      intro st n st2 h
      unfold parseLinesAux at h
      cases hstep : parseLineStep st n l with
      | none => rw [hstep] at h; cases h
      | some st1 =>
          rw [hstep] at h
          have h1 := parseLineStep_count st n l st1 hstep
          have h2 := ih st1 (n + 1) st2 h
          rw [List.filter_cons]
          by_cases hsc : startsColumn l
          · simp only [hsc, if_true, if_pos] at h1 ⊢
            simp only [List.length_cons]
            omega
          · simp only [hsc, Bool.false_eq_true, if_false] at h1 ⊢
            omega

/-- Amended C7: only a level-2 heading starts a new column during
parse_kanban_structure.  For every successfully parsed board, the number
of columns equals the number of lines matching KANBAN_COLUMN with a
two-hash marker; a level-2 heading satisfies that test and a level-3
heading does not (it matches the pattern but is skipped — see the
counterexample). -/
theorem C7_amended (content file_path : Str) (b : KanbanBoard)
    (h : parse_kanban_structure content file_path = some b) :
    b.columns.length = ((splitLines content).filter startsColumn).length ∧
    startsColumn (strOf ("## A")) = true ∧
    startsColumn (strOf ("### A")) = false := by
  refine ⟨?_, rfl, rfl⟩
  unfold parse_kanban_structure at h
  cases hp : parseLinesAux { columns := [], cur := none } 1 (splitLines content) with
  | none => rw [hp] at h; cases h
  | some st =>
      rw [hp] at h
      have hc := parseLinesAux_count (splitLines content) _ 1 st hp
      dsimp only at h
      have hb := (Option.some.inj h).symm
      subst hb
      cases hcur : st.cur with
      | none =>
          show st.columns.length = (List.filter startsColumn (splitLines content)).length
          simpa [hcur] using hc
      | some c =>
          show (st.columns ++ [closeColumn c]).length =
            (List.filter startsColumn (splitLines content)).length
          rw [List.length_append]
          simp only [hcur, Option.isSome_some, if_true] at hc
          simpa using hc

/-- The board text of the C7 witness: one level-2 heading and one
level-3 heading. -/
def exC7 : Str := strOf ("## A\n\n### B\n\n- [ ] x\n")

/-- Witness for the amended C7: the board with one level-2 and one
level-3 heading parses to exactly one column (the parsed board's column
count computes to 1, which the theorem equates with the number of
two-hash heading lines). -/
theorem C7_amended_witness :
    (1 : Nat) = ((splitLines exC7).filter startsColumn).length ∧
    startsColumn (strOf ("## A")) = true ∧ startsColumn (strOf ("### A")) = false := by
  have h := C7_amended exC7 (strOf ("b.md")) _ rfl
  exact ⟨h.1, h.2⟩

/-! C8: nesting invariants of the parsed card trees. -/

/-- All root cards of the forest have indent level strictly above i. -/
def forestBelow : KForest → Nat → Bool
  | .nil, _ => true
  | .cons c rest, i => (decide (i < c.indent_level)) && forestBelow rest i

/-- Adjacent root cards have non-increasing indent levels. -/
def nonIncF : KForest → Bool
  | .nil => true
  | .cons _ .nil => true
  | .cons c (.cons d rest) =>
      (decide (d.indent_level ≤ c.indent_level)) && nonIncF (.cons d rest)

mutual
/-- A card is well nested: its subtasks all have strictly greater indent
levels, adjacent subtasks have non-increasing indent levels, and the
subtasks are recursively well nested. -/
def cardGood : KCard → Bool
  | .mk _ _ _ _ _ subs i _ => forestBelow subs i && nonIncF subs && forestGood subs
/-- All cards of the forest are well nested. -/
def forestGood : KForest → Bool
  | .nil => true
  | .cons c rest => cardGood c && forestGood rest
end

/-- Indent level of the forest's last root card. -/
def lastIndentF : KForest → Option Nat
  | .nil => none
  | .cons c .nil => some c.indent_level
  | .cons _ (.cons d rest) => lastIndentF (.cons d rest)

/-- The forest's last root card, if any, has indent at least i. -/
def geLast (ch : KForest) (i : Nat) : Prop :=
  ∀ j, lastIndentF ch = some j → i ≤ j

/-- A well-formed stack frame: accumulated children are well nested,
non-increasing, and strictly deeper than the frame's card. -/
def frameInv (f : PFrame) : Prop :=
  forestGood f.2 = true ∧ nonIncF f.2 = true ∧
  forestBelow f.2 f.1.indent_level = true

/-- Well-formedness of the nesting stack (top first) together with the
finished roots: each frame is well formed; each frame sits strictly
deeper than the frame below it; the frame below has received, as its
last child so far, a card at least as deep as the frame above it; and
the bottom frame is at most as deep as the last finished root (an empty
stack forces an empty finished list — mid-column the stack is never
empty). -/
def stackFinOk : List PFrame → KForest → Prop
  | [], fin => fin = KForest.nil
  | [g], fin => frameInv g ∧ geLast fin g.1.indent_level
  | f :: g :: rest, fin =>
      frameInv f ∧ g.1.indent_level < f.1.indent_level ∧
      geLast g.2 f.1.indent_level ∧ stackFinOk (g :: rest) fin

theorem lastIndentF_push : ∀ (ch : KForest) (c : KCard),
    lastIndentF (ch.push c) = some c.indent_level
  | .nil, c => rfl
  | .cons d .nil, c => by simp [KForest.push, lastIndentF]
  | .cons d (.cons e rest), c => by
      have ih := lastIndentF_push (KForest.cons e rest) c
      simpa [KForest.push, lastIndentF] using ih

theorem forestGood_push : ∀ (ch : KForest) (c : KCard),
    forestGood ch = true → cardGood c = true → forestGood (ch.push c) = true
  | .nil, c, _, hc => by simpa [KForest.push, forestGood] using hc
  | .cons d rest, c, hch, hc => by
      rw [forestGood] at hch
      simp only [Bool.and_eq_true] at hch
      have ih := forestGood_push rest c hch.2 hc
      rw [KForest.push, forestGood]
      simp only [Bool.and_eq_true]
      exact ⟨hch.1, ih⟩

theorem nonIncF_push : ∀ (ch : KForest) (c : KCard),
    nonIncF ch = true → geLast ch c.indent_level → nonIncF (ch.push c) = true
  | .nil, c, _, _ => rfl
  | .cons d .nil, c, _, hlast => by
      have hle : c.indent_level ≤ d.indent_level := hlast d.indent_level rfl
      simp [KForest.push, nonIncF, hle]
  | .cons d (.cons e rest), c, hch, hlast => by
      rw [nonIncF] at hch
      simp only [Bool.and_eq_true] at hch
      have hlast2 : geLast (KForest.cons e rest) c.indent_level := by
        intro j hj
        exact hlast j (by simpa [lastIndentF] using hj)
      have ih := nonIncF_push (KForest.cons e rest) c hch.2 hlast2
      rw [KForest.push, KForest.push]
      rw [nonIncF]
      simp only [Bool.and_eq_true]
      refine ⟨hch.1, ?_⟩
      simpa [KForest.push] using ih

theorem forestBelow_push : ∀ (ch : KForest) (c : KCard) (i : Nat),
    forestBelow ch i = true → i < c.indent_level → forestBelow (ch.push c) i = true
  | .nil, c, i, _, hc => by simp [KForest.push, forestBelow, hc]
  | .cons d rest, c, i, hch, hc => by
      rw [forestBelow] at hch
      simp only [Bool.and_eq_true] at hch
      have ih := forestBelow_push rest c i hch.2 hc
      rw [KForest.push, forestBelow]
      simp only [Bool.and_eq_true]
      exact ⟨hch.1, ih⟩

theorem closeFrame_indent (f : PFrame) :
    (closeFrame f).indent_level = f.1.indent_level := by
  obtain ⟨c, ch⟩ := f
  cases c
  rfl

theorem closeFrame_good (f : PFrame) (h : frameInv f) :
    cardGood (closeFrame f) = true := by
  obtain ⟨c, ch⟩ := f
  cases c
  rw [closeFrame, cardGood]
  simp only [Bool.and_eq_true]
  exact ⟨⟨h.2.2, h.2.1⟩, h.1⟩

theorem stackFinOk_head (f : PFrame) (rest : List PFrame) (fin : KForest)
    (h : stackFinOk (f :: rest) fin) : frameInv f := by
  cases rest with
  | nil => exact h.1
  | cons g r2 => exact h.1

/-- Postcondition of the pop loop at level L: the finished roots stay
well formed, and the remaining stack is either empty with the last
finished root at depth at least L, or topped by a well-linked frame
strictly above L whose last child so far is at depth at least L. -/
def PopPost (L : Nat) (r : List PFrame × KForest) : Prop :=
  forestGood r.2 = true ∧ nonIncF r.2 = true ∧
  (match r.1 with
   | [] => r.2 = KForest.nil ∨ (∃ j, lastIndentF r.2 = some j ∧ L ≤ j)
   | f :: rest =>
       (f.1.indent_level < L ∧ geLast f.2 L) ∧ stackFinOk (f :: rest) r.2)

theorem popCarry_ok (L : Nat) :
    ∀ (rest : List PFrame) (fin : KForest) (carry : KCard),
      forestGood fin = true → nonIncF fin = true →
      cardGood carry = true → L ≤ carry.indent_level →
      (match rest with
       | [] => geLast fin carry.indent_level
       | g :: rest2 =>
           g.1.indent_level < carry.indent_level ∧
           geLast g.2 carry.indent_level ∧ stackFinOk (g :: rest2) fin) →
      PopPost L (popCarry L carry rest fin) := by
  intro rest
  induction rest with
  | nil =>
      intro fin carry hg hn hc hl hrel
      show PopPost L ([], fin.push carry)
      refine ⟨forestGood_push fin carry hg hc, nonIncF_push fin carry hn hrel, ?_⟩
      exact Or.inr ⟨carry.indent_level, lastIndentF_push fin carry, hl⟩
  | cons g rest2 ih =>
      intro fin carry hg hn hc hl hrel
      obtain ⟨hlt, hglast, hok⟩ := hrel
      have hfg : frameInv g := stackFinOk_head g rest2 fin hok
      have hfg2 : frameInv (attachChild g carry) := by
        refine ⟨forestGood_push g.2 carry hfg.1 hc,
                nonIncF_push g.2 carry hfg.2.1 hglast,
                forestBelow_push g.2 carry g.1.indent_level hfg.2.2 hlt⟩
      show PopPost L (if L ≤ (attachChild g carry).1.indent_level
        then popCarry L (closeFrame (attachChild g carry)) rest2 fin
        else (attachChild g carry :: rest2, fin))
      have hfst : (attachChild g carry).1 = g.1 := rfl
      by_cases hL : L ≤ g.1.indent_level
      · rw [if_pos (by rw [hfst]; exact hL)]
        have hcg := closeFrame_good (attachChild g carry) hfg2
        have hci : (closeFrame (attachChild g carry)).indent_level = g.1.indent_level := by
          rw [closeFrame_indent, hfst]
        refine ih fin (closeFrame (attachChild g carry)) hg hn hcg (by rw [hci]; exact hL) ?_
        cases rest2 with
        | nil =>
            show geLast fin (closeFrame (attachChild g carry)).indent_level
            rw [hci]
            exact hok.2
        | cons h2 rest3 =>
            rw [hci]
            exact ⟨hok.2.1, hok.2.2.1, hok.2.2.2⟩
      · rw [if_neg (by rw [hfst]; exact hL)]
        refine ⟨hg, hn, ⟨⟨by rw [hfst]; omega, ?_⟩, ?_⟩⟩
        · intro j hj
          rw [show (attachChild g carry).2 = g.2.push carry from rfl,
              lastIndentF_push] at hj
          have : j = carry.indent_level := (Option.some.inj hj).symm
          omega
        · cases rest2 with
          | nil =>
              exact ⟨hfg2, by
                intro j hj
                have hle := hok.2 j hj
                rw [hfst]
                exact hle⟩
          | cons h2 rest3 =>
              refine ⟨hfg2, ?_, ?_, hok.2.2.2⟩
              · rw [hfst]; exact hok.2.1
              · rw [hfst]; exact hok.2.2.1

theorem popGE_ok (L : Nat) (stack : List PFrame) (fin : KForest)
    (hg : forestGood fin = true) (hn : nonIncF fin = true)
    (hok : stackFinOk stack fin)
    (htop : match stack with | [] => True | f :: _ => f.2 = KForest.nil) :
    PopPost L (popGE L stack fin) := by
  cases stack with
  | nil =>
      show PopPost L ([], fin)
      exact ⟨hg, hn, Or.inl hok⟩
  | cons f rest =>
      have htn : f.2 = KForest.nil := htop
      show PopPost L (if L ≤ f.1.indent_level
        then popCarry L (closeFrame f) rest fin else (f :: rest, fin))
      have hfi : frameInv f := stackFinOk_head f rest fin hok
      by_cases hL : L ≤ f.1.indent_level
      · rw [if_pos hL]
        refine popCarry_ok L rest fin (closeFrame f) hg hn
          (closeFrame_good f hfi) (by rw [closeFrame_indent]; exact hL) ?_
        cases rest with
        | nil =>
            show geLast fin (closeFrame f).indent_level
            rw [closeFrame_indent]
            exact hok.2
        | cons g r2 =>
            rw [closeFrame_indent]
            exact ⟨hok.2.1, hok.2.2.1, hok.2.2.2⟩
      · rw [if_neg hL]
        refine ⟨hg, hn, ⟨⟨by omega, ?_⟩, hok⟩⟩
        intro j hj
        rw [htn] at hj
        simp [lastIndentF] at hj

/-! Conservation of the recursive card count through the parse: every
card line processed while a column is open ends up as exactly one card
of the final trees, so each card has exactly one parent (a card's
subtasks list or its column's root list) and nothing is lost,
duplicated, or made reachable from itself. -/

/-- Recursive card count of a single card (all nesting levels). -/
def countC (c : KCard) : Nat := (count_cards_card c).1

/-- Recursive card count of a forest (all nesting levels). -/
def countF (f : KForest) : Nat := (count_cards f).1

/-- Cards held by the stack: each frame is its card plus accumulated
children. -/
def countStack (s : List PFrame) : Nat :=
  (s.map (fun f => 1 + countF f.2)).sum

theorem countF_push : ∀ (ch : KForest) (c : KCard),
    countF (ch.push c) = countF ch + countC c
  | .nil, c => by simp [KForest.push, countF, countC, count_cards]
  | .cons d rest, c => by
      have ih := countF_push rest c
      simp only [KForest.push, countF, count_cards] at ih ⊢
      omega

theorem countC_closeFrame (f : PFrame) :
    countC (closeFrame f) = 1 + countF f.2 := by
  obtain ⟨c, ch⟩ := f
  cases c
  simp [closeFrame, countC, countF, count_cards_card]

theorem popCarry_count (L : Nat) :
    ∀ (rest : List PFrame) (fin : KForest) (carry : KCard),
      countF (popCarry L carry rest fin).2 +
        countStack (popCarry L carry rest fin).1 =
      countF fin + countC carry + countStack rest := by
  intro rest
  induction rest with
  | nil =>
      intro fin carry
      show countF (fin.push carry) + countStack [] = _
      simp [countStack, countF_push]
  | cons g rest2 ih =>
      intro fin carry
      show countF (if L ≤ (attachChild g carry).1.indent_level
          then popCarry L (closeFrame (attachChild g carry)) rest2 fin
          else (attachChild g carry :: rest2, fin)).2 +
        countStack (if L ≤ (attachChild g carry).1.indent_level
          then popCarry L (closeFrame (attachChild g carry)) rest2 fin
          else (attachChild g carry :: rest2, fin)).1 = _
      have hfst : (attachChild g carry).1 = g.1 := rfl
      have hsnd : (attachChild g carry).2 = g.2.push carry := rfl
      by_cases hL : L ≤ g.1.indent_level
      · rw [if_pos (by rw [hfst]; exact hL)]
        have hi := ih fin (closeFrame (attachChild g carry))
        rw [countC_closeFrame, hsnd, countF_push] at hi
        simp only [countStack, List.map_cons, List.sum_cons] at hi ⊢
        omega
      · rw [if_neg (by rw [hfst]; exact hL)]
        simp only [countStack, List.map_cons, List.sum_cons, hsnd, countF_push]
        omega

theorem popGE_count (L : Nat) (stack : List PFrame) (fin : KForest) :
    countF (popGE L stack fin).2 + countStack (popGE L stack fin).1 =
      countF fin + countStack stack := by
  cases stack with
  | nil => simp [popGE, countStack]
  | cons f rest =>
      show countF (if L ≤ f.1.indent_level
          then popCarry L (closeFrame f) rest fin else (f :: rest, fin)).2 +
        countStack (if L ≤ f.1.indent_level
          then popCarry L (closeFrame f) rest fin else (f :: rest, fin)).1 = _
      by_cases hL : L ≤ f.1.indent_level
      · rw [if_pos hL]
        have hc := popCarry_count L rest fin (closeFrame f)
        rw [countC_closeFrame] at hc
        simp only [countStack, List.map_cons, List.sum_cons] at hc ⊢
        omega
      · rw [if_neg hL]

theorem popCarry_zero_nil : ∀ (rest : List PFrame) (fin : KForest) (carry : KCard),
    (popCarry 0 carry rest fin).1 = []
  | [], _, _ => rfl
  | g :: rest2, fin, carry => by
      show (if 0 ≤ (attachChild g carry).1.indent_level
          then popCarry 0 (closeFrame (attachChild g carry)) rest2 fin
          else (attachChild g carry :: rest2, fin)).1 = []
      rw [if_pos (Nat.zero_le _)]
      exact popCarry_zero_nil rest2 fin (closeFrame (attachChild g carry))

theorem popGE_zero_nil (stack : List PFrame) (fin : KForest) :
    (popGE 0 stack fin).1 = [] := by
  cases stack with
  | nil => rfl
  | cons f rest =>
      show (if 0 ≤ f.1.indent_level
          then popCarry 0 (closeFrame f) rest fin else (f :: rest, fin)).1 = []
      rw [if_pos (Nat.zero_le _)]
      exact popCarry_zero_nil rest fin (closeFrame f)

/-- Invariant of an open column's parse state. -/
def colStateInv (c : PColState) : Prop :=
  forestGood c.fin = true ∧ nonIncF c.fin = true ∧ stackFinOk c.stack c.fin ∧
  (∀ f rest, c.stack = f :: rest → f.2 = KForest.nil)

/-- Cards accumulated so far in an open column. -/
def colCount (c : PColState) : Nat := countF c.fin + countStack c.stack

/-- Invariant of the whole parser state. -/
def pstateInv (st : PState) : Prop :=
  (∀ col ∈ st.columns, forestGood col.cards = true ∧ nonIncF col.cards = true) ∧
  (∀ c, st.cur = some c → colStateInv c)

/-- Cards accumulated so far in the whole parser state. -/
def stateCount (st : PState) : Nat :=
  (st.columns.map (fun col => countF col.cards)).sum +
  (match st.cur with | some c => colCount c | none => 0)

theorem closeColumn_good (c : PColState) (h : colStateInv c) :
    forestGood (closeColumn c).cards = true ∧
    nonIncF (closeColumn c).cards = true := by
  have hp : PopPost 0 (popGE 0 c.stack c.fin) := by
    cases hs : c.stack with
    | nil =>
        have hok := h.2.2.1
        rw [hs] at hok
        exact popGE_ok 0 [] c.fin h.1 h.2.1 hok trivial
    | cons f rest =>
        have hok := h.2.2.1
        rw [hs] at hok
        exact popGE_ok 0 (f :: rest) c.fin h.1 h.2.1 hok (h.2.2.2 f rest hs)
  exact ⟨hp.1, hp.2.1⟩

theorem closeColumn_count (c : PColState) :
    countF (closeColumn c).cards = colCount c := by
  have hc := popGE_count 0 c.stack c.fin
  rw [popGE_zero_nil] at hc
  simpa [closeColumn, colCount, countStack] using hc

theorem mkKanbanCard_shape (text status : Str) (due : Option PyDate)
    (tags wl : List Str) (i n : Nat) (card : KCard)
    (h : mkKanbanCard text status due tags wl KForest.nil i n = some card) :
    card.subtasks = KForest.nil ∧ card.indent_level = i ∧
    cardGood card = true ∧ countC card = 1 := by
  unfold mkKanbanCard at h
  by_cases he : pyStrip text = []
  · rw [if_pos he] at h; cases h
  · rw [if_neg he] at h
    have hb := (Option.some.inj h).symm
    subst hb
    exact ⟨rfl, rfl, rfl, rfl⟩

/-- A line the parser treats as a card line (KANBAN_CARD matches). -/
def isCardLine (l : Str) : Bool := (kanbanCardMatch l).isSome

/-- Number of card lines the parser processes: a card line counts only
once some column heading has been seen (the flag flips at a level-2
heading and stays set). -/
def countCardLines : Bool → List Str → Nat
  | _, [] => 0
  | opened, l :: rest =>
      if startsColumn l then countCardLines true rest
      else (if opened && isCardLine l then 1 else 0) + countCardLines opened rest

theorem popGE_ok_col (L : Nat) (c : PColState) (h : colStateInv c) :
    PopPost L (popGE L c.stack c.fin) := by
  cases hs : c.stack with
  | nil =>
      have hok := h.2.2.1
      rw [hs] at hok
      exact popGE_ok L [] c.fin h.1 h.2.1 hok trivial
  | cons f rest =>
      have hok := h.2.2.1
      rw [hs] at hok
      exact popGE_ok L (f :: rest) c.fin h.1 h.2.1 hok (h.2.2.2 f rest hs)

theorem cardLineStep_inv (st : PState) (n : Nat) (l : Str) (st2 : PState)
    (hinv : pstateInv st) (h : cardLineStep st n l = some st2) :
    pstateInv st2 ∧
    stateCount st2 = stateCount st +
      (if st.cur.isSome && isCardLine l then 1 else 0) := by
  unfold cardLineStep at h
  cases hm : kanbanCardMatch l with
  | none =>
      rw [hm] at h
      cases hcur : st.cur with
      | none =>
          rw [hcur] at h
          have hb := (Option.some.inj h).symm
          subst hb
          exact ⟨hinv, by simp [isCardLine, hm]⟩
      | some c =>
          rw [hcur] at h
          have hb := (Option.some.inj h).symm
          subst hb
          exact ⟨hinv, by simp [isCardLine, hm]⟩
  | some g =>
      rw [hm] at h
      cases hcur : st.cur with
      | none =>
          rw [hcur] at h
          have hb := (Option.some.inj h).symm
          subst hb
          exact ⟨hinv, by simp⟩
      | some c =>
          rw [hcur] at h
          obtain ⟨i, sc, t⟩ := g
          dsimp only at h
          have hci : colStateInv c := hinv.2 c hcur
          cases hmk : mkKanbanCard (pyStrip (kanbanDateSub t))
              (if sc = 'x' ∨ sc = 'X' then strOf ("completed") else strOf ("incomplete"))
              (parse_card_metadata t).due_date (parse_card_metadata t).tags
              (parse_card_metadata t).wikilinks KForest.nil (i / 2) n with
          | none => rw [hmk] at h; cases h
          | some card =>
              rw [hmk] at h
              dsimp only at h
              have hb := (Option.some.inj h).symm
              subst hb
              obtain ⟨hsub, hind, hgood, hcnt⟩ :=
                mkKanbanCard_shape _ _ _ _ _ _ _ card hmk
              have hp : PopPost (i / 2) (popGE (i / 2) c.stack c.fin) :=
                popGE_ok_col (i / 2) c hci
              have hfr : frameInv (card, KForest.nil) := ⟨rfl, rfl, rfl⟩
              constructor
              · refine ⟨fun col hcol => hinv.1 col hcol, ?_⟩
                intro c' hc'
                have hc2 := (Option.some.inj hc').symm
                subst hc2
                refine ⟨hp.1, hp.2.1, ?_, ?_⟩
                · show stackFinOk ((card, KForest.nil) :: (popGE (i / 2) c.stack c.fin).1)
                    (popGE (i / 2) c.stack c.fin).2
                  cases hr1 : (popGE (i / 2) c.stack c.fin).1 with
                  | nil =>
                      have h3 := hp.2.2
                      rw [hr1] at h3
                      refine ⟨hfr, ?_⟩
                      intro j hj
                      rcases h3 with h3 | ⟨j0, hj0, hLj0⟩
                      · rw [h3] at hj
                        simp [lastIndentF] at hj
                      · rw [hj0] at hj
                        have hje := Option.some.inj hj
                        show card.indent_level ≤ j
                        rw [hind]
                        omega
                  | cons f rest2 =>
                      have h3 := hp.2.2
                      rw [hr1] at h3
                      refine ⟨hfr, ?_, ?_, h3.2⟩
                      · show f.1.indent_level < card.indent_level
                        rw [hind]
                        exact h3.1.1
                      · show geLast f.2 card.indent_level
                        rw [hind]
                        exact h3.1.2
                · intro f rest hfr2
                  have hfe := (List.cons.inj hfr2).1
                  rw [← hfe]
              · have hpc := popGE_count (i / 2) c.stack c.fin
                simp only [countStack] at hpc
                have h2 : isCardLine l = true := by simp [isCardLine, hm]
                simp only [stateCount, hcur, colCount, countStack, List.map_cons,
                  List.sum_cons, Option.isSome_some, Bool.true_and, h2, if_true]
                have hnil : countF KForest.nil = 0 := rfl
                omega

theorem parseLineStep_inv (st : PState) (n : Nat) (l : Str) (st2 : PState)
    (hinv : pstateInv st) (h : parseLineStep st n l = some st2) :
    pstateInv st2 ∧
    stateCount st2 = stateCount st +
      (if (!startsColumn l) && st.cur.isSome && isCardLine l then 1 else 0) ∧
    st2.cur.isSome = (startsColumn l || st.cur.isSome) := by
  unfold parseLineStep at h
  cases hm : kanbanColumnMatch l with
  | none =>
      rw [hm] at h
      have hs : startsColumn l = false := by simp [startsColumn, hm]
      have hc := cardLineStep_inv st n l st2 hinv h
      have hsh := cardLineStep_shape st n l st2 h
      rw [hs]
      simp only [Bool.not_false, Bool.true_and, Bool.false_or]
      exact ⟨hc.1, hc.2, hsh.2⟩
  | some g =>
      obtain ⟨hashes, name⟩ := g
      rw [hm] at h
      dsimp only at h
      by_cases h2 : hashes = 2
      · subst h2
        rw [if_pos rfl] at h
        have hs : startsColumn l = true := by simp [startsColumn, hm]
        rw [hs]
        cases hcol : mkKanbanColumn name KForest.nil n with
        | none =>
            rw [hcol] at h
            dsimp only at h
            cases h
        | some col =>
            rw [hcol] at h
            dsimp only at h
            cases hcur : st.cur with
            | none =>
                rw [hcur] at h
                have hb := (Option.some.inj h).symm
                subst hb
                refine ⟨⟨fun c' hc' => hinv.1 c' hc', ?_⟩, ?_, by simp⟩
                · intro c' hc'
                  have hce := (Option.some.inj hc').symm
                  subst hce
                  exact ⟨rfl, rfl, rfl, fun f rest hh => nomatch hh⟩
                · simp [stateCount, hcur, colCount, countStack,
                    show countF KForest.nil = 0 from rfl]
            | some c =>
                rw [hcur] at h
                have hb := (Option.some.inj h).symm
                subst hb
                have hcg := closeColumn_good c (hinv.2 c hcur)
                refine ⟨⟨?_, ?_⟩, ?_, by simp⟩
                · intro c' hc'
                  rcases List.mem_append.mp hc' with hin | hin
                  · exact hinv.1 c' hin
                  · have : c' = closeColumn c := by simpa using hin
                    rw [this]
                    exact hcg
                · intro c' hc'
                  have hce := (Option.some.inj hc').symm
                  subst hce
                  exact ⟨rfl, rfl, rfl, fun f rest hh => nomatch hh⟩
                · have hcc := closeColumn_count c
                  simp only [stateCount, hcur, colCount, countStack,
                    List.map_append, List.sum_append, List.map_cons,
                    List.sum_cons, List.map_nil, List.sum_nil]
                  simp only [colCount, countStack] at hcc
                  have hnil : countF KForest.nil = 0 := rfl
                  simp only [Bool.not_true, Bool.false_and, Bool.false_eq_true,
                    if_false]
                  omega
      · rw [if_neg h2] at h
        have hs : startsColumn l = false := by simp [startsColumn, hm, h2]
        have hc := cardLineStep_inv st n l st2 hinv h
        have hsh := cardLineStep_shape st n l st2 h
        rw [hs]
        simp only [Bool.not_false, Bool.true_and, Bool.false_or]
        exact ⟨hc.1, hc.2, hsh.2⟩

theorem parseLinesAux_inv : ∀ (lines : List Str) (st : PState) (n : Nat) (st2 : PState),
    pstateInv st → parseLinesAux st n lines = some st2 →
    pstateInv st2 ∧
    stateCount st2 = stateCount st + countCardLines st.cur.isSome lines := by
  intro lines
  induction lines with
  | nil =>
      intro st n st2 hinv h
      have hb := (Option.some.inj h).symm
      subst hb
      exact ⟨hinv, by simp [countCardLines]⟩
  | cons l rest ih =>
      intro st n st2 hinv h
      unfold parseLinesAux at h
      cases hstep : parseLineStep st n l with
      | none => rw [hstep] at h; cases h
      | some st1 =>
          rw [hstep] at h
          have h1 := parseLineStep_inv st n l st1 hinv hstep
          have h2 := ih st1 (n + 1) st2 h1.1 h
          refine ⟨h2.1, ?_⟩
          rw [h2.2, h1.2.1, h1.2.2]
          by_cases hsc : startsColumn l = true
          · rw [hsc]
            simp [countCardLines, hsc]
          · have hsf : startsColumn l = false := by
              revert hsc; cases startsColumn l <;> simp
            rw [hsf]
            simp only [countCardLines, hsf, Bool.not_false, Bool.true_and,
              Bool.false_or, Bool.false_eq_true, if_false]
            omega

def exC8 : Str := strOf ("## A\n\n- [ ] p\n    - [ ] a\n  - [ ] b\n")

/-- C8 counterexample: sibling indent levels are NON-INCREASING, not
non-decreasing as claimed.  In the board whose column holds a root card p
followed by a subtask at four spaces (level 2) and a subtask at two
spaces (level 1), both land as p's direct subtasks, in original order —
sibling levels [2, 1], which is decreasing. -/
theorem C8_counterexample :
    (parse_kanban_structure exC8 (strOf ("b.md"))).map
      (fun b => b.columns.map (fun c => c.cards.toList.map
        (fun k => (k.indent_level, k.subtasks.toList.map KCard.indent_level)))) =
      some [[(0, [2, 1])]] ∧ ¬ (2 ≤ 1) := ⟨rfl, by decide⟩

/-- C8 (amended): in every board produced by parse_kanban_structure,
every column's card forest is well nested — each card's subtasks have
indent levels strictly greater than the card's own, adjacent siblings
have non-increasing (not non-decreasing) indent levels, recursively at
every depth — and the recursive card count over all columns equals the
number of card lines processed after the first column heading: every
such line yields exactly one card with exactly one parent (a card's
subtasks list or its column's root list), so the subtask relation is a
tree with no card reachable from itself. -/
theorem C8_amended (content file_path : Str) (b : KanbanBoard)
    (h : parse_kanban_structure content file_path = some b) :
    (∀ col ∈ b.columns, forestGood col.cards = true ∧ nonIncF col.cards = true) ∧
    (b.columns.map (fun c => countF c.cards)).sum =
      countCardLines false (splitLines content) := by
  unfold parse_kanban_structure at h
  cases hp : parseLinesAux { columns := [], cur := none } 1 (splitLines content) with
  | none => rw [hp] at h; cases h
  | some st =>
      rw [hp] at h
      have hinv0 : pstateInv { columns := [], cur := none } :=
        ⟨(fun c hc => nomatch hc), (fun c hc => nomatch hc)⟩
      have hI := parseLinesAux_inv (splitLines content) _ 1 st hinv0 hp
      have hz : stateCount { columns := [], cur := none } = 0 := rfl
      have hzf : ({ columns := [], cur := none } : PState).cur.isSome = false := rfl
      have h2 := hI.2
      rw [hz, hzf] at h2
      dsimp only at h
      have hb := (Option.some.inj h).symm
      subst hb
      cases hcur : st.cur with
      | none =>
          constructor
          · show ∀ col ∈ st.columns, _
            exact fun col hcol => hI.1.1 col hcol
          · show (st.columns.map (fun c => countF c.cards)).sum = _
            simp only [stateCount, hcur] at h2
            simpa using h2
      | some c =>
          have hcg := closeColumn_good c (hI.1.2 c hcur)
          constructor
          · show ∀ col ∈ st.columns ++ [closeColumn c], _
            intro col hcol
            rcases List.mem_append.mp hcol with hin | hin
            · exact hI.1.1 col hin
            · have hce : col = closeColumn c := by simpa using hin
              rw [hce]
              exact hcg
          · show ((st.columns ++ [closeColumn c]).map (fun c => countF c.cards)).sum = _
            simp only [stateCount, hcur] at h2
            have hcc := closeColumn_count c
            simp only [colCount] at hcc
            rw [List.map_append, List.sum_append]
            simp only [List.map_cons, List.map_nil, List.sum_cons, List.sum_nil]
            simp only [colCount] at h2
            omega

def exC8board : KanbanBoard :=
  (parse_kanban_structure exC8 (strOf ("b.md"))).getD (mkKanbanBoard [] [] [])

theorem C8_amended_witness :
    (exC8board.columns.all (fun c => forestGood c.cards && nonIncF c.cards)) = true ∧
    (exC8board.columns.map (fun c => countF c.cards)).sum =
      countCardLines false (splitLines exC8) := by
  have h := C8_amended exC8 (strOf ("b.md")) exC8board rfl
  refine ⟨?_, h.2⟩
  rw [List.all_eq_true]
  intro c hc
  rw [Bool.and_eq_true]
  exact ⟨(h.1 c hc).1, (h.1 c hc).2⟩

/-! C4: the parse/serialize round trip.  The comparison is on column
names and card skeletons — text, status, due date and subtask nesting —
since serialization re-derives indentation from tree depth and line
numbers from emission order. -/

mutual
/-- The round-trip-relevant part of a card: text, status, due date,
subtask skeletons. -/
inductive Skel : Type where
  | mk (text : Str) (status : Str) (due : Option PyDate) (children : SkelList)
inductive SkelList : Type where
  | nil
  | cons (s : Skel) (rest : SkelList)
end

deriving instance DecidableEq for Skel
deriving instance DecidableEq for SkelList

mutual
/-- Skeleton of a card. -/
def skelOfCard : KCard → Skel
  | .mk t s d _ _ subs _ _ => .mk t s d (skelOfForest subs)
/-- Skeletons of a forest. -/
def skelOfForest : KForest → SkelList
  | .nil => .nil
  | .cons c rest => .cons (skelOfCard c) (skelOfForest rest)
end

/-- Skeletons of a plain list of cards. -/
def skelOfList : List KCard → SkelList
  | [] => .nil
  | c :: r => .cons (skelOfCard c) (skelOfList r)

/-- Column names and card skeletons of a board. -/
def boardSkel (b : KanbanBoard) : List (Str × SkelList) :=
  b.columns.map (fun c => (c.name, skelOfForest c.cards))

/-- Push each card of the list, in order, onto the forest. -/
def pushList (f : KForest) : List KCard → KForest
  | [] => f
  | c :: r => pushList (f.push c) r

/-- Hand a closed card to the column state: append it to the top frame's
children, or to the finished roots when the stack is empty. -/
def deliver : List PFrame × KForest → KCard → List PFrame × KForest
  | ([], fin), c => ([], fin.push c)
  | (g :: rest, fin), c => (attachChild g c :: rest, fin)

/-- Hand a list of closed cards to the column state, in order. -/
def deliverList (s : List PFrame × KForest) (cs : List KCard) : List PFrame × KForest :=
  cs.foldl deliver s

theorem popCarry_popGE_comp (l d : Nat) (hld : l ≤ d) :
    ∀ (stack : List PFrame) (fin : KForest) (c : KCard),
      popGE l (popCarry d c stack fin).1 (popCarry d c stack fin).2 =
        popCarry l c stack fin := by
  intro stack
  induction stack with
  | nil =>
      intro fin c
      rfl
  | cons g rest ih =>
      intro fin c
      show popGE l (if d ≤ (attachChild g c).1.indent_level
          then popCarry d (closeFrame (attachChild g c)) rest fin
          else (attachChild g c :: rest, fin)).1
          (if d ≤ (attachChild g c).1.indent_level
          then popCarry d (closeFrame (attachChild g c)) rest fin
          else (attachChild g c :: rest, fin)).2 =
        if l ≤ (attachChild g c).1.indent_level
          then popCarry l (closeFrame (attachChild g c)) rest fin
          else (attachChild g c :: rest, fin)
      by_cases hd : d ≤ (attachChild g c).1.indent_level
      · rw [if_pos hd, if_pos (le_trans hld hd), ih]
      · rw [if_neg hd]
        show (if l ≤ (attachChild g c).1.indent_level
            then popCarry l (closeFrame (attachChild g c)) rest fin
            else (attachChild g c :: rest, fin)) = _
        rfl

theorem popGE_popGE_comp (l d : Nat) (hld : l ≤ d)
    (stack : List PFrame) (fin : KForest) :
    popGE l (popGE d stack fin).1 (popGE d stack fin).2 = popGE l stack fin := by
  cases stack with
  | nil => rfl
  | cons f rest =>
      show popGE l (if d ≤ f.1.indent_level
          then popCarry d (closeFrame f) rest fin else (f :: rest, fin)).1
          (if d ≤ f.1.indent_level
          then popCarry d (closeFrame f) rest fin else (f :: rest, fin)).2 =
        if l ≤ f.1.indent_level
          then popCarry l (closeFrame f) rest fin else (f :: rest, fin)
      by_cases hd : d ≤ f.1.indent_level
      · rw [if_pos hd, if_pos (le_trans hld hd)]
        exact popCarry_popGE_comp l d hld rest fin (closeFrame f)
      · rw [if_neg hd]
        rfl

theorem popCarry_top_lt (L : Nat) :
    ∀ (stack : List PFrame) (fin : KForest) (c : KCard) (f : PFrame)
      (rest : List PFrame),
      (popCarry L c stack fin).1 = f :: rest → f.1.indent_level < L := by
  intro stack
  induction stack with
  | nil => intro fin c f rest h; cases h
  | cons g r2 ih =>
      intro fin c f rest h
      by_cases hd : L ≤ (attachChild g c).1.indent_level
      · rw [show popCarry L c (g :: r2) fin =
            (if L ≤ (attachChild g c).1.indent_level
             then popCarry L (closeFrame (attachChild g c)) r2 fin
             else (attachChild g c :: r2, fin)) from rfl, if_pos hd] at h
        exact ih fin (closeFrame (attachChild g c)) f rest h
      · rw [show popCarry L c (g :: r2) fin =
            (if L ≤ (attachChild g c).1.indent_level
             then popCarry L (closeFrame (attachChild g c)) r2 fin
             else (attachChild g c :: r2, fin)) from rfl, if_neg hd] at h
        have hf := (List.cons.inj h).1
        rw [← hf]
        omega

theorem popGE_top_lt (L : Nat) (stack : List PFrame) (fin : KForest)
    (f : PFrame) (rest : List PFrame)
    (h : (popGE L stack fin).1 = f :: rest) : f.1.indent_level < L := by
  cases stack with
  | nil => cases h
  | cons g r2 =>
      by_cases hd : L ≤ g.1.indent_level
      · rw [show popGE L (g :: r2) fin =
            (if L ≤ g.1.indent_level
             then popCarry L (closeFrame g) r2 fin else (g :: r2, fin)) from rfl,
          if_pos hd] at h
        exact popCarry_top_lt L r2 fin (closeFrame g) f rest h
      · rw [show popGE L (g :: r2) fin =
            (if L ≤ g.1.indent_level
             then popCarry L (closeFrame g) r2 fin else (g :: r2, fin)) from rfl,
          if_neg hd] at h
        have hf := (List.cons.inj h).1
        rw [← hf]
        omega

theorem popCarry_eq_deliver (L : Nat) (s : List PFrame × KForest) (c : KCard)
    (h : ∀ f rest, s.1 = f :: rest → f.1.indent_level < L) :
    popCarry L c s.1 s.2 = deliver s c := by
  obtain ⟨stack, fin⟩ := s
  cases stack with
  | nil => rfl
  | cons g rest =>
      have hlt := h g rest rfl
      show (if L ≤ (attachChild g c).1.indent_level
          then popCarry L (closeFrame (attachChild g c)) rest fin
          else (attachChild g c :: rest, fin)) = _
      rw [if_neg (by show ¬ L ≤ g.1.indent_level; omega)]
      rfl

theorem deliverList_top (g : PFrame) (rest : List PFrame) (fin : KForest) :
    ∀ (cs : List KCard),
      deliverList (g :: rest, fin) cs = ((g.1, pushList g.2 cs) :: rest, fin) := by
  intro cs
  induction cs generalizing g with
  | nil => show (g :: rest, fin) = ((g.1, g.2) :: rest, fin); rfl
  | cons c r2 ih =>
      show deliverList (attachChild g c :: rest, fin) r2 = _
      rw [ih (attachChild g c)]
      rfl

theorem deliverList_nilstack (fin : KForest) :
    ∀ (cs : List KCard), deliverList (([] : List PFrame), fin) cs = ([], pushList fin cs) := by
  intro cs
  induction cs generalizing fin with
  | nil => rfl
  | cons c r2 ih =>
      show deliverList ([], fin.push c) r2 = _
      rw [ih (fin.push c)]
      rfl

/-- The validity bounds datetime.date enforces, recorded on a PyDate. -/
def dateOK (d : PyDate) : Bool :=
  decide (1 ≤ d.year ∧ d.year ≤ 9999 ∧ 1 ≤ d.month ∧ d.month ≤ 12 ∧
          1 ≤ d.day ∧ d.day ≤ daysInMonth d.year d.month)

theorem strptimeDate_ok (y m dd : Nat) (d : PyDate)
    (h : strptimeDate y m dd = some d) : dateOK d = true ∧ d = ⟨y, m, dd⟩ := by
  unfold strptimeDate at h
  by_cases hc : 1 ≤ y ∧ y ≤ 9999 ∧ 1 ≤ m ∧ m ≤ 12 ∧ 1 ≤ dd ∧ dd ≤ daysInMonth y m
  · rw [if_pos hc] at h
    have hb := (Option.some.inj h).symm
    subst hb
    exact ⟨by simp [dateOK]; exact hc, rfl⟩
  · rw [if_neg hc] at h
    cases h

theorem strptimeDate_of_ok (d : PyDate) (h : dateOK d = true) :
    strptimeDate d.year d.month d.day = some d := by
  simp only [dateOK, decide_eq_true_eq] at h
  unfold strptimeDate
  rw [if_pos h]

theorem isDigitCh_digitCh (k : Nat) (h : k < 10) : isDigitCh (digitCh k) = true := by
  interval_cases k <;> decide

theorem digitVal_digitCh (k : Nat) (h : k < 10) : digitVal (digitCh k) = k := by
  interval_cases k <;> decide

theorem digit_not_space (c : Char) (h : isDigitCh c = true) : pyIsSpace c = false := by
  simp only [isDigitCh, Bool.and_eq_true, decide_eq_true_eq] at h
  obtain ⟨h1, h2⟩ := h
  have hc := (Char.ofNat_toNat c).symm
  set n := c.toNat with hn
  interval_cases n <;> (rw [hc]; decide)

theorem matchDateTokenAt_shape (u : Str) (v : Nat × Nat × Nat) (r : Str)
    (h : matchDateTokenAt u = some (v, r)) :
    ∃ b c1 c2 c3 c4 c5 c6 c7 c8 b2,
      u = '@' :: b :: c1 :: c2 :: c3 :: c4 :: '-' :: c5 :: c6 :: '-' ::
          c7 :: c8 :: b2 :: r ∧
      (b = braceL && b2 = braceR &&
        ([c1, c2, c3, c4, c5, c6, c7, c8].all isDigitCh)) = true ∧
      v = (digitVal c1 * 1000 + digitVal c2 * 100 + digitVal c3 * 10 + digitVal c4,
           digitVal c5 * 10 + digitVal c6, digitVal c7 * 10 + digitVal c8) := by
  unfold matchDateTokenAt at h
  split at h
  next b c1 c2 c3 c4 c5 c6 c7 c8 b2 rest =>
    split at h
    · have hi := Option.some.inj h
      have hv := congrArg Prod.fst hi
      have hr := congrArg Prod.snd hi
      simp only at hv hr
      refine ⟨b, c1, c2, c3, c4, c5, c6, c7, c8, b2, ?_, by assumption, hv.symm⟩
      rw [hr]
    · cases h
  next => cases h

theorem matchDate_span (s t : Str) (hne : s ≠ [])
    (hnone : matchDateTokenAt s = none) :
    matchDateTokenAt (s ++ ' ' :: t) = none := by
  rcases ho : matchDateTokenAt (s ++ ' ' :: t) with _ | vr
  · rfl
  obtain ⟨v, r⟩ := vr
  exfalso
  obtain ⟨b, c1, c2, c3, c4, c5, c6, c7, c8, b2, hu, hcond, hv⟩ :=
    matchDateTokenAt_shape _ _ _ ho
  simp only [Bool.and_eq_true, decide_eq_true_eq, List.all_cons, List.all_nil,
    Bool.and_true] at hcond
  obtain ⟨⟨hb, hb2⟩, h1, h2, h3, h4, h5, h6, h7, h8⟩ := hcond
  by_cases hlen : s.length ≤ 12
  · have hg : (s ++ ' ' :: t).get? s.length = some ' ' := by
      rw [List.get?_append_right (le_refl s.length)]
      simp
    rw [hu] at hg
    have hne2 : 1 ≤ s.length := by
      cases s with
      | nil => exact absurd rfl hne
      | cons a s2 => simp
    set k := s.length with hk
    interval_cases k
    all_goals (simp only [List.get?] at hg; have hx := Option.some.inj hg)
    · exact absurd hx.symm (by rw [hb]; decide)
    · rw [hx] at h1; exact absurd h1 (by decide)
    · rw [hx] at h2; exact absurd h2 (by decide)
    · rw [hx] at h3; exact absurd h3 (by decide)
    · rw [hx] at h4; exact absurd h4 (by decide)
    · exact absurd hx.symm (by decide)
    · rw [hx] at h5; exact absurd h5 (by decide)
    · rw [hx] at h6; exact absurd h6 (by decide)
    · exact absurd hx.symm (by decide)
    · rw [hx] at h7; exact absurd h7 (by decide)
    · rw [hx] at h8; exact absurd h8 (by decide)
    · exact absurd hx.symm (by rw [hb2]; decide)
  · push_neg at hlen
    have h13 : s.take 13 =
        ['@', b, c1, c2, c3, c4, '-', c5, c6, '-', c7, c8, b2] := by
      have hth := congrArg (fun (x : Str) => x.take 13) hu
      simp only at hth
      rw [List.take_append_of_le_length (by omega)] at hth
      simpa using hth
    have hs : s = '@' :: b :: c1 :: c2 :: c3 :: c4 :: '-' :: c5 :: c6 :: '-' ::
        c7 :: c8 :: b2 :: s.drop 13 := by
      conv_lhs => rw [← List.take_append_drop 13 s]
      rw [h13]
      rfl
    rw [hs] at hnone
    have hred : matchDateTokenAt ('@' :: b :: c1 :: c2 :: c3 :: c4 :: '-' :: c5 ::
        c6 :: '-' :: c7 :: c8 :: b2 :: List.drop 13 s) =
        (if (b = braceL && b2 = braceR &&
              ([c1, c2, c3, c4, c5, c6, c7, c8].all isDigitCh)) = true
         then some ((digitVal c1 * 1000 + digitVal c2 * 100 + digitVal c3 * 10 +
               digitVal c4, digitVal c5 * 10 + digitVal c6,
               digitVal c7 * 10 + digitVal c8), List.drop 13 s)
         else none) := rfl
    rw [hred] at hnone
    rw [if_pos (by
      simp only [Bool.and_eq_true, decide_eq_true_eq, List.all_cons, List.all_nil,
        Bool.and_true]
      exact ⟨⟨hb, hb2⟩, h1, h2, h3, h4, h5, h6, h7, h8⟩)] at hnone
    cases hnone

theorem kanbanDateSearch_none_cons (c : Char) (s : Str)
    (h : kanbanDateSearch (c :: s) = none) :
    matchDateTokenAt (c :: s) = none ∧ kanbanDateSearch s = none := by
  have hd : kanbanDateSearch (c :: s) =
      (match matchDateTokenAt (c :: s) with
       | some (v, _) => some v
       | none => kanbanDateSearch s) := rfl
  cases hm : matchDateTokenAt (c :: s) with
  | some vr =>
      obtain ⟨v, rr⟩ := vr
      rw [hd, hm] at h
      cases h
  | none =>
      rw [hd, hm] at h
      exact ⟨rfl, h⟩

theorem kanbanDateSearch_append (s t : Str) (hclean : kanbanDateSearch s = none) :
    kanbanDateSearch (s ++ ' ' :: t) = kanbanDateSearch (' ' :: t) := by
  induction s with
  | nil => rfl
  | cons c s2 ih =>
      obtain ⟨hm, hs2⟩ := kanbanDateSearch_none_cons c s2 hclean
      have hsp := matchDate_span (c :: s2) t (by simp) hm
      have hd : kanbanDateSearch ((c :: s2) ++ ' ' :: t) =
          (match matchDateTokenAt (c :: (s2 ++ ' ' :: t)) with
           | some (v, _) => some v
           | none => kanbanDateSearch (s2 ++ ' ' :: t)) := rfl
      rw [hd, show matchDateTokenAt (c :: (s2 ++ ' ' :: t)) = none from hsp]
      exact ih hs2

theorem kanbanDateSubAux_clean : ∀ (s : Str) (fuel : Nat),
    kanbanDateSearch s = none → s.length ≤ fuel → kanbanDateSubAux fuel s = s := by
  intro s
  induction s with
  | nil => intro fuel _ _; cases fuel <;> rfl
  | cons c s2 ih =>
      intro fuel hclean hlen
      obtain ⟨hm, hs2⟩ := kanbanDateSearch_none_cons c s2 hclean
      cases fuel with
      | zero => simp at hlen
      | succ f =>
          have hd : kanbanDateSubAux (f + 1) (c :: s2) =
              (match matchDateTokenAt (c :: s2) with
               | some (_, r) => kanbanDateSubAux f r
               | none => c :: kanbanDateSubAux f s2) := rfl
          rw [hd, hm]
          rw [ih f hs2 (by simp at hlen; omega)]

theorem kanbanDateSub_clean (s : Str) (h : kanbanDateSearch s = none) :
    kanbanDateSub s = s :=
  kanbanDateSubAux_clean s s.length h (le_refl _)

theorem matchDateTokenAt_token (d : PyDate) (hok : dateOK d = true) (z : Str) :
    matchDateTokenAt (('@' :: braceL :: (strftimeDate d ++ [braceR])) ++ z) =
      some ((d.year, d.month, d.day), z) := by
  simp only [dateOK, decide_eq_true_eq] at hok
  have hred : (('@' :: braceL :: (strftimeDate d ++ [braceR])) ++ z) =
      '@' :: braceL :: digitCh (d.year / 1000 % 10) :: digitCh (d.year / 100 % 10) ::
      digitCh (d.year / 10 % 10) :: digitCh (d.year % 10) :: '-' ::
      digitCh (d.month / 10 % 10) :: digitCh (d.month % 10) :: '-' ::
      digitCh (d.day / 10 % 10) :: digitCh (d.day % 10) :: braceR :: z := by
    simp [strftimeDate]
  rw [hred]
  have hm : matchDateTokenAt ('@' :: braceL :: digitCh (d.year / 1000 % 10) ::
      digitCh (d.year / 100 % 10) :: digitCh (d.year / 10 % 10) ::
      digitCh (d.year % 10) :: '-' :: digitCh (d.month / 10 % 10) ::
      digitCh (d.month % 10) :: '-' :: digitCh (d.day / 10 % 10) ::
      digitCh (d.day % 10) :: braceR :: z) =
      (if (braceL = braceL && braceR = braceR &&
        ([digitCh (d.year / 1000 % 10), digitCh (d.year / 100 % 10),
          digitCh (d.year / 10 % 10), digitCh (d.year % 10),
          digitCh (d.month / 10 % 10), digitCh (d.month % 10),
          digitCh (d.day / 10 % 10), digitCh (d.day % 10)].all isDigitCh)) = true
       then some ((digitVal (digitCh (d.year / 1000 % 10)) * 1000 +
             digitVal (digitCh (d.year / 100 % 10)) * 100 +
             digitVal (digitCh (d.year / 10 % 10)) * 10 +
             digitVal (digitCh (d.year % 10)),
             digitVal (digitCh (d.month / 10 % 10)) * 10 +
             digitVal (digitCh (d.month % 10)),
             digitVal (digitCh (d.day / 10 % 10)) * 10 +
             digitVal (digitCh (d.day % 10))), z)
       else none) := rfl
  rw [hm, if_pos (by
    simp only [List.all_cons, List.all_nil, Bool.and_eq_true, Bool.and_true,
      decide_eq_true_eq]
    refine ⟨⟨trivial, trivial⟩, ?_, ?_, ?_, ?_, ?_, ?_, ?_, ?_⟩ <;>
      exact isDigitCh_digitCh _ (Nat.mod_lt _ (by norm_num)))]
  simp only [Option.some.injEq, Prod.mk.injEq]
  rw [digitVal_digitCh _ (Nat.mod_lt _ (by norm_num)),
      digitVal_digitCh _ (Nat.mod_lt _ (by norm_num)),
      digitVal_digitCh _ (Nat.mod_lt _ (by norm_num)),
      digitVal_digitCh _ (Nat.mod_lt _ (by norm_num)),
      digitVal_digitCh _ (Nat.mod_lt _ (by norm_num)),
      digitVal_digitCh _ (Nat.mod_lt _ (by norm_num)),
      digitVal_digitCh _ (Nat.mod_lt _ (by norm_num)),
      digitVal_digitCh _ (Nat.mod_lt _ (by norm_num))]
  have hdm : daysInMonth d.year d.month ≤ 31 := by
    unfold daysInMonth
    split
    · split <;> omega
    · split <;> omega
  refine ⟨⟨by omega, by omega, by omega⟩, trivial⟩

theorem dropWhile_len (p : Char → Bool) (l : Str) :
    (l.takeWhile p).length + (l.dropWhile p).length = l.length := by
  rw [← List.length_append, List.takeWhile_append_dropWhile]

theorem dropWhile_idem2 (p : Char → Bool) :
    ∀ (l : Str), (l.dropWhile p).dropWhile p = l.dropWhile p
  | [] => rfl
  | c :: l2 => by
      rw [List.dropWhile_cons]
      by_cases h : p c = true
      · rw [if_pos h]
        exact dropWhile_idem2 p l2
      · rw [if_neg h, List.dropWhile_cons, if_neg h]

theorem prefix_dropWhile (p : Char → Bool) (u a : Str) (hpre : u <+: a)
    (ha : a.dropWhile p = a) : u.dropWhile p = u := by
  cases u with
  | nil => rfl
  | cons c u2 =>
      obtain ⟨w, hw⟩ := hpre
      rw [← hw, List.cons_append, List.dropWhile_cons] at ha
      by_cases h : p c = true
      · rw [if_pos h] at ha
        have hle : (List.dropWhile p (u2 ++ w)).length ≤ (u2 ++ w).length := by
          have := dropWhile_len p (u2 ++ w)
          omega
        have hL := congrArg List.length ha
        rw [List.length_cons] at hL
        omega
      · rw [List.dropWhile_cons, if_neg h]

theorem pyStrip_front (s : Str) (h : pyStrip s = s) : s.dropWhile pyIsSpace = s := by
  have hlen := dropWhile_len pyIsSpace s
  have hlen2 := dropWhile_len pyIsSpace (s.dropWhile pyIsSpace).reverse
  have h3 := congrArg List.length h
  simp only [pyStrip, List.length_reverse] at h3
  have h4 : (s.takeWhile pyIsSpace).length = 0 := by
    simp only [List.length_reverse] at hlen2
    omega
  have h5 : s.takeWhile pyIsSpace = [] := List.length_eq_zero.mp h4
  have h6 := List.takeWhile_append_dropWhile pyIsSpace s
  rw [h5] at h6
  simpa using h6

theorem pyStrip_back (s : Str) (h : pyStrip s = s) :
    s.reverse.dropWhile pyIsSpace = s.reverse := by
  have hf := pyStrip_front s h
  unfold pyStrip at h
  rw [hf] at h
  have := congrArg List.reverse h
  simpa using this

theorem pyStrip_self_of (s : Str)
    (hf : s.dropWhile pyIsSpace = s)
    (hb : s.reverse.dropWhile pyIsSpace = s.reverse) :
    pyStrip s = s := by
  unfold pyStrip
  rw [hf, hb]
  simp

theorem pyStrip_idem (s : Str) : pyStrip (pyStrip s) = pyStrip s := by
  refine pyStrip_self_of _ ?_ ?_
  · refine prefix_dropWhile pyIsSpace _ (s.dropWhile pyIsSpace) ?_
      (dropWhile_idem2 pyIsSpace s)
    show pyStrip s <+: s.dropWhile pyIsSpace
    unfold pyStrip
    conv_rhs => rw [← List.reverse_reverse (List.dropWhile pyIsSpace s)]
    exact List.reverse_prefix.mpr (List.dropWhile_suffix pyIsSpace)
  · show (pyStrip s).reverse.dropWhile pyIsSpace = (pyStrip s).reverse
    unfold pyStrip
    rw [List.reverse_reverse]
    exact dropWhile_idem2 pyIsSpace _

theorem pyStrip_append_space (s : Str) (h : pyStrip s = s) (hne : s ≠ []) :
    pyStrip (s ++ [' ']) = s := by
  have hf := pyStrip_front s h
  have hb := pyStrip_back s h
  unfold pyStrip
  have h1 : (s ++ [' ']).dropWhile pyIsSpace = s ++ [' '] := by
    cases s with
    | nil => exact absurd rfl hne
    | cons c s2 =>
        rw [List.cons_append, List.dropWhile_cons]
        rw [List.dropWhile_cons] at hf
        by_cases hc : pyIsSpace c = true
        · rw [if_pos hc] at hf
          have hle := dropWhile_len pyIsSpace s2
          have := congrArg List.length hf
          simp at this
          omega
        · rw [if_neg hc]
  rw [h1]
  have h2 : (s ++ [' ']).reverse = ' ' :: s.reverse := by simp
  rw [h2, List.dropWhile_cons, if_pos (by decide), hb]
  simp

theorem pyStrip_cons_space (s : Str) : pyStrip (' ' :: s) = pyStrip s := by
  unfold pyStrip
  rw [List.dropWhile_cons, if_pos (by decide)]

/-- The 13-character date token emitted after a card text. -/
def tokenStr (d : PyDate) : Str := '@' :: braceL :: (strftimeDate d ++ [braceR])

theorem dueToken_eq (d : PyDate) : dueToken d = ' ' :: tokenStr d := rfl

theorem head_nonspace_of_strip (c : Char) (s2 : Str)
    (h : pyStrip (c :: s2) = c :: s2) : pyIsSpace c = false := by
  have hf := pyStrip_front _ h
  rw [List.dropWhile_cons] at hf
  by_cases hc : pyIsSpace c = true
  · rw [if_pos hc] at hf
    have hle := dropWhile_len pyIsSpace s2
    have hL := congrArg List.length hf
    rw [List.length_cons] at hL
    omega
  · simpa using hc

theorem pyStrip_text_token (s : Str) (d : PyDate)
    (hs : pyStrip s = s) (hne : s ≠ []) :
    pyStrip (s ++ ' ' :: tokenStr d) = s ++ ' ' :: tokenStr d := by
  refine pyStrip_self_of _ ?_ ?_
  · cases s with
    | nil => exact absurd rfl hne
    | cons c s2 =>
        rw [List.cons_append, List.dropWhile_cons,
          if_neg (by rw [head_nonspace_of_strip c s2 hs]; simp)]
  · have hrev : (s ++ ' ' :: tokenStr d).reverse =
        braceR :: ((strftimeDate d).reverse ++ braceL :: '@' :: ' ' :: s.reverse) := by
      simp [tokenStr]
    rw [hrev, List.dropWhile_cons, if_neg (by decide)]

theorem takeWhile_all_append (p : Char → Bool) :
    ∀ (s : Str) (c : Char) (t : Str), (∀ x ∈ s, p x = true) → p c = false →
    (s ++ c :: t).takeWhile p = s := by
  intro s
  induction s with
  | nil =>
      intro c t _ hc
      rw [List.nil_append, List.takeWhile_cons, if_neg (by simp [hc])]
  | cons a s2 ih =>
      intro c t hall hc
      rw [List.cons_append, List.takeWhile_cons,
        if_pos (hall a (by simp)), ih c t (fun x hx => hall x (by simp [hx])) hc]


theorem kanbanCardMatch_parts (ind : Str) (st : Char) (tx : Str)
    (hind : ∀ x ∈ ind, pyIsSpace x = true)
    (hst : st = ' ' ∨ st = 'x' ∨ st = 'X')
    (htxs : pyStrip tx = tx) (htxne : tx ≠ []) :
    kanbanCardMatch (ind ++ '-' :: ' ' :: '[' :: st :: ']' :: ' ' :: tx) =
      some (ind.length, st, tx) := by
  have e1 : (ind ++ '-' :: ' ' :: '[' :: st :: ']' :: ' ' :: tx).takeWhile
      pyIsSpace = ind :=
    takeWhile_all_append pyIsSpace ind '-' _ hind (by decide)
  have e3 : List.takeWhile pyIsSpace (' ' :: '[' :: st :: ']' :: ' ' :: tx) =
      [' '] := rfl
  unfold kanbanCardMatch
  simp only [e1, List.drop_left, e3, List.length_cons, List.length_nil]
  cases htxc : tx with
  | nil => exact absurd htxc htxne
  | cons a tx2 =>
      show (match List.drop 1 (' ' :: '[' :: st :: ']' :: ' ' :: a :: tx2) with
        | '[' :: st2 :: ']' :: r4 =>
            if st2 = ' ' ∨ st2 = 'x' ∨ st2 = 'X' then
              match r4 with
              | c :: _ :: _ =>
                  if pyIsSpace c then some (ind.length, st2, pyStrip r4) else none
              | _ => none
            else none
        | _ => none) = some (ind.length, st, a :: tx2)
      show (if st = ' ' ∨ st = 'x' ∨ st = 'X' then
          (if pyIsSpace ' ' then
            some (ind.length, st, pyStrip (' ' :: a :: tx2)) else none)
        else none) = some (ind.length, st, a :: tx2)
      rw [if_pos hst, if_pos (by decide), pyStrip_cons_space, ← htxc, htxs]

theorem kanbanCardMatch_format (c : KCard)
    (htext : pyStrip c.text = c.text) (hne : c.text ≠ []) (depth : Nat) :
    kanbanCardMatch (format_kanban_card c depth) =
      some (2 * depth, (if c.status = strOf ("completed") then 'x' else ' '),
        c.text ++ Option.elim c.due_date [] dueToken) := by
  obtain ⟨t, s, dd, tg, w, subs, i, ln⟩ := c
  simp only [KCard.text] at htext hne
  show kanbanCardMatch (format_kanban_card (.mk t s dd tg w subs i ln) depth) =
    some (2 * depth, (if s = strOf ("completed") then 'x' else ' '),
      t ++ Option.elim dd [] dueToken)
  have hline : format_kanban_card (.mk t s dd tg w subs i ln) depth =
      List.replicate (2 * depth) ' ' ++ '-' :: ' ' :: '[' ::
        (if s = strOf ("completed") then 'x' else ' ') :: ']' :: ' ' ::
        (t ++ Option.elim dd [] dueToken) := by
    show (List.replicate (2 * depth) ' ' ++ strOf ("- ") ++
        (if s = strOf ("completed") then strOf ("[x]") else strOf ("[ ]")) ++
        ' ' :: (t ++ (match dd with | some d => dueToken d | none => []))) = _
    have hopt : (match dd with | some d => dueToken d | none => []) =
        Option.elim dd [] dueToken := by cases dd <;> rfl
    rw [hopt]
    by_cases hst : s = strOf ("completed")
    · rw [if_pos hst, if_pos hst]
      simp [strOf]
    · rw [if_neg hst, if_neg hst]
      simp [strOf]
  rw [hline]
  have htxs : pyStrip (t ++ Option.elim dd [] dueToken) =
      t ++ Option.elim dd [] dueToken := by
    cases dd with
    | none => simpa using htext
    | some d =>
        show pyStrip (t ++ dueToken d) = t ++ dueToken d
        rw [dueToken_eq]
        exact pyStrip_text_token t d htext hne
  have htxne : t ++ Option.elim dd [] dueToken ≠ [] := by
    cases t with
    | nil => exact absurd rfl hne
    | cons a t2 => simp
  have := kanbanCardMatch_parts (List.replicate (2 * depth) ' ')
      (if s = strOf ("completed") then 'x' else ' ')
      (t ++ Option.elim dd [] dueToken)
      (fun x hx => by rw [List.eq_of_mem_replicate hx]; decide)
      (by by_cases hst : s = strOf ("completed")
          · rw [if_pos hst]; right; left; rfl
          · rw [if_neg hst]; left; rfl)
      htxs htxne
  rw [this, List.length_replicate]

theorem kanbanColumnMatch_heading (name : Str)
    (hs : pyStrip name = name) (hne : name ≠ []) :
    kanbanColumnMatch (strOf ("## ") ++ name) = some (2, name) := by
  have he : strOf ("## ") ++ name = '#' :: '#' :: ' ' :: name := by simp [strOf]
  rw [he]
  have ht : ('#' :: '#' :: ' ' :: name).takeWhile (fun c => c = '#') =
      ['#', '#'] := rfl
  unfold kanbanColumnMatch
  simp only [ht, List.length_cons, List.length_nil]
  cases hnc : name with
  | nil => exact absurd hnc hne
  | cons a n2 =>
      show (if (2 : Nat) = 2 ∨ (2 : Nat) = 3 then
          (if pyIsSpace ' ' then some ((2 : Nat), pyStrip (' ' :: a :: n2)) else none)
        else none) = some (2, a :: n2)
      rw [if_pos (by left; rfl), if_pos (by decide), pyStrip_cons_space, ← hnc, hs]

theorem kanbanColumnMatch_nonhash (line : Str)
    (h : ∀ c rest, line = c :: rest → (c = '#') = False) :
    kanbanColumnMatch line = none := by
  cases line with
  | nil => rfl
  | cons c rest =>
      have hc := h c rest rfl
      have ht : (c :: rest).takeWhile (fun x => x = '#') = [] := by
        rw [List.takeWhile_cons, if_neg (by simp [hc])]
      unfold kanbanColumnMatch
      simp only [ht, List.length_nil]
      show (if (0 : Nat) = 2 ∨ (0 : Nat) = 3 then _ else none) = none
      rw [if_neg (by omega)]

theorem kanbanColumnMatch_format (c : KCard) (depth : Nat) :
    kanbanColumnMatch (format_kanban_card c depth) = none := by
  refine kanbanColumnMatch_nonhash _ ?_
  intro ch rest hline
  unfold format_kanban_card at hline
  cases hd : 2 * depth with
  | zero =>
      rw [hd] at hline
      simp only [List.replicate, List.nil_append] at hline
      have := (List.cons.inj (by simpa [strOf] using hline)).1
      rw [← this]
      simp
  | succ k =>
      rw [hd] at hline
      simp only [List.replicate, List.cons_append] at hline
      have := (List.cons.inj hline).1
      rw [← this]
      simp

theorem kanbanCardMatch_heading (rest : Str) :
    kanbanCardMatch ('#' :: rest) = none := rfl

theorem parseLineStep_noop (st : PState) (n : Nat) (l : Str)
    (hcol : kanbanColumnMatch l = none) (hcard : kanbanCardMatch l = none) :
    parseLineStep st n l = some st := by
  unfold parseLineStep
  rw [hcol]
  unfold cardLineStep
  rw [hcard]

theorem parseLineStep_heading (st : PState) (n : Nat) (name : Str)
    (hs : pyStrip name = name) (hne : name ≠ []) :
    parseLineStep st n (strOf ("## ") ++ name) =
      some { columns := (match st.cur with
                         | some c => st.columns ++ [closeColumn c]
                         | none => st.columns),
             cur := some { col := { name := name, cards := KForest.nil,
                                    card_count := 0, heading_level := 2,
                                    line_number := n },
                           fin := KForest.nil, stack := [] } } := by
  unfold parseLineStep
  rw [kanbanColumnMatch_heading name hs hne]
  have hmk : mkKanbanColumn name KForest.nil n =
      some { name := name, cards := KForest.nil, card_count := 0,
             heading_level := 2, line_number := n } := by
    unfold mkKanbanColumn
    rw [if_neg (by rw [hs]; exact hne), hs]
    rfl
  show (if (2 : Nat) = 2 then _ else _) = _
  rw [if_pos rfl]
  rw [hmk]

theorem kanbanDateSubAux_append : ∀ (s : Str) (fuel : Nat) (w : Str),
    kanbanDateSearch s = none → s.length < fuel →
    kanbanDateSubAux fuel (s ++ ' ' :: w) =
      s ++ ' ' :: kanbanDateSubAux (fuel - (s.length + 1)) w := by
  intro s
  induction s with
  | nil =>
      intro fuel w _ hlen
      cases fuel with
      | zero => omega
      | succ f =>
          have hd : kanbanDateSubAux (f + 1) (' ' :: w) =
              (match matchDateTokenAt (' ' :: w) with
               | some (_, r) => kanbanDateSubAux f r
               | none => ' ' :: kanbanDateSubAux f w) := rfl
          rw [List.nil_append, hd, show matchDateTokenAt (' ' :: w) = none from rfl]
          simp
  | cons c s2 ih =>
      intro fuel w hclean hlen
      obtain ⟨hm, hs2⟩ := kanbanDateSearch_none_cons c s2 hclean
      cases fuel with
      | zero => omega
      | succ f =>
          have hsp := matchDate_span (c :: s2) w (by simp) hm
          have hd : kanbanDateSubAux (f + 1) (c :: (s2 ++ ' ' :: w)) =
              (match matchDateTokenAt (c :: (s2 ++ ' ' :: w)) with
               | some (_, r) => kanbanDateSubAux f r
               | none => c :: kanbanDateSubAux f (s2 ++ ' ' :: w)) := rfl
          rw [List.cons_append, hd,
            show matchDateTokenAt (c :: (s2 ++ ' ' :: w)) = none from hsp]
          rw [ih f w hs2 (by simp at hlen; omega)]
          have harith : f - (s2.length + 1) = f + 1 - ((c :: s2).length + 1) := by
            simp
          rw [harith]
          simp

theorem kanbanDateSearch_text_token (t : Str) (d : PyDate)
    (hclean : kanbanDateSearch t = none) (hok : dateOK d = true) :
    kanbanDateSearch (t ++ ' ' :: tokenStr d) = some (d.year, d.month, d.day) := by
  rw [kanbanDateSearch_append t _ hclean]
  have htok := matchDateTokenAt_token d hok []
  rw [List.append_nil] at htok
  have hd : kanbanDateSearch (' ' :: tokenStr d) =
      (match matchDateTokenAt (' ' :: tokenStr d) with
       | some (v, _) => some v
       | none => kanbanDateSearch (tokenStr d)) := rfl
  rw [hd, show matchDateTokenAt (' ' :: tokenStr d) = none from rfl]
  have hd2 : kanbanDateSearch (tokenStr d) =
      (match matchDateTokenAt ('@' :: braceL :: (strftimeDate d ++ [braceR])) with
       | some (v, _) => some v
       | none => kanbanDateSearch (braceL :: (strftimeDate d ++ [braceR]))) := rfl
  rw [hd2, htok]

theorem kanbanDateSub_text_token (t : Str) (d : PyDate)
    (hclean : kanbanDateSearch t = none) (hok : dateOK d = true) :
    kanbanDateSub (t ++ ' ' :: tokenStr d) = t ++ [' '] := by
  unfold kanbanDateSub
  have hlen : (t ++ ' ' :: tokenStr d).length = t.length + 14 := by
    simp [tokenStr, strftimeDate]
  rw [hlen, kanbanDateSubAux_append t (t.length + 14) (tokenStr d) hclean (by omega)]
  have harith : t.length + 14 - (t.length + 1) = 13 := by omega
  rw [harith]
  have htok := matchDateTokenAt_token d hok []
  rw [List.append_nil] at htok
  have hsub : kanbanDateSubAux 13 (tokenStr d) = [] := by
    have hd2 : kanbanDateSubAux 13 (tokenStr d) =
        (match matchDateTokenAt ('@' :: braceL :: (strftimeDate d ++ [braceR])) with
         | some (_, r) => kanbanDateSubAux 12 r
         | none => '@' :: kanbanDateSubAux 12 (braceL :: (strftimeDate d ++ [braceR]))) := rfl
    rw [hd2, htok]
    rfl
  rw [hsub]

/-- The card the parser rebuilds from an emitted card line: same text,
status and due date; tags and wikilinks re-extracted from the emitted
text; empty subtasks; indent level equal to the emission depth. -/
def rebuildCard (c : KCard) (depth n : Nat) : KCard :=
  .mk c.text c.status c.due_date
    (parse_card_metadata (c.text ++ Option.elim c.due_date [] dueToken)).tags
    (parse_card_metadata (c.text ++ Option.elim c.due_date [] dueToken)).wikilinks
    KForest.nil depth n

theorem skelOfCard_rebuild (c : KCard) (depth n : Nat) :
    skelOfCard (rebuildCard c depth n) =
      Skel.mk c.text c.status c.due_date SkelList.nil := by
  obtain ⟨t, s, dd, tg, w, subs, i, ln⟩ := c
  rfl

theorem parseLineStep_cardline (cols : List KanbanColumn) (col : KanbanColumn)
    (fin0 : KForest) (stack0 : List PFrame) (n : Nat) (c : KCard)
    (htext : pyStrip c.text = c.text) (hne : c.text ≠ [])
    (hclean : kanbanDateSearch c.text = none)
    (hdue : ∀ d, c.due_date = some d → dateOK d = true)
    (hstatus : c.status = strOf ("completed") ∨ c.status = strOf ("incomplete"))
    (depth : Nat) :
    parseLineStep
        { columns := cols, cur := some { col := col, fin := fin0, stack := stack0 } }
        n (format_kanban_card c depth) =
      some { columns := cols,
             cur := some { col := col, fin := (popGE depth stack0 fin0).2,
                           stack := (rebuildCard c depth n, KForest.nil) ::
                             (popGE depth stack0 fin0).1 } } := by
  unfold parseLineStep
  rw [kanbanColumnMatch_format c depth]
  unfold cardLineStep
  rw [kanbanCardMatch_format c htext hne depth]
  dsimp only
  have hind : 2 * depth / 2 = depth := by omega
  have hst : (if (if c.status = strOf ("completed") then 'x' else ' ') = 'x' ∨
      (if c.status = strOf ("completed") then 'x' else ' ') = 'X'
      then strOf ("completed") else strOf ("incomplete")) = c.status := by
    rcases hstatus with hs | hs
    · rw [hs, if_pos rfl, if_pos (by left; rfl)]
    · rw [hs, if_neg (show ¬ strOf ("incomplete") = strOf ("completed") from by decide),
        if_neg (show ¬ (' ' = 'x' ∨ ' ' = 'X') from by decide)]
  have hmeta : (parse_card_metadata
      (c.text ++ Option.elim c.due_date [] dueToken)).due_date = c.due_date := by
    unfold parse_card_metadata
    cases hd : c.due_date with
    | none =>
        show (match kanbanDateSearch (c.text ++ Option.elim none [] dueToken) with
          | some (y, m, d) => strptimeDate y m d
          | none => none) = none
        rw [show (Option.elim (none : Option PyDate) [] dueToken) = ([] : Str) from rfl,
          List.append_nil,
          show kanbanDateSearch c.text = none from hclean]
    | some d =>
        have hok := hdue d hd
        show (match kanbanDateSearch (c.text ++ Option.elim (some d) [] dueToken) with
          | some (y, m, dd) => strptimeDate y m dd
          | none => none) = some d
        rw [show Option.elim (some d) [] dueToken = dueToken d from rfl, dueToken_eq,
          kanbanDateSearch_text_token c.text d hclean hok]
        exact strptimeDate_of_ok d hok
  have hcleantext : pyStrip (kanbanDateSub
      (c.text ++ Option.elim c.due_date [] dueToken)) = c.text := by
    cases hd : c.due_date with
    | none =>
        rw [show (Option.elim (none : Option PyDate) [] dueToken) = ([] : Str) from rfl,
          List.append_nil, kanbanDateSub_clean c.text hclean, htext]
    | some d =>
        have hok := hdue d hd
        rw [show Option.elim (some d) [] dueToken = dueToken d from rfl, dueToken_eq,
          kanbanDateSub_text_token c.text d hclean hok,
          pyStrip_append_space c.text htext hne]
  rw [hind, hst, hmeta, hcleantext]
  have hmk : mkKanbanCard c.text c.status c.due_date
      (parse_card_metadata (c.text ++ Option.elim c.due_date [] dueToken)).tags
      (parse_card_metadata (c.text ++ Option.elim c.due_date [] dueToken)).wikilinks
      KForest.nil depth n = some (rebuildCard c depth n) := by
    unfold mkKanbanCard
    rw [if_neg (by rw [htext]; exact hne), htext]
    rfl
  rw [hmk]

mutual
/-- Well-formedness every parsed card satisfies: stripped nonempty text,
one of the two status strings, a valid due date, recursively. -/
def wfCard : KCard → Bool
  | .mk t s dd _ _ subs _ _ =>
      (decide (pyStrip t = t)) && (decide (¬ t = [])) &&
      (t.all (fun c => !(isLineBoundary c))) &&
      (decide (s = strOf ("completed") ∨ s = strOf ("incomplete"))) &&
      (match dd with | some d => dateOK d | none => true) &&
      wfForest subs
/-- Well-formedness of every card of a forest. -/
def wfForest : KForest → Bool
  | .nil => true
  | .cons c rest => wfCard c && wfForest rest
end

mutual
/-- Cleanliness: no date token survives in the stored card text (the
amending condition of the round trip), recursively. -/
def cardClean : KCard → Bool
  | .mk t _ _ _ _ subs _ _ =>
      (decide (kanbanDateSearch t = none)) && forestClean subs
/-- Cleanliness of every card of a forest. -/
def forestClean : KForest → Bool
  | .nil => true
  | .cons c rest => cardClean c && forestClean rest
end

theorem wfCard_parts (t s : Str) (dd : Option PyDate) (tg w : List Str)
    (subs : KForest) (i ln : Nat)
    (h : wfCard (.mk t s dd tg w subs i ln) = true) :
    pyStrip t = t ∧ t ≠ [] ∧
    (s = strOf ("completed") ∨ s = strOf ("incomplete")) ∧
    (∀ d, dd = some d → dateOK d = true) ∧ wfForest subs = true ∧
    t.all (fun c => !(isLineBoundary c)) = true := by
  cases dd with
  | none =>
      have h2 : ((decide (pyStrip t = t)) && (decide (¬ t = [])) &&
          (t.all (fun c => !(isLineBoundary c))) &&
          (decide (s = strOf ("completed") ∨ s = strOf ("incomplete"))) &&
          true && wfForest subs) = true := h
      simp only [Bool.and_eq_true, decide_eq_true_eq, Bool.and_true] at h2
      exact ⟨h2.1.1.1.1, h2.1.1.1.2, h2.1.2, (fun d hd => nomatch hd), h2.2,
        h2.1.1.2⟩
  | some d =>
      have h2 : ((decide (pyStrip t = t)) && (decide (¬ t = [])) &&
          (t.all (fun c => !(isLineBoundary c))) &&
          (decide (s = strOf ("completed") ∨ s = strOf ("incomplete"))) &&
          dateOK d && wfForest subs) = true := h
      simp only [Bool.and_eq_true, decide_eq_true_eq] at h2
      refine ⟨h2.1.1.1.1.1, h2.1.1.1.1.2, h2.1.1.2, ?_, h2.2, h2.1.1.1.2⟩
      intro d2 hd2
      have : d2 = d := (Option.some.inj hd2).symm
      rw [this]
      exact h2.1.2

theorem cardClean_parts (t s : Str) (dd : Option PyDate) (tg w : List Str)
    (subs : KForest) (i ln : Nat)
    (h : cardClean (.mk t s dd tg w subs i ln) = true) :
    kanbanDateSearch t = none ∧ forestClean subs = true := by
  have h2 : ((decide (kanbanDateSearch t = none)) && forestClean subs) = true := h
  simp only [Bool.and_eq_true, decide_eq_true_eq] at h2
  exact h2

/-- Append of skeleton lists. -/
def skelAppend : SkelList → SkelList → SkelList
  | .nil, b => b
  | .cons s r, b => .cons s (skelAppend r b)

theorem skelAppend_nil : ∀ (a : SkelList), skelAppend a .nil = a
  | .nil => rfl
  | .cons s r => by rw [skelAppend, skelAppend_nil r]

theorem skelAppend_cons_mid : ∀ (a : SkelList) (s : Skel) (b : SkelList),
    skelAppend (skelAppend a (.cons s .nil)) b = skelAppend a (.cons s b)
  | .nil, s, b => rfl
  | .cons s0 r, s, b => by
      rw [skelAppend, skelAppend, skelAppend, skelAppend_cons_mid r s b]

theorem skel_push : ∀ (f : KForest) (c : KCard),
    skelOfForest (f.push c) =
      skelAppend (skelOfForest f) (.cons (skelOfCard c) .nil)
  | .nil, c => rfl
  | .cons d rest, c => by
      rw [KForest.push, skelOfForest, skel_push rest c]
      rfl

theorem skel_pushList : ∀ (cs : List KCard) (f : KForest),
    skelOfForest (pushList f cs) = skelAppend (skelOfForest f) (skelOfList cs)
  | [], f => by rw [pushList, skelOfList, skelAppend_nil]
  | c :: cs2, f => by
      rw [pushList, skel_pushList cs2 (f.push c), skel_push, skelOfList,
        skelAppend_cons_mid]

theorem parseLinesAux_append : ∀ (xs ys : List Str) (st : PState) (n : Nat),
    parseLinesAux st n (xs ++ ys) =
      (match parseLinesAux st n xs with
       | none => none
       | some st1 => parseLinesAux st1 (n + xs.length) ys) := by
  intro xs
  induction xs with
  | nil =>
      intro ys st n
      show parseLinesAux st n ys =
        parseLinesAux st (n + ([] : List Str).length) ys
      simp
  | cons x xs2 ih =>
      intro ys st n
      have hL : parseLinesAux st n ((x :: xs2) ++ ys) =
          (match parseLineStep st n x with
           | none => none
           | some st2 => parseLinesAux st2 (n + 1) (xs2 ++ ys)) := rfl
      have hR : parseLinesAux st n (x :: xs2) =
          (match parseLineStep st n x with
           | none => none
           | some st2 => parseLinesAux st2 (n + 1) xs2) := rfl
      rw [hL, hR]
      cases hstep : parseLineStep st n x with
      | none => rfl
      | some st2 =>
          dsimp only
          rw [ih ys st2 (n + 1)]
          have harith : n + 1 + xs2.length = n + (x :: xs2).length := by
            simp
            omega
          rw [harith]

mutual
/-- Reparsing the lines emitted for one well-formed clean card: the parse
succeeds, and popping the resulting stack at any level at or below the
emission depth is popping the original stack after delivering one closed
card with the same skeleton. -/
theorem emitCard_parse (cols : List KanbanColumn) (col : KanbanColumn) :
    ∀ (c : KCard), wfCard c = true → cardClean c = true →
    ∀ (d n : Nat) (fin0 : KForest) (stack0 : List PFrame),
    ∃ (c' : KCard) (fin1 : KForest) (stack1 : List PFrame),
      parseLinesAux
          { columns := cols, cur := some { col := col, fin := fin0, stack := stack0 } }
          n (emitCard c d) =
        some { columns := cols,
               cur := some { col := col, fin := fin1, stack := stack1 } } ∧
      skelOfCard c' = skelOfCard c ∧ c'.indent_level = d ∧
      (∀ l, l ≤ d → popGE l stack1 fin1 =
          popCarry l c' (popGE d stack0 fin0).1 (popGE d stack0 fin0).2)
  | .mk t s dd tg w subs i ln => by
      intro hwf hclean d n fin0 stack0
      obtain ⟨htext, hne, hstatus, hdue, hwfsubs, hnb⟩ :=
        wfCard_parts t s dd tg w subs i ln hwf
      obtain ⟨hcl, hclsubs⟩ := cardClean_parts t s dd tg w subs i ln hclean
      have hstep := parseLineStep_cardline cols col fin0 stack0 n
        (.mk t s dd tg w subs i ln) htext hne hcl hdue hstatus d
      obtain ⟨cs, fin1, stack1, hparse2, hskels, hpop2⟩ :=
        emitForest_parse cols col subs hwfsubs hclsubs (d + 1) (n + 1)
          (popGE d stack0 fin0).2
          ((rebuildCard (.mk t s dd tg w subs i ln) d n, KForest.nil) ::
            (popGE d stack0 fin0).1)
      refine ⟨closeFrame (rebuildCard (.mk t s dd tg w subs i ln) d n,
          pushList KForest.nil cs), fin1, stack1, ?_, ?_, ?_, ?_⟩
      · have hE : emitCard (.mk t s dd tg w subs i ln) d =
            format_kanban_card (.mk t s dd tg w subs i ln) d ::
              emitForest subs (d + 1) := rfl
        rw [hE]
        have hP : parseLinesAux
            { columns := cols, cur := some { col := col, fin := fin0, stack := stack0 } }
            n (format_kanban_card (.mk t s dd tg w subs i ln) d ::
              emitForest subs (d + 1)) =
            (match parseLineStep
                { columns := cols,
                  cur := some { col := col, fin := fin0, stack := stack0 } }
                n (format_kanban_card (.mk t s dd tg w subs i ln) d) with
             | none => none
             | some st2 => parseLinesAux st2 (n + 1) (emitForest subs (d + 1))) := rfl
        rw [hP, hstep]
        exact hparse2
      · have hc : closeFrame (rebuildCard (.mk t s dd tg w subs i ln) d n,
            pushList KForest.nil cs) =
            KCard.mk t s dd
              (parse_card_metadata (t ++ Option.elim dd [] dueToken)).tags
              (parse_card_metadata (t ++ Option.elim dd [] dueToken)).wikilinks
              (pushList KForest.nil cs) d n := rfl
        rw [hc]
        have hs1 : skelOfCard (KCard.mk t s dd
            (parse_card_metadata (t ++ Option.elim dd [] dueToken)).tags
            (parse_card_metadata (t ++ Option.elim dd [] dueToken)).wikilinks
            (pushList KForest.nil cs) d n) =
            Skel.mk t s dd (skelOfForest (pushList KForest.nil cs)) := rfl
        have hs2 : skelOfCard (KCard.mk t s dd tg w subs i ln) =
            Skel.mk t s dd (skelOfForest subs) := rfl
        rw [hs1, hs2, skel_pushList]
        rw [show skelAppend (skelOfForest KForest.nil) (skelOfList cs) =
          skelOfList cs from rfl]
        rw [hskels]
      · rw [closeFrame_indent]
        rfl
      · intro l hl
        rw [hpop2 l (by omega)]
        have hnopop : popGE (d + 1)
            ((rebuildCard (.mk t s dd tg w subs i ln) d n, KForest.nil) ::
              (popGE d stack0 fin0).1) (popGE d stack0 fin0).2 =
            ((rebuildCard (.mk t s dd tg w subs i ln) d n, KForest.nil) ::
              (popGE d stack0 fin0).1, (popGE d stack0 fin0).2) := by
          show (if d + 1 ≤ (rebuildCard (.mk t s dd tg w subs i ln) d n,
              KForest.nil).1.indent_level
            then popCarry (d + 1)
              (closeFrame (rebuildCard (.mk t s dd tg w subs i ln) d n, KForest.nil))
              (popGE d stack0 fin0).1 (popGE d stack0 fin0).2
            else ((rebuildCard (.mk t s dd tg w subs i ln) d n, KForest.nil) ::
              (popGE d stack0 fin0).1, (popGE d stack0 fin0).2)) = _
          rw [if_neg (show ¬ d + 1 ≤ (rebuildCard (.mk t s dd tg w subs i ln) d n,
            KForest.nil).1.indent_level from by show ¬ d + 1 ≤ d; omega)]
        rw [hnopop, deliverList_top]
        show (if l ≤ (rebuildCard (.mk t s dd tg w subs i ln) d n).indent_level
          then popCarry l (closeFrame (rebuildCard (.mk t s dd tg w subs i ln) d n,
              pushList KForest.nil cs))
            (popGE d stack0 fin0).1 (popGE d stack0 fin0).2
          else ((rebuildCard (.mk t s dd tg w subs i ln) d n,
              pushList KForest.nil cs) :: (popGE d stack0 fin0).1,
            (popGE d stack0 fin0).2)) = _
        rw [if_pos (show l ≤ (rebuildCard (.mk t s dd tg w subs i ln) d n).indent_level
          from hl)]

/-- Reparsing the lines emitted for a well-formed clean forest of sibling
cards: the parse succeeds and popping at any level at or below the
emission depth is popping the original stack after delivering the closed
siblings, whose skeletons are those of the forest. -/
theorem emitForest_parse (cols : List KanbanColumn) (col : KanbanColumn) :
    ∀ (F : KForest), wfForest F = true → forestClean F = true →
    ∀ (d n : Nat) (fin0 : KForest) (stack0 : List PFrame),
    ∃ (cs : List KCard) (fin1 : KForest) (stack1 : List PFrame),
      parseLinesAux
          { columns := cols, cur := some { col := col, fin := fin0, stack := stack0 } }
          n (emitForest F d) =
        some { columns := cols,
               cur := some { col := col, fin := fin1, stack := stack1 } } ∧
      skelOfList cs = skelOfForest F ∧
      (∀ l, l ≤ d → popGE l stack1 fin1 =
          popGE l (deliverList (popGE d stack0 fin0) cs).1
            (deliverList (popGE d stack0 fin0) cs).2)
  | .nil => by
      intro _ _ d n fin0 stack0
      refine ⟨[], fin0, stack0, rfl, rfl, ?_⟩
      intro l hl
      exact (popGE_popGE_comp l d hl stack0 fin0).symm
  | .cons c rest => by
      intro hwf hclean d n fin0 stack0
      have hwf2 : (wfCard c && wfForest rest) = true := hwf
      have hcl2 : (cardClean c && forestClean rest) = true := hclean
      simp only [Bool.and_eq_true] at hwf2 hcl2
      obtain ⟨c', finA, stackA, hparse1, hskel1, hind1, hpop1⟩ :=
        emitCard_parse cols col c hwf2.1 hcl2.1 d n fin0 stack0
      obtain ⟨cs2, fin1, stack1, hparse2, hskel2, hpop2⟩ :=
        emitForest_parse cols col rest hwf2.2 hcl2.2 d
          (n + (emitCard c d).length) finA stackA
      refine ⟨c' :: cs2, fin1, stack1, ?_, ?_, ?_⟩
      · have hE : emitForest (.cons c rest) d =
            emitCard c d ++ emitForest rest d := rfl
        rw [hE, parseLinesAux_append, hparse1]
        exact hparse2
      · rw [skelOfList, hskel1, hskel2]
        rfl
      · intro l hl
        rw [hpop2 l hl]
        have hR : popGE d stackA finA = deliver (popGE d stack0 fin0) c' := by
          rw [hpop1 d (le_refl d)]
          refine popCarry_eq_deliver d (popGE d stack0 fin0) c' ?_
          intro f rest2 hf
          exact popGE_top_lt d stack0 fin0 f rest2 hf
        rw [hR]
        rfl
end

theorem pyStrip_sublist (s : Str) : List.Sublist (pyStrip s) s := by
  unfold pyStrip
  have h1 : List.Sublist (s.dropWhile pyIsSpace) s :=
    (List.dropWhile_suffix pyIsSpace).sublist
  have h2 : List.Sublist ((s.dropWhile pyIsSpace).reverse.dropWhile pyIsSpace)
      (s.dropWhile pyIsSpace).reverse :=
    (List.dropWhile_suffix pyIsSpace).sublist
  have h3 := (List.reverse_sublist.mpr h1)
  have h4 := h2.trans h3
  have h5 := List.reverse_sublist.mpr h4
  simpa using h5

theorem kanbanDateSubAux_sublist : ∀ (fuel : Nat) (s : Str),
    List.Sublist (kanbanDateSubAux fuel s) s
  | 0, s => by cases s <;> exact List.Sublist.refl _
  | _+1, [] => List.Sublist.refl []
  | fuel+1, c :: rest => by
      have hd : kanbanDateSubAux (fuel + 1) (c :: rest) =
          (match matchDateTokenAt (c :: rest) with
           | some (_, r) => kanbanDateSubAux fuel r
           | none => c :: kanbanDateSubAux fuel rest) := rfl
      rw [hd]
      cases hm : matchDateTokenAt (c :: rest) with
      | none => exact List.Sublist.cons₂ c (kanbanDateSubAux_sublist fuel rest)
      | some vr =>
          obtain ⟨v, r⟩ := vr
          obtain ⟨b, c1, c2, c3, c4, c5, c6, c7, c8, b2, hu, _, _⟩ :=
            matchDateTokenAt_shape _ _ _ hm
          have hsuf : r <:+ c :: rest := by
            refine ⟨['@', b, c1, c2, c3, c4, '-', c5, c6, '-', c7, c8, b2], ?_⟩
            rw [hu]
            rfl
          exact (kanbanDateSubAux_sublist fuel r).trans hsuf.sublist

theorem kanbanDateSub_sublist (s : Str) : List.Sublist (kanbanDateSub s) s :=
  kanbanDateSubAux_sublist s.length s

theorem kanbanCardMatch_sublist (line : Str) (a : Nat) (b : Char) (tx : Str)
    (h : kanbanCardMatch line = some (a, b, tx)) : List.Sublist tx line := by
  unfold kanbanCardMatch at h
  dsimp only at h
  split at h
  next r2 heq1 =>
    split at h
    next st r4 heq2 =>
      split at h
      · cases r4 with
        | nil => cases h
        | cons A r4b =>
            cases r4b with
            | nil => cases h
            | cons B C =>
                dsimp only at h
                split at h
                · have htx : tx = pyStrip (A :: B :: C) := by
                    have hin := Option.some.inj h
                    exact (congrArg (fun (p : Nat × Char × Str) => p.2.2) hin).symm
                  rw [htx]
                  refine (pyStrip_sublist _).trans ?_
                  have h4 : (A :: B :: C) <:+
                      ('[' :: st :: ']' :: A :: B :: C) := ⟨['[', st, ']'], rfl⟩
                  have h5 : (A :: B :: C) <:+ r2 := by
                    rw [← heq2] at h4
                    exact h4.trans (List.drop_suffix _ _)
                  have h6 : (A :: B :: C) <:+ line := by
                    have h7 : (A :: B :: C) <:+ ('-' :: r2) := by
                      obtain ⟨t1, ht1⟩ := h5
                      exact ⟨'-' :: t1, by rw [List.cons_append, ht1]⟩
                    rw [← heq1] at h7
                    exact h7.trans (List.drop_suffix _ _)
                  exact h6.sublist
                · cases h
      · cases h
    next => cases h
  next => cases h

theorem kanbanColumnMatch_sublist (line : Str) (a : Nat) (nm : Str)
    (h : kanbanColumnMatch line = some (a, nm)) : List.Sublist nm line := by
  unfold kanbanColumnMatch at h
  dsimp only at h
  split at h
  · split at h
    next A B C heqr =>
      split at h
      · have hnm : nm = pyStrip (List.drop
            (List.takeWhile (fun c => c = '#') line).length line) := by
          have hin := Option.some.inj h
          exact (congrArg (fun (p : Nat × Str) => p.2) hin).symm
        rw [hnm]
        exact (pyStrip_sublist _).trans (List.drop_suffix _ _).sublist
      · cases h
    next => cases h
  · cases h

/-- Well-formedness of a stored column name: stripped, nonempty, free of
line boundaries. -/
def wfName (s : Str) : Bool :=
  (decide (pyStrip s = s)) && (decide (¬ s = [])) &&
  (s.all (fun c => !(isLineBoundary c)))

theorem wfCard_build (t s : Str) (dd : Option PyDate) (tg w : List Str)
    (subs : KForest) (i ln : Nat)
    (h1 : pyStrip t = t) (h2 : t ≠ [])
    (h3 : t.all (fun c => !(isLineBoundary c)) = true)
    (h4 : s = strOf ("completed") ∨ s = strOf ("incomplete"))
    (h5 : ∀ d, dd = some d → dateOK d = true) (h6 : wfForest subs = true) :
    wfCard (.mk t s dd tg w subs i ln) = true := by
  cases dd with
  | none =>
      show ((decide (pyStrip t = t)) && (decide (¬ t = [])) &&
          (t.all (fun c => !(isLineBoundary c))) &&
          (decide (s = strOf ("completed") ∨ s = strOf ("incomplete"))) &&
          true && wfForest subs) = true
      simp [h1, h2, h3, h4, h6]
  | some d =>
      show ((decide (pyStrip t = t)) && (decide (¬ t = [])) &&
          (t.all (fun c => !(isLineBoundary c))) &&
          (decide (s = strOf ("completed") ∨ s = strOf ("incomplete"))) &&
          dateOK d && wfForest subs) = true
      simp [h1, h2, h3, h4, h5 d rfl, h6]

theorem wfForest_push : ∀ (f : KForest) (c : KCard),
    wfForest f = true → wfCard c = true → wfForest (f.push c) = true
  | .nil, c, _, hc => by
      show (wfCard c && true) = true
      simp [hc]
  | .cons d rest, c, hf, hc => by
      have h2 : (wfCard d && wfForest rest) = true := hf
      simp only [Bool.and_eq_true] at h2
      have ih := wfForest_push rest c h2.2 hc
      show (wfCard d && wfForest (rest.push c)) = true
      simp [h2.1, ih]

/-- A stack frame whose card and accumulated children are well formed. -/
def wfFrame (f : PFrame) : Bool := wfCard f.1 && wfForest f.2

theorem closeFrame_wf (f : PFrame) (h : wfFrame f = true) :
    wfCard (closeFrame f) = true := by
  obtain ⟨c, ch⟩ := f
  obtain ⟨t, s, dd, tg, w, subs, i, ln⟩ := c
  have h2 : (wfCard (.mk t s dd tg w subs i ln) && wfForest ch) = true := h
  simp only [Bool.and_eq_true] at h2
  obtain ⟨ha, hb, hc, hd, _, hf⟩ :=
    wfCard_parts t s dd tg w subs i ln h2.1
  exact wfCard_build t s dd tg w ch i ln ha hb hf hc hd h2.2

theorem popCarry_wf (L : Nat) :
    ∀ (rest : List PFrame) (fin : KForest) (carry : KCard),
      (∀ f ∈ rest, wfFrame f = true) → wfForest fin = true → wfCard carry = true →
      wfForest (popCarry L carry rest fin).2 = true ∧
      (∀ f ∈ (popCarry L carry rest fin).1, wfFrame f = true) := by
  intro rest
  induction rest with
  | nil =>
      intro fin carry _ hfin hc
      exact ⟨wfForest_push fin carry hfin hc, fun f hf => nomatch hf⟩
  | cons g rest2 ih =>
      intro fin carry hall hfin hc
      have hg := hall g (by simp)
      have hg2 : wfFrame (attachChild g carry) = true := by
        have h2 : (wfCard g.1 && wfForest g.2) = true := hg
        simp only [Bool.and_eq_true] at h2
        show (wfCard g.1 && wfForest (g.2.push carry)) = true
        simp [h2.1, wfForest_push g.2 carry h2.2 hc]
      show wfForest (if L ≤ (attachChild g carry).1.indent_level
          then popCarry L (closeFrame (attachChild g carry)) rest2 fin
          else (attachChild g carry :: rest2, fin)).2 = true ∧
        (∀ f ∈ (if L ≤ (attachChild g carry).1.indent_level
          then popCarry L (closeFrame (attachChild g carry)) rest2 fin
          else (attachChild g carry :: rest2, fin)).1, wfFrame f = true)
      by_cases hL : L ≤ (attachChild g carry).1.indent_level
      · rw [if_pos hL]
        exact ih fin (closeFrame (attachChild g carry))
          (fun f hf => hall f (by simp [hf])) hfin (closeFrame_wf _ hg2)
      · rw [if_neg hL]
        refine ⟨hfin, ?_⟩
        intro f hf
        rcases List.mem_cons.mp hf with hf | hf
        · rw [hf]; exact hg2
        · exact hall f (by simp [hf])

theorem popGE_wf (L : Nat) (stack : List PFrame) (fin : KForest)
    (hall : ∀ f ∈ stack, wfFrame f = true) (hfin : wfForest fin = true) :
    wfForest (popGE L stack fin).2 = true ∧
    (∀ f ∈ (popGE L stack fin).1, wfFrame f = true) := by
  cases stack with
  | nil => exact ⟨hfin, fun f hf => nomatch hf⟩
  | cons g rest =>
      show wfForest (if L ≤ g.1.indent_level
          then popCarry L (closeFrame g) rest fin else (g :: rest, fin)).2 = true ∧
        (∀ f ∈ (if L ≤ g.1.indent_level
          then popCarry L (closeFrame g) rest fin else (g :: rest, fin)).1,
          wfFrame f = true)
      by_cases hL : L ≤ g.1.indent_level
      · rw [if_pos hL]
        exact popCarry_wf L rest fin (closeFrame g)
          (fun f hf => hall f (by simp [hf])) hfin
          (closeFrame_wf g (hall g (by simp)))
      · rw [if_neg hL]
        exact ⟨hfin, hall⟩

theorem built_card_wf (l tx : Str) (stch : Char) (lvl n : Nat) (card : KCard)
    (hl : l.all (fun c => !(isLineBoundary c)) = true)
    (hsub : List.Sublist tx l)
    (hmk : mkKanbanCard (pyStrip (kanbanDateSub tx))
        (if stch = 'x' ∨ stch = 'X' then strOf ("completed")
         else strOf ("incomplete"))
        (parse_card_metadata tx).due_date (parse_card_metadata tx).tags
        (parse_card_metadata tx).wikilinks KForest.nil lvl n = some card) :
    wfCard card = true := by
  unfold mkKanbanCard at hmk
  by_cases he : pyStrip (pyStrip (kanbanDateSub tx)) = []
  · rw [if_pos he] at hmk
    cases hmk
  · rw [if_neg he] at hmk
    have hb := (Option.some.inj hmk).symm
    subst hb
    refine wfCard_build _ _ _ _ _ _ _ _ (pyStrip_idem _) he ?_ ?_ ?_ rfl
    · rw [List.all_eq_true]
      intro x hx
      have hmem : x ∈ l := by
        have hch : List.Sublist (pyStrip (pyStrip (kanbanDateSub tx))) tx :=
          ((pyStrip_sublist _).trans (pyStrip_sublist _)).trans
            (kanbanDateSub_sublist tx)
        exact (hch.trans hsub).subset hx
      rw [List.all_eq_true] at hl
      exact hl x hmem
    · by_cases hst : stch = 'x' ∨ stch = 'X'
      · rw [if_pos hst]; left; rfl
      · rw [if_neg hst]; right; rfl
    · intro d hd
      unfold parse_card_metadata at hd
      dsimp only at hd
      split at hd
      next y m dd2 heq =>
        exact (strptimeDate_ok y m dd2 d hd).1
      next => cases hd

/-- Well-formedness of the whole parser state. -/
def wfPS (st : PState) : Prop :=
  (∀ col ∈ st.columns, wfName col.name = true ∧ wfForest col.cards = true) ∧
  (∀ c, st.cur = some c → wfName c.col.name = true ∧ wfForest c.fin = true ∧
    (∀ f ∈ c.stack, wfFrame f = true))

theorem closeColumn_wf (c : PColState)
    (hn : wfName c.col.name = true) (hf : wfForest c.fin = true)
    (hs : ∀ f ∈ c.stack, wfFrame f = true) :
    wfName (closeColumn c).name = true ∧ wfForest (closeColumn c).cards = true := by
  have hp := popGE_wf 0 c.stack c.fin hs hf
  exact ⟨hn, hp.1⟩

theorem cardLineStep_wf (st : PState) (n : Nat) (l : Str) (st2 : PState)
    (hl : l.all (fun c => !(isLineBoundary c)) = true)
    (hinv : wfPS st) (h : cardLineStep st n l = some st2) : wfPS st2 := by
  unfold cardLineStep at h
  cases hm : kanbanCardMatch l with
  | none =>
      rw [hm] at h
      cases hcur : st.cur with
      | none =>
          rw [hcur] at h
          have hb := (Option.some.inj h).symm
          subst hb
          exact hinv
      | some c =>
          rw [hcur] at h
          have hb := (Option.some.inj h).symm
          subst hb
          exact hinv
  | some g =>
      rw [hm] at h
      cases hcur : st.cur with
      | none =>
          rw [hcur] at h
          have hb := (Option.some.inj h).symm
          subst hb
          exact hinv
      | some c =>
          rw [hcur] at h
          obtain ⟨i, sc, t⟩ := g
          dsimp only at h
          have hci := hinv.2 c hcur
          cases hmk : mkKanbanCard (pyStrip (kanbanDateSub t))
              (if sc = 'x' ∨ sc = 'X' then strOf ("completed")
               else strOf ("incomplete"))
              (parse_card_metadata t).due_date (parse_card_metadata t).tags
              (parse_card_metadata t).wikilinks KForest.nil (i / 2) n with
          | none => rw [hmk] at h; cases h
          | some card =>
              rw [hmk] at h
              dsimp only at h
              have hb := (Option.some.inj h).symm
              subst hb
              have hcw : wfCard card = true :=
                built_card_wf l t sc (i / 2) n card hl
                  (kanbanCardMatch_sublist l i sc t hm) hmk
              have hp := popGE_wf (i / 2) c.stack c.fin hci.2.2 hci.2.1
              refine ⟨fun col hcol => hinv.1 col hcol, ?_⟩
              intro c' hc'
              have hc2 := (Option.some.inj hc').symm
              subst hc2
              refine ⟨hci.1, hp.1, ?_⟩
              intro f hf
              rcases List.mem_cons.mp hf with hf | hf
              · rw [hf]
                show (wfCard card && wfForest KForest.nil) = true
                rw [hcw, show wfForest KForest.nil = true from rfl]
                rfl
              · exact hp.2 f hf

theorem parseLineStep_wf (st : PState) (n : Nat) (l : Str) (st2 : PState)
    (hl : l.all (fun c => !(isLineBoundary c)) = true)
    (hinv : wfPS st) (h : parseLineStep st n l = some st2) : wfPS st2 := by
  unfold parseLineStep at h
  cases hm : kanbanColumnMatch l with
  | none =>
      rw [hm] at h
      exact cardLineStep_wf st n l st2 hl hinv h
  | some g =>
      obtain ⟨hashes, name⟩ := g
      rw [hm] at h
      dsimp only at h
      by_cases h2 : hashes = 2
      · subst h2
        rw [if_pos rfl] at h
        cases hcol : mkKanbanColumn name KForest.nil n with
        | none =>
            rw [hcol] at h
            dsimp only at h
            cases h
        | some col =>
            rw [hcol] at h
            dsimp only at h
            have hcolwf : wfName col.name = true ∧ col.cards = KForest.nil := by
              unfold mkKanbanColumn at hcol
              by_cases hne : pyStrip name = []
              · rw [if_pos hne] at hcol; cases hcol
              · rw [if_neg hne] at hcol
                have hb := (Option.some.inj hcol).symm
                subst hb
                refine ⟨?_, rfl⟩
                show ((decide (pyStrip (pyStrip name) = pyStrip name)) &&
                    (decide (¬ pyStrip name = [])) &&
                    ((pyStrip name).all (fun c => !(isLineBoundary c)))) = true
                have hbf : (pyStrip name).all (fun c => !(isLineBoundary c)) = true := by
                  rw [List.all_eq_true]
                  intro x hx
                  have hmem : x ∈ l :=
                    ((pyStrip_sublist name).trans
                      (kanbanColumnMatch_sublist l 2 name hm)).subset hx
                  rw [List.all_eq_true] at hl
                  exact hl x hmem
                simp [pyStrip_idem, hne, hbf]
            cases hcur : st.cur with
            | none =>
                rw [hcur] at h
                have hb := (Option.some.inj h).symm
                subst hb
                refine ⟨fun c' hc' => hinv.1 c' hc', ?_⟩
                intro c' hc'
                have hc2 := (Option.some.inj hc').symm
                subst hc2
                exact ⟨hcolwf.1, rfl, fun f hf => nomatch hf⟩
            | some c =>
                rw [hcur] at h
                have hb := (Option.some.inj h).symm
                subst hb
                have hcc := hinv.2 c hcur
                have hclosed := closeColumn_wf c hcc.1 hcc.2.1 hcc.2.2
                refine ⟨?_, ?_⟩
                · intro c' hc'
                  rcases List.mem_append.mp hc' with hin | hin
                  · exact hinv.1 c' hin
                  · have : c' = closeColumn c := by simpa using hin
                    rw [this]
                    exact hclosed
                · intro c' hc'
                  have hc2 := (Option.some.inj hc').symm
                  subst hc2
                  exact ⟨hcolwf.1, rfl, fun f hf => nomatch hf⟩
      · rw [if_neg h2] at h
        exact cardLineStep_wf st n l st2 hl hinv h

theorem parseLinesAux_wf : ∀ (lines : List Str) (st : PState) (n : Nat) (st2 : PState),
    (∀ l ∈ lines, l.all (fun c => !(isLineBoundary c)) = true) →
    wfPS st → parseLinesAux st n lines = some st2 → wfPS st2 := by
  intro lines
  induction lines with
  | nil =>
      intro st n st2 _ hinv h
      have hb := (Option.some.inj h).symm
      subst hb
      exact hinv
  | cons l rest ih =>
      intro st n st2 hall hinv h
      unfold parseLinesAux at h
      cases hstep : parseLineStep st n l with
      | none => rw [hstep] at h; cases h
      | some st1 =>
          rw [hstep] at h
          exact ih st1 (n + 1) st2 (fun l2 hl2 => hall l2 (by simp [hl2]))
            (parseLineStep_wf st n l st1 (hall l (by simp)) hinv hstep) h

theorem splitLinesAux_nil_eq (acc : Str) :
    splitLinesAux [] acc = if acc = [] then [] else [acc.reverse] := rfl

theorem splitLinesAux_crlf (rest acc : Str) :
    splitLinesAux ('\r' :: '\n' :: rest) acc =
      acc.reverse :: splitLinesAux rest [] := rfl

set_option maxHeartbeats 1000000 in
theorem splitLinesAux_cons_bd (ch : Char) (rest acc : Str)
    (hne : ∀ (rest2 : List Char), ch = '\r' → rest = '\n' :: rest2 → False)
    (hb : isLineBoundary ch = true) :
    splitLinesAux (ch :: rest) acc = acc.reverse :: splitLinesAux rest [] := by
  rw [splitLinesAux.eq_def]
  split
  · rename_i heq
    exact absurd heq (by simp)
  · rename_i rest2 heq
    exfalso
    exact hne rest2 (List.cons.inj heq).1 (List.cons.inj heq).2
  · rename_i c2 rest2 hni heq
    obtain ⟨h1, h2⟩ := List.cons.inj heq
    rw [← h1, ← h2, if_pos hb]

set_option maxHeartbeats 1000000 in
theorem splitLinesAux_cons_nb (ch : Char) (rest acc : Str)
    (hb : isLineBoundary ch = false) :
    splitLinesAux (ch :: rest) acc = splitLinesAux rest (ch :: acc) := by
  rw [splitLinesAux.eq_def]
  split
  · rename_i heq
    exact absurd heq (by simp)
  · rename_i rest2 heq
    exfalso
    have h1 := (List.cons.inj heq).1
    rw [h1] at hb
    exact absurd hb (by decide)
  · rename_i c2 rest2 hni heq
    obtain ⟨h1, h2⟩ := List.cons.inj heq
    rw [← h1, ← h2, if_neg (by simp [hb])]

theorem splitLinesAux_nb : ∀ (s acc : Str),
    (∀ c ∈ acc, isLineBoundary c = false) →
    ∀ l ∈ splitLinesAux s acc, ∀ c ∈ l, isLineBoundary c = false := by
  intro s acc
  induction s, acc using splitLinesAux.induct with
  | case1 =>
      intro hacc l hl c hc
      rw [splitLinesAux_nil_eq] at hl
      simp at hl
  | case2 acc hne =>
      intro hacc l hl c hc
      rw [splitLinesAux_nil_eq, if_neg hne] at hl
      simp at hl
      subst hl
      exact hacc c (by simpa using hc)
  | case3 rest acc ih =>
      intro hacc l hl c hc
      rw [splitLinesAux_crlf] at hl
      rcases List.mem_cons.mp hl with hl | hl
      · subst hl
        exact hacc c (by simpa using hc)
      · exact ih (fun c2 hc2 => nomatch hc2) l hl c hc
  | case4 ch rest acc hne hb ih =>
      intro hacc l hl c hc
      rw [splitLinesAux_cons_bd ch rest acc hne hb] at hl
      rcases List.mem_cons.mp hl with hl | hl
      · subst hl
        exact hacc c (by simpa using hc)
      · exact ih (fun c2 hc2 => nomatch hc2) l hl c hc
  | case5 ch rest acc hne hb ih =>
      intro hacc l hl c hc
      rw [splitLinesAux_cons_nb ch rest acc (by simpa using hb)] at hl
      refine ih ?_ l hl c hc
      intro c2 hc2
      rcases List.mem_cons.mp hc2 with hc2 | hc2
      · subst hc2
        simpa using hb
      · exact hacc c2 hc2

theorem splitLines_nb (s : Str) :
    ∀ l ∈ splitLines s, ∀ c ∈ l, isLineBoundary c = false :=
  splitLinesAux_nb s [] (fun c hc => nomatch hc)

/-- What splitlines makes of a newline-join: the lines back, except that
one trailing empty line is dropped. -/
def stripTrail : List Str → List Str
  | [] => []
  | [l] => if l = [] then [] else [l]
  | l :: r :: rest => l :: stripTrail (r :: rest)

theorem splitLinesAux_line : ∀ (l : Str) (acc : Str) (rest : Str),
    (∀ c ∈ l, isLineBoundary c = false) →
    splitLinesAux (l ++ '\n' :: rest) acc =
      (acc.reverse ++ l) :: splitLinesAux rest [] := by
  intro l
  induction l with
  | nil =>
      intro acc rest _
      rw [List.nil_append,
        splitLinesAux_cons_bd '\n' rest acc (fun r2 h _ => by cases h) (by decide)]
      simp
  | cons c l2 ih =>
      intro acc rest hnb
      rw [List.cons_append, splitLinesAux_cons_nb c _ acc (hnb c (by simp)),
        ih (c :: acc) rest (fun x hx => hnb x (by simp [hx]))]
      simp

theorem splitLinesAux_last : ∀ (l : Str) (acc : Str),
    (∀ c ∈ l, isLineBoundary c = false) →
    splitLinesAux l acc =
      if acc.reverse ++ l = [] then [] else [acc.reverse ++ l] := by
  intro l
  induction l with
  | nil =>
      intro acc _
      rw [splitLinesAux_nil_eq]
      by_cases he : acc = []
      · subst he
        simp
      · rw [if_neg he, if_neg (by simpa using he)]
        simp
  | cons c l2 ih =>
      intro acc hnb
      rw [splitLinesAux_cons_nb c l2 acc (hnb c (by simp)),
        ih (c :: acc) (fun x hx => hnb x (by simp [hx]))]
      rw [if_neg (by simp), if_neg (by simp)]
      simp

theorem splitLines_join : ∀ (L : List Str),
    (∀ l ∈ L, ∀ c ∈ l, isLineBoundary c = false) →
    splitLines (joinNL L) = stripTrail L
  | [] => by
      intro _
      rfl
  | [l] => by
      intro hnb
      show splitLinesAux (joinNL [l]) [] = _
      have hj : joinNL [l] = l := by simp [joinNL]
      rw [hj, splitLinesAux_last l [] (hnb l (by simp))]
      show _ = if l = [] then [] else [l]
      simp
  | l :: r :: rest => by
      intro hnb
      have hj : joinNL (l :: r :: rest) = l ++ '\n' :: joinNL (r :: rest) := by
        show ((l :: r :: rest).intersperse (strOf ("\n"))).flatten = _
        rw [List.intersperse_cons_cons]
        show l ++ (strOf ("\n") ++ ((r :: rest).intersperse (strOf ("\n"))).flatten) = _
        rfl
      show splitLinesAux (joinNL (l :: r :: rest)) [] = _
      rw [hj, splitLinesAux_line l [] (joinNL (r :: rest)) (hnb l (by simp))]
      rw [show splitLinesAux (joinNL (r :: rest)) [] = splitLines (joinNL (r :: rest)) from rfl]
      rw [splitLines_join (r :: rest) (fun x hx => hnb x (by simp [hx]))]
      simp [stripTrail]

theorem parseLinesAux_stripTrail : ∀ (L : List Str) (st : PState) (n : Nat),
    parseLinesAux st n (stripTrail L) = parseLinesAux st n L
  | [], _, _ => rfl
  | [l], st, n => by
      by_cases he : l = []
      · subst he
        have h1 : stripTrail [([] : Str)] = [] := rfl
        rw [h1]
        have hstep : parseLineStep st n [] = some st :=
          parseLineStep_noop st n [] rfl rfl
        show some st = (match parseLineStep st n ([] : Str) with
          | none => none
          | some st2 => parseLinesAux st2 (n + 1) ([] : List Str))
        rw [hstep]
        rfl
      · have h1 : stripTrail [l] = [l] := by
          show (if l = [] then [] else [l]) = [l]
          rw [if_neg he]
        rw [h1]
  | l :: r :: rest, st, n => by
      show parseLinesAux st n (l :: stripTrail (r :: rest)) = _
      show (match parseLineStep st n l with
        | none => none
        | some st2 => parseLinesAux st2 (n + 1) (stripTrail (r :: rest))) =
        (match parseLineStep st n l with
        | none => none
        | some st2 => parseLinesAux st2 (n + 1) (r :: rest))
      cases hstep : parseLineStep st n l with
      | none => rfl
      | some st2 => exact parseLinesAux_stripTrail (r :: rest) st2 (n + 1)

theorem digitCh_not_boundary (k : Nat) (h : k < 10) :
    isLineBoundary (digitCh k) = false := by
  interval_cases k <;> decide

theorem dueToken_nb (d : PyDate) : ∀ c ∈ dueToken d, isLineBoundary c = false := by
  intro c hc
  have he : dueToken d = [' ', '@', braceL, digitCh (d.year / 1000 % 10),
      digitCh (d.year / 100 % 10), digitCh (d.year / 10 % 10), digitCh (d.year % 10),
      '-', digitCh (d.month / 10 % 10), digitCh (d.month % 10), '-',
      digitCh (d.day / 10 % 10), digitCh (d.day % 10), braceR] := by
    rw [dueToken_eq, tokenStr]
    simp [strftimeDate]
  rw [he] at hc
  simp only [List.mem_cons] at hc
  rcases hc with rfl|rfl|rfl|rfl|rfl|rfl|rfl|rfl|rfl|rfl|rfl|rfl|rfl|rfl|h
  · decide
  · decide
  · decide
  · exact digitCh_not_boundary _ (Nat.mod_lt _ (by norm_num))
  · exact digitCh_not_boundary _ (Nat.mod_lt _ (by norm_num))
  · exact digitCh_not_boundary _ (Nat.mod_lt _ (by norm_num))
  · exact digitCh_not_boundary _ (Nat.mod_lt _ (by norm_num))
  · decide
  · exact digitCh_not_boundary _ (Nat.mod_lt _ (by norm_num))
  · exact digitCh_not_boundary _ (Nat.mod_lt _ (by norm_num))
  · decide
  · exact digitCh_not_boundary _ (Nat.mod_lt _ (by norm_num))
  · exact digitCh_not_boundary _ (Nat.mod_lt _ (by norm_num))
  · decide
  · cases h

theorem format_nb (c : KCard) (depth : Nat)
    (htnb : c.text.all (fun ch => !(isLineBoundary ch)) = true) :
    ∀ ch ∈ format_kanban_card c depth, isLineBoundary ch = false := by
  obtain ⟨t, s, dd, tg, w, subs, i, ln⟩ := c
  simp only [KCard.text] at htnb
  intro ch hc
  unfold format_kanban_card at hc
  dsimp only at hc
  rcases List.mem_append.mp hc with hc | hc
  · rcases List.mem_append.mp hc with hc | hc
    · rcases List.mem_append.mp hc with hc | hc
      · rw [List.eq_of_mem_replicate hc]
        decide
      · have h2 : ch ∈ [('-' : Char), ' '] := hc
        simp at h2
        rcases h2 with rfl | rfl <;> decide
    · by_cases hst : (KCard.mk t s dd tg w subs i ln).status = strOf ("completed")
      · rw [if_pos hst] at hc
        have h2 : ch ∈ [('[' : Char), 'x', ']'] := hc
        simp at h2
        rcases h2 with rfl | rfl | rfl <;> decide
      · rw [if_neg hst] at hc
        have h2 : ch ∈ [('[' : Char), ' ', ']'] := hc
        simp at h2
        rcases h2 with rfl | rfl | rfl <;> decide
  · rcases List.mem_cons.mp hc with rfl | hc
    · decide
    · rcases List.mem_append.mp hc with hc | hc
      · rw [List.all_eq_true] at htnb
        simpa using htnb ch hc
      · cases dd with
        | none => cases hc
        | some d => exact dueToken_nb d ch hc

mutual
theorem emitCard_nb : ∀ (c : KCard), wfCard c = true → ∀ (d : Nat),
    ∀ l ∈ emitCard c d, ∀ ch ∈ l, isLineBoundary ch = false
  | .mk t s dd tg w subs i ln => by
      intro hwf d l hl ch hc
      obtain ⟨_, _, _, _, hwfsubs, hnb⟩ := wfCard_parts t s dd tg w subs i ln hwf
      rcases List.mem_cons.mp hl with hl | hl
      · subst hl
        exact format_nb (.mk t s dd tg w subs i ln) d hnb ch hc
      · exact emitForest_nb subs hwfsubs (d + 1) l hl ch hc
theorem emitForest_nb : ∀ (F : KForest), wfForest F = true → ∀ (d : Nat),
    ∀ l ∈ emitForest F d, ∀ ch ∈ l, isLineBoundary ch = false
  | .nil => by
      intro _ d l hl
      cases hl
  | .cons c rest => by
      intro hwf d l hl ch hc
      have h2 : (wfCard c && wfForest rest) = true := hwf
      simp only [Bool.and_eq_true] at h2
      rcases List.mem_append.mp hl with hl | hl
      · exact emitCard_nb c h2.1 d l hl ch hc
      · exact emitForest_nb rest h2.2 d l hl ch hc
end

/-- The columns of the final board: completed columns plus the still-open
one, closed (exactly the final step of parse_kanban_structure, and the
closing that a later heading performs). -/
def finalColumns (st : PState) : List KanbanColumn :=
  match st.cur with
  | some c => st.columns ++ [closeColumn c]
  | none => st.columns

/-- The lines write_kanban_board emits for one column. -/
def blockOf (col : KanbanColumn) : List Str :=
  (strOf ("## ") ++ col.name) :: ([] : Str) :: (emitForest col.cards 0 ++ [([] : Str)])

theorem write_lines_eq (board : KanbanBoard) :
    write_kanban_board_lines board =
      (if board.settings.isEmpty then []
       else
         strOf ("---") ::
         ((match board.settings.find? (fun e => e.1 = strOf ("kanban-plugin")) with
           | some e => [strOf ("kanban-plugin: ") ++ e.2]
           | none => []) ++ [strOf ("---"), []])) ++
      board.columns.flatMap blockOf := rfl

theorem parse_wf (content file_path : Str) (b : KanbanBoard)
    (h : parse_kanban_structure content file_path = some b) :
    ∀ col ∈ b.columns, wfName col.name = true ∧ wfForest col.cards = true := by
  unfold parse_kanban_structure at h
  cases hp : parseLinesAux { columns := [], cur := none } 1 (splitLines content) with
  | none => rw [hp] at h; cases h
  | some st =>
      rw [hp] at h
      have hinv0 : wfPS { columns := [], cur := none } :=
        ⟨(fun c hc => nomatch hc), (fun c hc => nomatch hc)⟩
      have hI : wfPS st := by
        refine parseLinesAux_wf (splitLines content) _ 1 st ?_ hinv0 hp
        intro l hl
        rw [List.all_eq_true]
        intro x hx
        have := splitLines_nb content l hl x hx
        simp [this]
      dsimp only at h
      have hb := (Option.some.inj h).symm
      subst hb
      cases hcur : st.cur with
      | none =>
          show ∀ col ∈ st.columns, _
          exact fun col hcol => hI.1 col hcol
      | some c =>
          show ∀ col ∈ st.columns ++ [closeColumn c], _
          intro col hcol
          rcases List.mem_append.mp hcol with hin | hin
          · exact hI.1 col hin
          · have hce : col = closeColumn c := by simpa using hin
            rw [hce]
            have hcc := hI.2 c hcur
            exact closeColumn_wf c hcc.1 hcc.2.1 hcc.2.2

theorem fm_noop (st : PState) (n : Nat) :
    parseLinesAux st n
      [strOf ("---"), strOf ("kanban-plugin: ") ++ strOf ("basic"),
       strOf ("---"), ([] : Str)] = some st := by
  have h1 : parseLineStep st n (strOf ("---")) = some st :=
    parseLineStep_noop st n _ rfl rfl
  have h2 : parseLineStep st (n + 1) (strOf ("kanban-plugin: ") ++ strOf ("basic")) =
      some st := parseLineStep_noop st (n + 1) _ rfl rfl
  have h3 : parseLineStep st (n + 2) (strOf ("---")) = some st :=
    parseLineStep_noop st (n + 2) _ rfl rfl
  have h4 : parseLineStep st (n + 3) ([] : Str) = some st :=
    parseLineStep_noop st (n + 3) _ rfl rfl
  show (match parseLineStep st n (strOf ("---")) with
    | none => none
    | some st2 => parseLinesAux st2 (n + 1)
        [strOf ("kanban-plugin: ") ++ strOf ("basic"), strOf ("---"), ([] : Str)]) =
    some st
  rw [h1]
  show (match parseLineStep st (n + 1) (strOf ("kanban-plugin: ") ++ strOf ("basic")) with
    | none => none
    | some st2 => parseLinesAux st2 (n + 1 + 1) [strOf ("---"), ([] : Str)]) = some st
  rw [h2]
  show (match parseLineStep st (n + 1 + 1) (strOf ("---")) with
    | none => none
    | some st2 => parseLinesAux st2 (n + 1 + 1 + 1) [([] : Str)]) = some st
  rw [show n + 1 + 1 = n + 2 from by omega, h3]
  show (match parseLineStep st (n + 2 + 1) ([] : Str) with
    | none => none
    | some st2 => parseLinesAux st2 (n + 2 + 1 + 1) ([] : List Str)) = some st
  rw [show n + 2 + 1 = n + 3 from by omega, h4]
  rfl

theorem wfName_parts (s : Str) (h : wfName s = true) :
    pyStrip s = s ∧ s ≠ [] ∧ s.all (fun c => !(isLineBoundary c)) = true := by
  simp only [wfName, Bool.and_eq_true, decide_eq_true_eq] at h
  exact ⟨h.1.1, h.1.2, h.2⟩

/-- The column record a level-2 heading line constructs. -/
def freshCol (nm : Str) (n : Nat) : KanbanColumn :=
  { name := nm, cards := KForest.nil, card_count := 0, heading_level := 2,
    line_number := n }

/-- The column state right after a heading line. -/
def freshColState (nm : Str) (n : Nat) : PColState :=
  { col := freshCol nm n, fin := KForest.nil, stack := [] }

theorem blocks_parse : ∀ (colsrem : List KanbanColumn),
    (∀ col ∈ colsrem, wfName col.name = true ∧ wfForest col.cards = true ∧
      forestClean col.cards = true) →
    ∀ (st0 : PState) (n : Nat),
    ∃ st2, parseLinesAux st0 n (colsrem.flatMap blockOf) = some st2 ∧
      (finalColumns st2).map (fun c => (c.name, skelOfForest c.cards)) =
        (finalColumns st0).map (fun c => (c.name, skelOfForest c.cards)) ++
        colsrem.map (fun c => (c.name, skelOfForest c.cards)) := by
  intro colsrem
  induction colsrem with
  | nil =>
      intro _ st0 n
      exact ⟨st0, rfl, by simp⟩
  | cons col rest ih =>
      intro hall st0 n
      obtain ⟨hnm, hwf, hcl⟩ := hall col (by simp)
      obtain ⟨hstrip, hne, _⟩ := wfName_parts col.name hnm
      obtain ⟨cs, fin1, stack1, hparseF, hskels, hpop⟩ :=
        emitForest_parse (finalColumns st0) (freshCol col.name n)
          col.cards hwf hcl 0 (n + 2) KForest.nil []
      have hflat : (col :: rest).flatMap blockOf =
          blockOf col ++ rest.flatMap blockOf := by
        simp [List.flatMap_cons]
      have hstep1 : parseLineStep st0 n (strOf ("## ") ++ col.name) =
          some { columns := finalColumns st0,
                 cur := some (freshColState col.name n) } := by
        rw [parseLineStep_heading st0 n col.name hstrip hne]
        rfl
      have hblock : parseLinesAux st0 n (blockOf col) =
          some { columns := finalColumns st0,
                 cur := some { col := freshCol col.name n,
                               fin := fin1, stack := stack1 } } := by
        show parseLinesAux st0 n ((strOf ("## ") ++ col.name) :: ([] : Str) ::
          (emitForest col.cards 0 ++ [([] : Str)])) = _
        show (match parseLineStep st0 n (strOf ("## ") ++ col.name) with
          | none => none
          | some st2 => parseLinesAux st2 (n + 1)
              (([] : Str) :: (emitForest col.cards 0 ++ [([] : Str)]))) = _
        rw [hstep1]
        have hstep2 := parseLineStep_noop
          { columns := finalColumns st0, cur := some (freshColState col.name n) }
          (n + 1) ([] : Str) rfl rfl
        show (match parseLineStep
            { columns := finalColumns st0, cur := some (freshColState col.name n) }
            (n + 1) ([] : Str) with
          | none => none
          | some st2 => parseLinesAux st2 (n + 1 + 1)
              (emitForest col.cards 0 ++ [([] : Str)])) = _
        rw [hstep2]
        show parseLinesAux
            { columns := finalColumns st0, cur := some (freshColState col.name n) }
            (n + 1 + 1) (emitForest col.cards 0 ++ [([] : Str)]) = _
        rw [parseLinesAux_append]
        rw [show n + 1 + 1 = n + 2 from by omega]
        have hparseF2 : parseLinesAux
            { columns := finalColumns st0, cur := some (freshColState col.name n) }
            (n + 2) (emitForest col.cards 0) =
            some { columns := finalColumns st0,
                   cur := some { col := freshCol col.name n,
                                 fin := fin1, stack := stack1 } } := hparseF
        rw [hparseF2]
        have hstep4 := parseLineStep_noop
          { columns := finalColumns st0,
            cur := some { col := freshCol col.name n,
                          fin := fin1, stack := stack1 } }
          (n + 2 + (emitForest col.cards 0).length) ([] : Str) rfl rfl
        show (match parseLineStep
            { columns := finalColumns st0,
              cur := some { col := freshCol col.name n,
                            fin := fin1, stack := stack1 } }
            (n + 2 + (emitForest col.cards 0).length) ([] : Str) with
          | none => none
          | some st2 => parseLinesAux st2
              (n + 2 + (emitForest col.cards 0).length + 1) ([] : List Str)) = _
        rw [hstep4]
        rfl
      obtain ⟨st2, hparse2, hmap2⟩ := ih
        (fun c hc => hall c (by simp [hc]))
        { columns := finalColumns st0,
          cur := some { col := freshCol col.name n, fin := fin1, stack := stack1 } }
        (n + (blockOf col).length)
      refine ⟨st2, ?_, ?_⟩
      · rw [hflat, parseLinesAux_append, hblock]
        exact hparse2
      · rw [hmap2]
        have hcards : (popGE 0 stack1 fin1).2 = pushList KForest.nil cs := by
          rw [hpop 0 (le_refl 0),
            show popGE 0 ([] : List PFrame) KForest.nil = ([], KForest.nil) from rfl,
            deliverList_nilstack]
          rfl
        have hclose : (finalColumns
            { columns := finalColumns st0,
              cur := some { col := freshCol col.name n,
                            fin := fin1, stack := stack1 } }).map
              (fun c => (c.name, skelOfForest c.cards)) =
            (finalColumns st0).map (fun c => (c.name, skelOfForest c.cards)) ++
              [(col.name, skelOfForest col.cards)] := by
          show ((finalColumns st0) ++
              [closeColumn { col := freshCol col.name n,
                             fin := fin1, stack := stack1 }]).map
              (fun c => (c.name, skelOfForest c.cards)) = _
          rw [List.map_append]
          congr 1
          simp only [List.map_cons, List.map_nil]
          have hname : (closeColumn { col := freshCol col.name n,
                                      fin := fin1, stack := stack1 }).name =
              col.name := rfl
          have hcc : (closeColumn { col := freshCol col.name n,
                                    fin := fin1, stack := stack1 }).cards =
              (popGE 0 stack1 fin1).2 := rfl
          congr 1
          rw [Prod.ext_iff]
          refine ⟨hname, ?_⟩
          show skelOfForest (closeColumn { col := freshCol col.name n,
                                           fin := fin1,
                                           stack := stack1 }).cards =
            skelOfForest col.cards
          rw [hcc, hcards, skel_pushList,
            show skelAppend (skelOfForest KForest.nil) (skelOfList cs) =
              skelOfList cs from rfl, hskels]
        rw [hclose, List.append_assoc]
        simp

/-! Round-trip assembly: frontmatter recognition of the serializer's
output, settings preservation, and the file-level reparse. -/

theorem nb_of_all (l : Str) (h : l.all (fun c => !(isLineBoundary c)) = true) :
    ∀ c ∈ l, isLineBoundary c = false := by
  intro c hc
  rw [List.all_eq_true] at h
  simpa using h c hc

theorem joinNL_cons (l r : Str) (rest : List Str) :
    joinNL (l :: r :: rest) = l ++ '\n' :: joinNL (r :: rest) := by
  show ((l :: r :: rest).intersperse (strOf ("\n"))).flatten = _
  rw [List.intersperse_cons_cons]
  show l ++ (strOf ("\n") ++ ((r :: rest).intersperse (strOf ("\n"))).flatten) = _
  rfl

theorem strStarts_nldash_true (tail : Str) :
    strStarts ('\n' :: '-' :: '-' :: '-' :: tail) (strOf ("\n---")) = true := by
  show List.isPrefixOf ['\n', '-', '-', '-'] ('\n' :: '-' :: '-' :: '-' :: tail) = true
  simp [List.isPrefixOf]

theorem strStarts_nldash_false (c : Char) (hc : ¬ c = '\n') (s : Str) :
    strStarts (c :: s) (strOf ("\n---")) = false := by
  show List.isPrefixOf ['\n', '-', '-', '-'] (c :: s) = false
  simp [List.isPrefixOf]
  intro h
  exact absurd h.symm hc

theorem beforeNLDashes_start (tail : Str) :
    beforeNLDashes ('\n' :: '-' :: '-' :: '-' :: tail) = some [] := by
  rw [show beforeNLDashes ('\n' :: '-' :: '-' :: '-' :: tail) =
    (if strStarts ('\n' :: '-' :: '-' :: '-' :: tail) (strOf ("\n---")) then some [] else
      (match beforeNLDashes ('-' :: '-' :: '-' :: tail) with
       | some mid => some ('\n' :: mid)
       | none => none)) from rfl]
  rw [if_pos (strStarts_nldash_true tail)]

theorem beforeNLDashes_cons (c : Char) (hc : ¬ c = '\n') (s : Str) :
    beforeNLDashes (c :: s) =
      (match beforeNLDashes s with
       | some mid => some (c :: mid)
       | none => none) := by
  rw [show beforeNLDashes (c :: s) =
    (if strStarts (c :: s) (strOf ("\n---")) then some [] else
      (match beforeNLDashes s with
       | some mid => some (c :: mid)
       | none => none)) from rfl]
  rw [if_neg (by rw [strStarts_nldash_false c hc s]; exact Bool.false_ne_true)]

theorem beforeNLDashes_clean : ∀ (s : Str), (∀ c ∈ s, ¬ c = '\n') →
    ∀ tail, beforeNLDashes (s ++ '\n' :: '-' :: '-' :: '-' :: tail) = some s := by
  intro s
  induction s with
  | nil =>
      intro _ tail
      exact beforeNLDashes_start tail
  | cons c s2 ih =>
      intro h tail
      rw [List.cons_append, beforeNLDashes_cons c (h c (by simp)) _,
        ih (fun x hx => h x (by simp [hx])) tail]

theorem fmInner_hash (tail : Str) : kanbanFrontmatterInner ('#' :: tail) = none := rfl

theorem fmInner_shape (tail : Str) :
    kanbanFrontmatterInner ('-' :: '-' :: '-' :: '\n' ::
      (strOf ("kanban-plugin: basic") ++ '\n' :: '-' :: '-' :: '-' :: tail)) =
    some (strOf ("kanban-plugin: basic")) := by
  show beforeNLDashes (([] : Str) ++
    (strOf ("kanban-plugin: basic") ++ '\n' :: '-' :: '-' :: '-' :: tail)) =
    some (strOf ("kanban-plugin: basic"))
  rw [List.nil_append]
  exact beforeNLDashes_clean (strOf ("kanban-plugin: basic")) (by decide) tail

theorem parse_settings (content fp : Str) (b : KanbanBoard)
    (h : parse_kanban_structure content fp = some b) :
    b.settings = [] ∨
    b.settings = [(strOf ("kanban-plugin"), strOf ("basic"))] := by
  unfold parse_kanban_structure at h
  cases hp : parseLinesAux { columns := [], cur := none } 1 (splitLines content) with
  | none => rw [hp] at h; cases h
  | some st =>
      rw [hp] at h
      dsimp only at h
      have hb := (Option.some.inj h).symm
      subst hb
      show (match kanbanFrontmatterInner content with
        | some mid => if strContainsSub mid (strOf ("kanban-plugin:")) then
            [(strOf ("kanban-plugin"), strOf ("basic"))] else []
        | none => ([] : List (Str × Str))) = [] ∨
        (match kanbanFrontmatterInner content with
        | some mid => if strContainsSub mid (strOf ("kanban-plugin:")) then
            [(strOf ("kanban-plugin"), strOf ("basic"))] else []
        | none => ([] : List (Str × Str))) = [(strOf ("kanban-plugin"), strOf ("basic"))]
      cases kanbanFrontmatterInner content with
      | none => exact Or.inl rfl
      | some mid =>
          by_cases hc : strContainsSub mid (strOf ("kanban-plugin:")) = true
          · refine Or.inr ?_
            show (if strContainsSub mid (strOf ("kanban-plugin:")) then
              [(strOf ("kanban-plugin"), strOf ("basic"))] else []) = _
            rw [if_pos hc]
          · refine Or.inl ?_
            show (if strContainsSub mid (strOf ("kanban-plugin:")) then
              [(strOf ("kanban-plugin"), strOf ("basic"))] else []) = _
            rw [if_neg hc]

theorem blockOf_nb (col : KanbanColumn) (hn : wfName col.name = true)
    (hw : wfForest col.cards = true) :
    ∀ l ∈ blockOf col, ∀ c ∈ l, isLineBoundary c = false := by
  obtain ⟨_, _, hnb⟩ := wfName_parts col.name hn
  intro l hl
  rcases List.mem_cons.mp hl with rfl | hl
  · apply nb_of_all
    rw [List.all_append, hnb]
    decide
  · rcases List.mem_cons.mp hl with rfl | hl
    · intro c hc
      cases hc
    · rcases List.mem_append.mp hl with hl | hl
      · exact emitForest_nb col.cards hw 0 l hl
      · have h2 : l = [] := by simpa using hl
        subst h2
        intro c hc
        cases hc

theorem lines_nb (b : KanbanBoard)
    (hall : ∀ col ∈ b.columns, wfName col.name = true ∧ wfForest col.cards = true)
    (hset : b.settings = [] ∨
      b.settings = [(strOf ("kanban-plugin"), strOf ("basic"))]) :
    ∀ l ∈ write_kanban_board_lines b, ∀ c ∈ l, isLineBoundary c = false := by
  intro l hl
  rw [write_lines_eq] at hl
  rcases List.mem_append.mp hl with hl | hl
  · rcases hset with hset | hset
    · rw [hset] at hl
      simp at hl
    · rw [hset] at hl
      have hl2 : l ∈ [strOf ("---"), strOf ("kanban-plugin: ") ++ strOf ("basic"),
          strOf ("---"), ([] : Str)] := hl
      simp only [List.mem_cons] at hl2
      rcases hl2 with rfl | rfl | rfl | rfl | h
      · exact nb_of_all _ (by decide)
      · exact nb_of_all _ (by decide)
      · exact nb_of_all _ (by decide)
      · intro c hc
        cases hc
      · cases h
  · rw [List.mem_flatMap] at hl
    obtain ⟨col, hcol, hlb⟩ := hl
    exact blockOf_nb col (hall col hcol).1 (hall col hcol).2 l hlb

theorem reparse_columns (b : KanbanBoard)
    (hall : ∀ col ∈ b.columns, wfName col.name = true ∧ wfForest col.cards = true ∧
      forestClean col.cards = true)
    (hset : b.settings = [] ∨
      b.settings = [(strOf ("kanban-plugin"), strOf ("basic"))]) :
    ∃ st2, parseLinesAux { columns := [], cur := none } 1
        (splitLines (write_kanban_board_content b)) = some st2 ∧
      (finalColumns st2).map (fun c => (c.name, skelOfForest c.cards)) = boardSkel b := by
  have hnb : ∀ l ∈ write_kanban_board_lines b, ∀ c ∈ l, isLineBoundary c = false :=
    lines_nb b (fun col hcol => ⟨(hall col hcol).1, (hall col hcol).2.1⟩) hset
  have hsplit : splitLines (write_kanban_board_content b) =
      stripTrail (write_kanban_board_lines b) :=
    splitLines_join _ hnb
  rw [hsplit, parseLinesAux_stripTrail]
  rcases hset with hset | hset
  · have hlines0 : write_kanban_board_lines b = b.columns.flatMap blockOf := by
      rw [write_lines_eq, hset]
      rfl
    rw [hlines0]
    obtain ⟨st2, hb, hm⟩ := blocks_parse b.columns hall { columns := [], cur := none } 1
    refine ⟨st2, hb, ?_⟩
    rw [hm]
    rfl
  · have hlines : write_kanban_board_lines b =
        strOf ("---") :: (strOf ("kanban-plugin: ") ++ strOf ("basic")) ::
        strOf ("---") :: ([] : Str) :: b.columns.flatMap blockOf := by
      rw [write_lines_eq, hset]
      rfl
    rw [hlines]
    show ∃ st2, parseLinesAux { columns := [], cur := none } 1
        ([strOf ("---"), strOf ("kanban-plugin: ") ++ strOf ("basic"),
          strOf ("---"), ([] : Str)] ++ b.columns.flatMap blockOf) = some st2 ∧
      (finalColumns st2).map (fun c => (c.name, skelOfForest c.cards)) = boardSkel b
    rw [parseLinesAux_append, fm_noop]
    obtain ⟨st2, hb, hm⟩ := blocks_parse b.columns hall { columns := [], cur := none } 5
    refine ⟨st2, hb, ?_⟩
    rw [hm]
    rfl

theorem reparse_full (b : KanbanBoard) (fp : Str)
    (hall : ∀ col ∈ b.columns, wfName col.name = true ∧ wfForest col.cards = true ∧
      forestClean col.cards = true)
    (hset : b.settings = [] ∨
      b.settings = [(strOf ("kanban-plugin"), strOf ("basic"))]) :
    ∃ b2, parse_kanban_structure (write_kanban_board_content b) fp = some b2 ∧
      boardSkel b2 = boardSkel b ∧ b2.settings = b.settings := by
  obtain ⟨st2, hparse, hmap⟩ := reparse_columns b hall hset
  have hsettings : (match kanbanFrontmatterInner (write_kanban_board_content b) with
      | some mid => if strContainsSub mid (strOf ("kanban-plugin:")) then
          [(strOf ("kanban-plugin"), strOf ("basic"))] else []
      | none => ([] : List (Str × Str))) = b.settings := by
    rcases hset with hset | hset
    · have hlines0 : write_kanban_board_lines b = b.columns.flatMap blockOf := by
        rw [write_lines_eq, hset]
        rfl
      have hfm : kanbanFrontmatterInner (write_kanban_board_content b) = none := by
        show kanbanFrontmatterInner (joinNL (write_kanban_board_lines b)) = none
        rw [hlines0]
        cases hcols : b.columns with
        | nil => rfl
        | cons col rest =>
            rw [List.flatMap_cons]
            show kanbanFrontmatterInner (joinNL ((strOf ("## ") ++ col.name) ::
              ([] : Str) :: ((emitForest col.cards 0 ++ [([] : Str)]) ++
                rest.flatMap blockOf))) = none
            rw [joinNL_cons]
            exact fmInner_hash _
      rw [hfm, hset]
    · have hlines : write_kanban_board_lines b =
          strOf ("---") :: (strOf ("kanban-plugin: ") ++ strOf ("basic")) ::
          strOf ("---") :: ([] : Str) :: b.columns.flatMap blockOf := by
        rw [write_lines_eq, hset]
        rfl
      have hfm : kanbanFrontmatterInner (write_kanban_board_content b) =
          some (strOf ("kanban-plugin: basic")) := by
        show kanbanFrontmatterInner (joinNL (write_kanban_board_lines b)) = _
        rw [hlines, joinNL_cons, joinNL_cons, joinNL_cons]
        exact fmInner_shape ('\n' :: joinNL (([] : Str) :: b.columns.flatMap blockOf))
      rw [hfm, hset]
      rfl
  refine ⟨mkKanbanBoard fp (finalColumns st2)
    (match kanbanFrontmatterInner (write_kanban_board_content b) with
     | some mid => if strContainsSub mid (strOf ("kanban-plugin:")) then
         [(strOf ("kanban-plugin"), strOf ("basic"))] else []
     | none => ([] : List (Str × Str))), ?_, ?_, ?_⟩
  · show (match parseLinesAux { columns := [], cur := none } 1
        (splitLines (write_kanban_board_content b)) with
      | none => none
      | some st =>
          some (mkKanbanBoard fp
            (match st.cur with
             | some c => st.columns ++ [closeColumn c]
             | none => st.columns)
            (match kanbanFrontmatterInner (write_kanban_board_content b) with
             | some mid => if strContainsSub mid (strOf ("kanban-plugin:")) then
                 [(strOf ("kanban-plugin"), strOf ("basic"))] else []
             | none => []))) = _
    rw [hparse]
    rfl
  · show (finalColumns st2).map (fun c => (c.name, skelOfForest c.cards)) = boardSkel b
    exact hmap
  · show (match kanbanFrontmatterInner (write_kanban_board_content b) with
      | some mid => if strContainsSub mid (strOf ("kanban-plugin:")) then
          [(strOf ("kanban-plugin"), strOf ("basic"))] else []
      | none => ([] : List (Str × Str))) = b.settings
    exact hsettings

def exC4 : Str :=
  strOf ("## A\n\n- [ ] x @") ++ braceL :: strOf ("2025-01-0@") ++
    braceL :: strOf ("1111-11-11") ++ braceR :: strOf ("1") ++ braceR :: strOf ("\n")

def exC4board : KanbanBoard :=
  (parse_kanban_structure exC4 (strOf ("c4.md"))).getD (mkKanbanBoard [] [] [])

def exC4board2 : KanbanBoard :=
  (parse_kanban_structure (write_kanban_board_content exC4board) (strOf ("c4.md"))).getD
    (mkKanbanBoard [] [] [])

/-- C4 counterexample: a card text carrying a nested due-date token.  The
first parse extracts the inner date 1111-11-11 and leaves the outer token
text 2025-01-01 in the card text; the serialized board re-appends the
extracted date after the text, so the second parse extracts 2025-01-01
instead — the round trip changes the card's text and due date. -/
theorem C4_counterexample :
    parse_kanban_structure exC4 (strOf ("c4.md")) = some exC4board ∧
    parse_kanban_structure (write_kanban_board_content exC4board) (strOf ("c4.md")) =
      some exC4board2 ∧
    ¬ boardSkel exC4board2 = boardSkel exC4board :=
  ⟨rfl, rfl, by decide⟩

/-- C4: for every board text accepted by parse_kanban_structure whose
parsed card texts contain no surviving due-date token (the counterexample
shows the round trip fails without this restriction), serializing the
board and parsing the output again yields a board with the same column
names in the same order and, per column, the same tree of cards — same
texts, statuses, due dates and subtask nesting — and the same stored
settings. -/
theorem C4_amended (content fp : Str) (b : KanbanBoard)
    (hp : parse_kanban_structure content fp = some b)
    (hcl : b.columns.all (fun col => forestClean col.cards) = true) :
    ∃ b2, parse_kanban_structure (write_kanban_board_content b) fp = some b2 ∧
      boardSkel b2 = boardSkel b ∧ b2.settings = b.settings := by
  have hwfcols := parse_wf content fp b hp
  have hset := parse_settings content fp b hp
  refine reparse_full b fp ?_ hset
  intro col hcol
  rw [List.all_eq_true] at hcl
  exact ⟨(hwfcols col hcol).1, (hwfcols col hcol).2, by simpa using hcl col hcol⟩

def exC4w : Str := strOf ("## A\n\n- [ ] x\n  - [ ] y\n\n## B\n\n- [x] z\n")

def exC4wboard : KanbanBoard :=
  (parse_kanban_structure exC4w (strOf ("w.md"))).getD (mkKanbanBoard [] [] [])

theorem C4_amended_witness :
    ∃ b2, parse_kanban_structure (write_kanban_board_content exC4wboard)
        (strOf ("w.md")) = some b2 ∧
      boardSkel b2 = boardSkel exC4wboard ∧ b2.settings = exC4wboard.settings :=
  C4_amended exC4w (strOf ("w.md")) exC4wboard rfl (by decide)

/-! Toggling at the skeleton level.  toggleSkelF and toggleSkelCols are
the ideal operation the toggle tool is claimed to implement — flip the
status of the first card with the given text and change nothing else —
stated on skeletons, the fields a reparse can preserve. -/

/-- The status flip applied by flipCard, at string level. -/
def flipStatus (s : Str) : Str :=
  if s = strOf ("incomplete") then strOf ("completed") else strOf ("incomplete")

/-- Flip a skeleton's root status, touching nothing else. -/
def flipSkel : Skel → Skel
  | .mk t s d ch => .mk t (flipStatus s) d ch

/-- The ideal toggle on card skeletons: flip the first card with the
given text in depth-first order (card before subtasks before later
siblings), leave every other card and field unchanged. -/
def toggleSkelF (t : Str) : SkelList → SkelList × Bool
  | .nil => (.nil, false)
  | .cons (.mk tx s d ch) rest =>
      if tx = t then (.cons (flipSkel (.mk tx s d ch)) rest, true)
      else
        match toggleSkelF t ch with
        | (ch2, true) => (.cons (.mk tx s d ch2) rest, true)
        | (_, false) =>
            let r := toggleSkelF t rest
            (.cons (.mk tx s d ch) r.1, r.2)

/-- The ideal toggle across named columns: first matching column wins. -/
def toggleSkelCols (t : Str) : List (Str × SkelList) → Option (List (Str × SkelList))
  | [] => none
  | (nm, f) :: rest =>
      match toggleSkelF t f with
      | (f2, true) => some ((nm, f2) :: rest)
      | (_, false) => (toggleSkelCols t rest).map ((nm, f) :: ·)

theorem toggleInForest_cons_eq (t tx s : Str) (d : Option PyDate) (tg w : List Str)
    (subs : KForest) (i l : Nat) (rest : KForest) (h : tx = t) :
    toggleInForest t (.cons (.mk tx s d tg w subs i l) rest) =
      (.cons (flipCard (.mk tx s d tg w subs i l)) rest, true) := by
  rw [show toggleInForest t (.cons (.mk tx s d tg w subs i l) rest) =
    (if tx = t then (.cons (flipCard (.mk tx s d tg w subs i l)) rest, true)
     else match toggleInForest t subs with
       | (subs2, true) => (.cons (.mk tx s d tg w subs2 i l) rest, true)
       | (_, false) =>
           let r := toggleInForest t rest
           (.cons (.mk tx s d tg w subs i l) r.1, r.2)) from rfl, if_pos h]

theorem toggleInForest_cons_sub (t tx s : Str) (d : Option PyDate) (tg w : List Str)
    (subs : KForest) (i l : Nat) (rest : KForest) (h : ¬ tx = t) (subs2 : KForest)
    (hs : toggleInForest t subs = (subs2, true)) :
    toggleInForest t (.cons (.mk tx s d tg w subs i l) rest) =
      (.cons (.mk tx s d tg w subs2 i l) rest, true) := by
  rw [show toggleInForest t (.cons (.mk tx s d tg w subs i l) rest) =
    (if tx = t then (.cons (flipCard (.mk tx s d tg w subs i l)) rest, true)
     else match toggleInForest t subs with
       | (subs2, true) => (.cons (.mk tx s d tg w subs2 i l) rest, true)
       | (_, false) =>
           let r := toggleInForest t rest
           (.cons (.mk tx s d tg w subs i l) r.1, r.2)) from rfl, if_neg h, hs]

theorem toggleInForest_cons_rest (t tx s : Str) (d : Option PyDate) (tg w : List Str)
    (subs : KForest) (i l : Nat) (rest : KForest) (h : ¬ tx = t) (f2 : KForest)
    (hs : toggleInForest t subs = (f2, false)) :
    toggleInForest t (.cons (.mk tx s d tg w subs i l) rest) =
      (.cons (.mk tx s d tg w subs i l) (toggleInForest t rest).1,
        (toggleInForest t rest).2) := by
  rw [show toggleInForest t (.cons (.mk tx s d tg w subs i l) rest) =
    (if tx = t then (.cons (flipCard (.mk tx s d tg w subs i l)) rest, true)
     else match toggleInForest t subs with
       | (subs2, true) => (.cons (.mk tx s d tg w subs2 i l) rest, true)
       | (_, false) =>
           let r := toggleInForest t rest
           (.cons (.mk tx s d tg w subs i l) r.1, r.2)) from rfl, if_neg h, hs]

theorem toggleSkelF_cons_eq (t tx s : Str) (d : Option PyDate) (ch rest : SkelList)
    (h : tx = t) :
    toggleSkelF t (.cons (.mk tx s d ch) rest) =
      (.cons (flipSkel (.mk tx s d ch)) rest, true) := by
  rw [show toggleSkelF t (.cons (.mk tx s d ch) rest) =
    (if tx = t then (.cons (flipSkel (.mk tx s d ch)) rest, true)
     else match toggleSkelF t ch with
       | (ch2, true) => (.cons (.mk tx s d ch2) rest, true)
       | (_, false) =>
           let r := toggleSkelF t rest
           (.cons (.mk tx s d ch) r.1, r.2)) from rfl, if_pos h]

theorem toggleSkelF_cons_sub (t tx s : Str) (d : Option PyDate) (ch rest : SkelList)
    (h : ¬ tx = t) (ch2 : SkelList) (hs : toggleSkelF t ch = (ch2, true)) :
    toggleSkelF t (.cons (.mk tx s d ch) rest) =
      (.cons (.mk tx s d ch2) rest, true) := by
  rw [show toggleSkelF t (.cons (.mk tx s d ch) rest) =
    (if tx = t then (.cons (flipSkel (.mk tx s d ch)) rest, true)
     else match toggleSkelF t ch with
       | (ch2, true) => (.cons (.mk tx s d ch2) rest, true)
       | (_, false) =>
           let r := toggleSkelF t rest
           (.cons (.mk tx s d ch) r.1, r.2)) from rfl, if_neg h, hs]

theorem toggleSkelF_cons_rest (t tx s : Str) (d : Option PyDate) (ch rest : SkelList)
    (h : ¬ tx = t) (ch2 : SkelList) (hs : toggleSkelF t ch = (ch2, false)) :
    toggleSkelF t (.cons (.mk tx s d ch) rest) =
      (.cons (.mk tx s d ch) (toggleSkelF t rest).1, (toggleSkelF t rest).2) := by
  rw [show toggleSkelF t (.cons (.mk tx s d ch) rest) =
    (if tx = t then (.cons (flipSkel (.mk tx s d ch)) rest, true)
     else match toggleSkelF t ch with
       | (ch2, true) => (.cons (.mk tx s d ch2) rest, true)
       | (_, false) =>
           let r := toggleSkelF t rest
           (.cons (.mk tx s d ch) r.1, r.2)) from rfl, if_neg h, hs]

theorem toggleInForest_skel (t : Str) : ∀ (F : KForest),
    skelOfForest ((toggleInForest t F).1) = (toggleSkelF t (skelOfForest F)).1 ∧
    (toggleInForest t F).2 = (toggleSkelF t (skelOfForest F)).2 := by
  refine toggleInForest.induct t (fun F =>
    skelOfForest ((toggleInForest t F).1) = (toggleSkelF t (skelOfForest F)).1 ∧
    (toggleInForest t F).2 = (toggleSkelF t (skelOfForest F)).2) ?_ ?_ ?_ ?_
  · exact ⟨rfl, rfl⟩
  · intro s d tg w subs i l rest
    rw [toggleInForest_cons_eq t t s d tg w subs i l rest rfl]
    rw [show skelOfForest (.cons (.mk t s d tg w subs i l) rest) =
      SkelList.cons (.mk t s d (skelOfForest subs)) (skelOfForest rest) from rfl]
    rw [toggleSkelF_cons_eq t t s d (skelOfForest subs) (skelOfForest rest) rfl]
    exact ⟨rfl, rfl⟩
  · intro tx s d tg w subs i l rest hne subs2 heq ih
    rw [toggleInForest_cons_sub t tx s d tg w subs i l rest hne subs2 heq]
    rw [show skelOfForest (.cons (.mk tx s d tg w subs i l) rest) =
      SkelList.cons (.mk tx s d (skelOfForest subs)) (skelOfForest rest) from rfl]
    obtain ⟨a, b⟩ := ih
    rw [heq] at a b
    have h2 : toggleSkelF t (skelOfForest subs) = (skelOfForest subs2, true) := by
      rw [Prod.ext_iff]
      exact ⟨a.symm, b.symm⟩
    rw [toggleSkelF_cons_sub t tx s d (skelOfForest subs) (skelOfForest rest) hne _ h2]
    exact ⟨rfl, rfl⟩
  · intro tx s d tg w subs i l rest hne f2 heq ih1 ih2
    rw [toggleInForest_cons_rest t tx s d tg w subs i l rest hne f2 heq]
    rw [show skelOfForest (.cons (.mk tx s d tg w subs i l) rest) =
      SkelList.cons (.mk tx s d (skelOfForest subs)) (skelOfForest rest) from rfl]
    obtain ⟨a1, b1⟩ := ih1
    rw [heq] at a1 b1
    have h2 : toggleSkelF t (skelOfForest subs) = (skelOfForest f2, false) := by
      rw [Prod.ext_iff]
      exact ⟨a1.symm, b1.symm⟩
    rw [toggleSkelF_cons_rest t tx s d (skelOfForest subs) (skelOfForest rest) hne _ h2]
    obtain ⟨a2, b2⟩ := ih2
    constructor
    · show SkelList.cons (skelOfCard (.mk tx s d tg w subs i l))
        (skelOfForest (toggleInForest t rest).1) = _
      rw [a2]
      rfl
    · exact b2

mutual
/-- Statuses of a card skeleton are among the two parser statuses. -/
def statusOKSkel : Skel → Bool
  | .mk _ s _ ch =>
      (decide (s = strOf ("completed") ∨ s = strOf ("incomplete"))) &&
      statusOKSkelList ch
/-- Statuses of a skeleton list are among the two parser statuses. -/
def statusOKSkelList : SkelList → Bool
  | .nil => true
  | .cons s rest => statusOKSkel s && statusOKSkelList rest
end

theorem statusOK_parts (t s : Str) (d : Option PyDate) (ch rest : SkelList)
    (h : statusOKSkelList (.cons (.mk t s d ch) rest) = true) :
    (s = strOf ("completed") ∨ s = strOf ("incomplete")) ∧
    statusOKSkelList ch = true ∧ statusOKSkelList rest = true := by
  have h2 : (((decide (s = strOf ("completed") ∨ s = strOf ("incomplete"))) &&
      statusOKSkelList ch) && statusOKSkelList rest) = true := h
  simp only [Bool.and_eq_true, decide_eq_true_eq] at h2
  exact ⟨h2.1.1, h2.1.2, h2.2⟩

mutual
theorem wf_statusOK_card : ∀ (c : KCard), wfCard c = true →
    statusOKSkel (skelOfCard c) = true
  | .mk t s dd tg w subs i l => by
      intro h
      obtain ⟨-, -, hst, -, hsubs, -⟩ := wfCard_parts t s dd tg w subs i l h
      show ((decide (s = strOf ("completed") ∨ s = strOf ("incomplete"))) &&
        statusOKSkelList (skelOfForest subs)) = true
      rw [wf_statusOK_forest subs hsubs]
      simp [hst]
theorem wf_statusOK_forest : ∀ (F : KForest), wfForest F = true →
    statusOKSkelList (skelOfForest F) = true
  | .nil => fun _ => rfl
  | .cons c rest => by
      intro h
      have h2 : (wfCard c && wfForest rest) = true := h
      simp only [Bool.and_eq_true] at h2
      show (statusOKSkel (skelOfCard c) && statusOKSkelList (skelOfForest rest)) = true
      rw [wf_statusOK_card c h2.1, wf_statusOK_forest rest h2.2]
      rfl
end

mutual
/-- Cleanliness of a card skeleton: no date token in the text. -/
def skelCleanCard : Skel → Bool
  | .mk t _ _ ch => (decide (kanbanDateSearch t = none)) && skelCleanList ch
/-- Cleanliness of a skeleton list. -/
def skelCleanList : SkelList → Bool
  | .nil => true
  | .cons s rest => skelCleanCard s && skelCleanList rest
end

mutual
theorem clean_skel_card : ∀ (c : KCard), cardClean c = skelCleanCard (skelOfCard c)
  | .mk t s dd tg w subs i l => by
      show ((decide (kanbanDateSearch t = none)) && forestClean subs) =
        ((decide (kanbanDateSearch t = none)) && skelCleanList (skelOfForest subs))
      rw [clean_skel_forest subs]
theorem clean_skel_forest : ∀ (F : KForest),
    forestClean F = skelCleanList (skelOfForest F)
  | .nil => rfl
  | .cons c rest => by
      show (cardClean c && forestClean rest) = _
      rw [clean_skel_card c, clean_skel_forest rest]
      rfl
end

theorem flipStatus_invol (s : Str)
    (h : s = strOf ("completed") ∨ s = strOf ("incomplete")) :
    flipStatus (flipStatus s) = s := by
  rcases h with rfl | rfl <;> decide

theorem toggleSkelF_invol (t : Str) : ∀ (L : SkelList),
    statusOKSkelList L = true →
    ∀ L2, toggleSkelF t L = (L2, true) → toggleSkelF t L2 = (L, true) := by
  refine toggleSkelF.induct t (fun L => statusOKSkelList L = true →
    ∀ L2, toggleSkelF t L = (L2, true) → toggleSkelF t L2 = (L, true)) ?_ ?_ ?_ ?_
  · intro _ L2 h
    obtain ⟨-, h2⟩ := Prod.mk.inj h
    exact absurd h2 Bool.false_ne_true
  · intro s d ch rest hok L2 h
    rw [toggleSkelF_cons_eq t t s d ch rest rfl] at h
    obtain ⟨h1, -⟩ := Prod.mk.inj h
    rw [← h1]
    obtain ⟨hst, -, -⟩ := statusOK_parts t s d ch rest hok
    rw [show flipSkel (.mk t s d ch) = Skel.mk t (flipStatus s) d ch from rfl]
    rw [toggleSkelF_cons_eq t t (flipStatus s) d ch rest rfl]
    rw [show flipSkel (.mk t (flipStatus s) d ch) =
      Skel.mk t (flipStatus (flipStatus s)) d ch from rfl]
    rw [flipStatus_invol s hst]
  · intro tx s d ch rest hne ch2 heq ih hok L2 h
    rw [toggleSkelF_cons_sub t tx s d ch rest hne ch2 heq] at h
    obtain ⟨h1, -⟩ := Prod.mk.inj h
    rw [← h1]
    obtain ⟨-, hokch, -⟩ := statusOK_parts tx s d ch rest hok
    have hch : toggleSkelF t ch2 = (ch, true) := ih hokch ch2 heq
    rw [toggleSkelF_cons_sub t tx s d ch2 rest hne ch hch]
  · intro tx s d ch rest hne f2 heq ih1 ih2 hok L2 h
    rw [toggleSkelF_cons_rest t tx s d ch rest hne f2 heq] at h
    obtain ⟨h1, h2flag⟩ := Prod.mk.inj h
    rw [← h1]
    obtain ⟨-, -, hokrest⟩ := statusOK_parts tx s d ch rest hok
    have hrest : toggleSkelF t rest = ((toggleSkelF t rest).1, true) := by
      rw [Prod.ext_iff]
      exact ⟨rfl, h2flag⟩
    have hr2 : toggleSkelF t ((toggleSkelF t rest).1) = (rest, true) :=
      ih2 hokrest _ hrest
    rw [toggleSkelF_cons_rest t tx s d ch _ hne f2 heq, hr2]

theorem toggleInForest_wf (t : Str) : ∀ (F : KForest), wfForest F = true →
    wfForest ((toggleInForest t F).1) = true := by
  refine toggleInForest.induct t (fun F => wfForest F = true →
    wfForest ((toggleInForest t F).1) = true) ?_ ?_ ?_ ?_
  · intro h
    exact h
  · intro s d tg w subs i l rest h
    rw [toggleInForest_cons_eq t t s d tg w subs i l rest rfl]
    have h2 : (wfCard (.mk t s d tg w subs i l) && wfForest rest) = true := h
    simp only [Bool.and_eq_true] at h2
    obtain ⟨p1, p2, p3, p4, p5, p6⟩ := wfCard_parts t s d tg w subs i l h2.1
    have hw : wfCard (flipCard (.mk t s d tg w subs i l)) = true := by
      show wfCard (.mk t (if s = strOf ("incomplete") then strOf ("completed")
        else strOf ("incomplete")) d tg w subs i l) = true
      refine wfCard_build t _ d tg w subs i l p1 p2 p6 ?_ p4 p5
      by_cases hs : s = strOf ("incomplete")
      · rw [if_pos hs]
        exact Or.inl rfl
      · rw [if_neg hs]
        exact Or.inr rfl
    show (wfCard (flipCard (.mk t s d tg w subs i l)) && wfForest rest) = true
    simp [hw, h2.2]
  · intro tx s d tg w subs i l rest hne subs2 heq ih h
    rw [toggleInForest_cons_sub t tx s d tg w subs i l rest hne subs2 heq]
    have h2 : (wfCard (.mk tx s d tg w subs i l) && wfForest rest) = true := h
    simp only [Bool.and_eq_true] at h2
    obtain ⟨p1, p2, p3, p4, p5, p6⟩ := wfCard_parts tx s d tg w subs i l h2.1
    have hsub2 : wfForest subs2 = true := by
      have h3 := ih p5
      rw [heq] at h3
      exact h3
    have hw : wfCard (.mk tx s d tg w subs2 i l) = true :=
      wfCard_build tx s d tg w subs2 i l p1 p2 p6 p3 p4 hsub2
    show (wfCard (.mk tx s d tg w subs2 i l) && wfForest rest) = true
    simp [hw, h2.2]
  · intro tx s d tg w subs i l rest hne f2 heq ih1 ih2 h
    rw [toggleInForest_cons_rest t tx s d tg w subs i l rest hne f2 heq]
    have h2 : (wfCard (.mk tx s d tg w subs i l) && wfForest rest) = true := h
    simp only [Bool.and_eq_true] at h2
    show (wfCard (.mk tx s d tg w subs i l) &&
      wfForest ((toggleInForest t rest).1)) = true
    simp [h2.1, ih2 h2.2]

theorem toggleInForest_clean (t : Str) : ∀ (F : KForest), forestClean F = true →
    forestClean ((toggleInForest t F).1) = true := by
  refine toggleInForest.induct t (fun F => forestClean F = true →
    forestClean ((toggleInForest t F).1) = true) ?_ ?_ ?_ ?_
  · intro h
    exact h
  · intro s d tg w subs i l rest h
    rw [toggleInForest_cons_eq t t s d tg w subs i l rest rfl]
    have h2 : (cardClean (.mk t s d tg w subs i l) && forestClean rest) = true := h
    show (cardClean (flipCard (.mk t s d tg w subs i l)) && forestClean rest) = true
    exact h2
  · intro tx s d tg w subs i l rest hne subs2 heq ih h
    rw [toggleInForest_cons_sub t tx s d tg w subs i l rest hne subs2 heq]
    have h2 : (cardClean (.mk tx s d tg w subs i l) && forestClean rest) = true := h
    simp only [Bool.and_eq_true] at h2
    obtain ⟨q1, q2⟩ := cardClean_parts tx s d tg w subs i l h2.1
    have hsub2 : forestClean subs2 = true := by
      have h3 := ih q2
      rw [heq] at h3
      exact h3
    show (cardClean (.mk tx s d tg w subs2 i l) && forestClean rest) = true
    show (((decide (kanbanDateSearch tx = none)) && forestClean subs2) &&
      forestClean rest) = true
    simp [q1, hsub2, h2.2]
  · intro tx s d tg w subs i l rest hne f2 heq ih1 ih2 h
    rw [toggleInForest_cons_rest t tx s d tg w subs i l rest hne f2 heq]
    have h2 : (cardClean (.mk tx s d tg w subs i l) && forestClean rest) = true := h
    simp only [Bool.and_eq_true] at h2
    show (cardClean (.mk tx s d tg w subs i l) &&
      forestClean ((toggleInForest t rest).1)) = true
    simp [h2.1, ih2 h2.2]

theorem toggleCols_step (t : Str) (col : KanbanColumn) (rest : List KanbanColumn) :
    toggleCardInColumns t none (col :: rest) =
      (match toggleInForest t col.cards with
       | (cards2, true) => some ({ col with cards := cards2 } :: rest)
       | (_, false) => (toggleCardInColumns t none rest).map (col :: ·)) := rfl

theorem toggleSkelCols_step (t : Str) (nm : Str) (f : SkelList)
    (rest : List (Str × SkelList)) :
    toggleSkelCols t ((nm, f) :: rest) =
      (match toggleSkelF t f with
       | (f2, true) => some ((nm, f2) :: rest)
       | (_, false) => (toggleSkelCols t rest).map ((nm, f) :: ·)) := rfl

theorem toggleCardInColumns_skel (t : Str) : ∀ (cols : List KanbanColumn),
    (toggleCardInColumns t none cols).map
      (fun cs => cs.map (fun c => (c.name, skelOfForest c.cards))) =
    toggleSkelCols t (cols.map (fun c => (c.name, skelOfForest c.cards))) := by
  intro cols
  induction cols with
  | nil => rfl
  | cons col rest ih =>
      rw [toggleCols_step]
      rw [show (col :: rest).map (fun c => (c.name, skelOfForest c.cards)) =
        (col.name, skelOfForest col.cards) ::
          rest.map (fun c => (c.name, skelOfForest c.cards)) from rfl]
      rw [toggleSkelCols_step]
      obtain ⟨a, b⟩ := toggleInForest_skel t col.cards
      cases htog : toggleInForest t col.cards with
      | mk cards2 flag =>
          rw [htog] at a b
          have hmirror : toggleSkelF t (skelOfForest col.cards) =
              (skelOfForest cards2, flag) := by
            rw [Prod.ext_iff]
            exact ⟨a.symm, b.symm⟩
          rw [hmirror]
          cases flag with
          | true => rfl
          | false =>
              show ((toggleCardInColumns t none rest).map (col :: ·)).map
                (fun cs => cs.map (fun c => (c.name, skelOfForest c.cards))) = _
              rw [← ih]
              cases toggleCardInColumns t none rest with
              | none => rfl
              | some cs => rfl

theorem toggleCols_wfclean (t : Str) : ∀ (cols cols2 : List KanbanColumn),
    toggleCardInColumns t none cols = some cols2 →
    (∀ col ∈ cols, wfName col.name = true ∧ wfForest col.cards = true ∧
      forestClean col.cards = true) →
    ∀ col ∈ cols2, wfName col.name = true ∧ wfForest col.cards = true ∧
      forestClean col.cards = true := by
  intro cols
  induction cols with
  | nil =>
      intro cols2 h
      cases h
  | cons col rest ih =>
      intro cols2 h hall
      rw [toggleCols_step] at h
      cases htog : toggleInForest t col.cards with
      | mk cards2 flag =>
          rw [htog] at h
          cases flag with
          | true =>
              have h2 : some ({ col with cards := cards2 } :: rest) = some cols2 := h
              rw [← Option.some.inj h2]
              intro c hc
              rcases List.mem_cons.mp hc with rfl | hc
              · obtain ⟨hn, hw, hcl⟩ := hall col (by simp)
                refine ⟨hn, ?_, ?_⟩
                · have := toggleInForest_wf t col.cards hw
                  rw [htog] at this
                  exact this
                · have := toggleInForest_clean t col.cards hcl
                  rw [htog] at this
                  exact this
              · exact hall c (by simp [hc])
          | false =>
              have h2 : (toggleCardInColumns t none rest).map (col :: ·) =
                some cols2 := h
              cases hr : toggleCardInColumns t none rest with
              | none =>
                  rw [hr] at h2
                  cases h2
              | some cs =>
                  rw [hr] at h2
                  have h3 : some (col :: cs) = some cols2 := h2
                  rw [← Option.some.inj h3]
                  intro c hc
                  rcases List.mem_cons.mp hc with rfl | hc
                  · exact hall c (by simp)
                  · exact ih cs hr (fun c2 hc2 => hall c2 (by simp [hc2])) c hc

theorem toggleSkelCols_invol (t : Str) : ∀ (L L2 : List (Str × SkelList)),
    (∀ p ∈ L, statusOKSkelList p.2 = true) →
    toggleSkelCols t L = some L2 → toggleSkelCols t L2 = some L := by
  intro L
  induction L with
  | nil =>
      intro L2 _ h
      cases h
  | cons p rest ih =>
      obtain ⟨nm, f⟩ := p
      intro L2 hok h
      rw [toggleSkelCols_step] at h
      cases htf : toggleSkelF t f with
      | mk f2 flag =>
          rw [htf] at h
          cases flag with
          | true =>
              have h2 : some ((nm, f2) :: rest) = some L2 := h
              rw [← Option.some.inj h2]
              have hf2 : toggleSkelF t f2 = (f, true) :=
                toggleSkelF_invol t f (hok (nm, f) (by simp)) f2 htf
              rw [toggleSkelCols_step, hf2]
          | false =>
              have h2 : (toggleSkelCols t rest).map ((nm, f) :: ·) = some L2 := h
              cases hr : toggleSkelCols t rest with
              | none =>
                  rw [hr] at h2
                  cases h2
              | some cs =>
                  rw [hr] at h2
                  rw [← Option.some.inj h2]
                  have hcs : toggleSkelCols t cs = some rest :=
                    ih cs (fun q hq => hok q (by simp [hq])) hr
                  rw [toggleSkelCols_step, htf, hcs]
                  rfl

theorem map_eq_mem {α β : Type} (f : α → β) : ∀ (l l2 : List α),
    l.map f = l2.map f → ∀ x ∈ l, ∃ y ∈ l2, f x = f y := by
  intro l
  induction l with
  | nil =>
      intro l2 _ x hx
      cases hx
  | cons a as ih =>
      intro l2 h x hx
      cases l2 with
      | nil => exact absurd h (by simp)
      | cons b bs =>
          simp only [List.map_cons] at h
          have h2 := List.cons.inj h
          rcases List.mem_cons.mp hx with rfl | hx
          · exact ⟨b, by simp, h2.1⟩
          · obtain ⟨y, hy, hfy⟩ := ih bs h2.2 x hx
            exact ⟨y, by simp [hy], hfy⟩

/-- The first subtask of the first card of the first column, when present. -/
def firstSub (b : KanbanBoard) : Option KCard :=
  match b.columns with
  | col :: _ =>
      (match col.cards with
       | KForest.cons c _ =>
           (match c.subtasks with
            | KForest.cons s _ => some s
            | KForest.nil => none)
       | KForest.nil => none)
  | [] => none

def exT10 : Str := strOf ("## A\n\n- [ ] x\n    - [ ] y\n")

def exT10board : KanbanBoard :=
  (parse_kanban_structure exT10 (strOf ("t.md"))).getD (mkKanbanBoard [] [] [])

def exT10c2 : Str :=
  (toggle_kanban_card exT10 (strOf ("t.md")) (strOf ("x")) none).getD []

def exT10board2 : KanbanBoard :=
  (parse_kanban_structure exT10c2 (strOf ("t.md"))).getD (mkKanbanBoard [] [] [])

/-- C10 counterexample: toggling card x rewrites the whole board file, and
the serializer emits the untouched subtask y with two spaces (depth one)
although it was parsed from four spaces (indent_level 2); reparsing the
written file therefore yields y with indent_level 1 — a field of a card
other than the toggled one has changed, and a second toggle cannot restore
it. -/
theorem C10_counterexample :
    parse_kanban_structure exT10 (strOf ("t.md")) = some exT10board ∧
    toggle_kanban_card exT10 (strOf ("t.md")) (strOf ("x")) none = some exT10c2 ∧
    parse_kanban_structure exT10c2 (strOf ("t.md")) = some exT10board2 ∧
    (firstSub exT10board).map KCard.text = (firstSub exT10board2).map KCard.text ∧
    (firstSub exT10board).map KCard.indent_level = some 2 ∧
    (firstSub exT10board2).map KCard.indent_level = some 1 :=
  ⟨rfl, rfl, rfl, rfl, rfl, rfl⟩

/-- C10: on a parsed board whose card texts are free of due-date tokens,
one toggle call flips exactly the first matching card's status and changes
no other card at the structural level (texts, statuses, due dates, subtask
nesting, column names and order — the reparsed board's skeleton is exactly
toggleSkelCols of the original skeleton); a second toggle call restores the
original board's skeleton and settings.  (The counterexample shows the
claim is false for the non-structural indent_level field.) -/
theorem C10_amended (content fp t c2 : Str) (b : KanbanBoard)
    (hp : parse_kanban_structure content fp = some b)
    (hcl : b.columns.all (fun col => forestClean col.cards) = true)
    (h1 : toggle_kanban_card content fp t none = some c2) :
    ∃ (b2 : KanbanBoard) (c3 : Str) (b3 : KanbanBoard),
      parse_kanban_structure c2 fp = some b2 ∧
      toggleSkelCols t (boardSkel b) = some (boardSkel b2) ∧
      b2.settings = b.settings ∧
      toggle_kanban_card c2 fp t none = some c3 ∧
      parse_kanban_structure c3 fp = some b3 ∧
      boardSkel b3 = boardSkel b ∧ b3.settings = b.settings := by
  have hwfcols := parse_wf content fp b hp
  have hset := parse_settings content fp b hp
  have hall : ∀ col ∈ b.columns, wfName col.name = true ∧ wfForest col.cards = true ∧
      forestClean col.cards = true := by
    intro col hcol
    rw [List.all_eq_true] at hcl
    exact ⟨(hwfcols col hcol).1, (hwfcols col hcol).2, by simpa using hcl col hcol⟩
  unfold toggle_kanban_card at h1
  rw [hp] at h1
  have h1b : (match toggleCardInColumns t none b.columns with
    | none => none
    | some cols2 =>
        some (write_kanban_board_content { b with columns := cols2 })) =
      some c2 := h1
  cases htog : toggleCardInColumns t none b.columns with
  | none =>
      rw [htog] at h1b
      exact Option.noConfusion h1b
  | some cols2 =>
      rw [htog] at h1b
      have hc2 : c2 = write_kanban_board_content { b with columns := cols2 } :=
        (Option.some.inj h1b).symm
      have hallT : ∀ col ∈ cols2, wfName col.name = true ∧ wfForest col.cards = true ∧
          forestClean col.cards = true :=
        toggleCols_wfclean t b.columns cols2 htog hall
      obtain ⟨b2, hp2, hskel2, hset2⟩ :=
        reparse_full { b with columns := cols2 } fp hallT hset
      have hp2a : parse_kanban_structure c2 fp = some b2 := by
        rw [hc2]
        exact hp2
      have h5 : toggleSkelCols t (boardSkel b) =
          some (cols2.map (fun c => (c.name, skelOfForest c.cards))) := by
        have hms := toggleCardInColumns_skel t b.columns
        rw [htog] at hms
        show toggleSkelCols t
          (b.columns.map (fun c => (c.name, skelOfForest c.cards))) = _
        rw [← hms]
        rfl
      have h5b : toggleSkelCols t (boardSkel b) = some (boardSkel b2) := by
        rw [hskel2]
        exact h5
      have hokB : ∀ p ∈ boardSkel b, statusOKSkelList p.2 = true := by
        intro p hp3
        rw [show boardSkel b =
          b.columns.map (fun c => (c.name, skelOfForest c.cards)) from rfl] at hp3
        rw [List.mem_map] at hp3
        obtain ⟨col, hcol, hfe⟩ := hp3
        rw [← hfe]
        exact wf_statusOK_forest col.cards (hall col hcol).2.1
      have hinv : toggleSkelCols t (boardSkel b2) = some (boardSkel b) :=
        toggleSkelCols_invol t (boardSkel b) (boardSkel b2) hokB h5b
      have hmirror2 := toggleCardInColumns_skel t b2.columns
      rw [show b2.columns.map (fun c => (c.name, skelOfForest c.cards)) =
        boardSkel b2 from rfl, hinv] at hmirror2
      cases htog2 : toggleCardInColumns t none b2.columns with
      | none =>
          rw [htog2] at hmirror2
          exact Option.noConfusion hmirror2
      | some cols3 =>
          rw [htog2] at hmirror2
          have hskel3 : cols3.map (fun c => (c.name, skelOfForest c.cards)) =
              boardSkel b :=
            Option.some.inj hmirror2
          have hwf2 := parse_wf c2 fp b2 hp2a
          have hset2a : b2.settings = b.settings := hset2
          have hclean2 : ∀ col ∈ b2.columns, forestClean col.cards = true := by
            intro col hcol
            have hmapeq : b2.columns.map (fun c => (c.name, skelOfForest c.cards)) =
                cols2.map (fun c => (c.name, skelOfForest c.cards)) := by
              show boardSkel b2 = _
              rw [hskel2]
              rfl
            obtain ⟨colT, hcolT, hfeq⟩ :=
              map_eq_mem _ b2.columns cols2 hmapeq col hcol
            have hskeq : skelOfForest col.cards = skelOfForest colT.cards :=
              congrArg Prod.snd hfeq
            rw [clean_skel_forest, hskeq, ← clean_skel_forest]
            exact (hallT colT hcolT).2.2
          have hall2 : ∀ col ∈ b2.columns, wfName col.name = true ∧
              wfForest col.cards = true ∧ forestClean col.cards = true :=
            fun col hcol => ⟨(hwf2 col hcol).1, (hwf2 col hcol).2, hclean2 col hcol⟩
          have hall3 : ∀ col ∈ cols3, wfName col.name = true ∧
              wfForest col.cards = true ∧ forestClean col.cards = true :=
            toggleCols_wfclean t b2.columns cols3 htog2 hall2
          have hsetB3 : ({ b2 with columns := cols3 } : KanbanBoard).settings = [] ∨
              ({ b2 with columns := cols3 } : KanbanBoard).settings =
                [(strOf ("kanban-plugin"), strOf ("basic"))] := by
            rw [show ({ b2 with columns := cols3 } : KanbanBoard).settings =
              b2.settings from rfl, hset2a]
            exact hset
          obtain ⟨b3, hp3b, hskel3b, hset3⟩ :=
            reparse_full { b2 with columns := cols3 } fp hall3 hsetB3
          refine ⟨b2, write_kanban_board_content { b2 with columns := cols3 }, b3,
            hp2a, h5b, hset2a, ?_, hp3b, ?_, ?_⟩
          · show (match parse_kanban_structure c2 fp with
              | none => none
              | some board =>
                  match toggleCardInColumns t none board.columns with
                  | none => none
                  | some cols4 =>
                      some (write_kanban_board_content
                        { board with columns := cols4 })) = _
            rw [hp2a]
            show (match toggleCardInColumns t none b2.columns with
              | none => none
              | some cols4 =>
                  some (write_kanban_board_content { b2 with columns := cols4 })) = _
            rw [htog2]
          · rw [hskel3b]
            show cols3.map (fun c => (c.name, skelOfForest c.cards)) = boardSkel b
            exact hskel3
          · rw [hset3]
            show b2.settings = b.settings
            exact hset2a

theorem C10_amended_witness :
    ∃ (b2 : KanbanBoard) (c3 : Str) (b3 : KanbanBoard),
      parse_kanban_structure exT10c2 (strOf ("t.md")) = some b2 ∧
      toggleSkelCols (strOf ("x")) (boardSkel exT10board) = some (boardSkel b2) ∧
      b2.settings = exT10board.settings ∧
      toggle_kanban_card exT10c2 (strOf ("t.md")) (strOf ("x")) none = some c3 ∧
      parse_kanban_structure c3 (strOf ("t.md")) = some b3 ∧
      boardSkel b3 = boardSkel exT10board ∧ b3.settings = exT10board.settings :=
  C10_amended exT10 (strOf ("t.md")) (strOf ("x")) exT10c2 exT10board rfl
    (by decide) rfl
